import Mathlib

/-!
# string_to_double (src/string_to_double.c)

A shallow embedding of the decimal text converter and the properties of it
that the specification states.

* The input is the list of bytes before the terminating NUL; reading the
  position just after the last byte yields the terminator `0`, reading any
  position further on is a fault.
* `int` variables that hold character counts (`mantSize`, `decPt`, `fracExp`)
  are bounded by the length of the input, which is taken to be below `2^31`;
  they are integers without wrap-around.  Every `int` operation on the two
  digit accumulators and on the exponent goes through `wrap32`.
* The `double` arithmetic is a parameter (`DblOps`): `exactOps` computes over
  the rationals, `ieeeOps` over a model of binary64 with rounding to nearest.
-/

namespace RetroJson

/-! ## Machine model -/

/-- Result of an `int` operation: 32 bits, two's complement, overflow wraps. -/
def wrap32 (x : Int) : Int := (x + 2147483648) % 4294967296 - 2147483648

/-- Ways in which a run leaves the behaviour C defines. -/
inductive Fault where
  /-- a read of the input past its terminating NUL -/
  | strRead
  /-- a read of `powersOf10` outside its nine entries -/
  | tableRead
  /-- a loop did not stop within the iterations it was given -/
  | fuel
  deriving DecidableEq

/-- Outcomes of a run can be compared. -/
instance decEqExcept {ε α : Type} [DecidableEq ε] [DecidableEq α] : DecidableEq (Except ε α)
  | .ok a, .ok b => if h : a = b then isTrue (by rw [h]) else isFalse (fun h' => h (by cases h'; rfl))
  | .error a, .error b =>
    if h : a = b then isTrue (by rw [h]) else isFalse (fun h' => h (by cases h'; rfl))
  | .ok _, .error _ => isFalse (fun h => by cases h)
  | .error _, .ok _ => isFalse (fun h => by cases h)

/-- The `double` operations and literals the procedure uses. -/
structure DblOps (α : Type) where
  /-- conversion of an `int` to `double` -/
  ofInt : Int → α
  /-- the literal `1.0eN` (`lit 0` is `1.0`, `lit 1` is `10.`) -/
  lit : Nat → α
  /-- the literal `0.0` -/
  zero : α
  /-- `x + y` -/
  add : α → α → α
  /-- `x * y` -/
  mul : α → α → α
  /-- `x / y` -/
  div : α → α → α
  /-- `-x` -/
  neg : α → α

/-- What a call hands back: the return value, the offset stored through
`endPtr`, and whether the call assigned `ERANGE` to `errno`. -/
structure Result (α : Type) where
  value : α
  endPos : Nat
  erange : Bool
  deriving DecidableEq

/-- Read of `string[p]`: `*p`. -/
def rd (s : List Nat) (p : Nat) : Except Fault Nat :=
  if p < s.length then .ok (s.getD p 0)
  else if p = s.length then .ok 0
  else .error .strRead

/-- `isspace` in the C locale. -/
def isspace (c : Nat) : Bool := c = 32 || (9 ≤ c && c ≤ 13)

/-- `isdigit`. -/
def isdigit (c : Nat) : Bool := 48 ≤ c && c ≤ 57

/-- Largest possible base 10 exponent. -/
def maxExponent : Int := 511

/-- Table giving binary powers of 10: entry `i` is the literal for `10^2^i`. -/
def powersOf10 {α : Type} (ops : DblOps α) : List α :=
  [ops.lit 1, ops.lit 2, ops.lit 4, ops.lit 8, ops.lit 16, ops.lit 32, ops.lit 64,
   ops.lit 128, ops.lit 256]

/-- Read of `*d` for `d = powersOf10 + i`. -/
def rdTable {α : Type} (ops : DblOps α) (i : Nat) : Except Fault α :=
  match (powersOf10 ops).get? i with
  | some x => .ok x
  | none => .error .tableRead

/-! ## The procedure, block by block -/

/-- Lines 82-84: `while (isspace(*p)) p += 1;`. -/
def skipSpace (s : List Nat) : Nat → Nat → Except Fault Nat
  | 0, _ => .error .fuel
  | fuel + 1, p => do
    let c ← rd s p
    if isspace c then skipSpace s fuel (p + 1) else pure p

/-- Lines 85-93: the optional sign; yields `sign` and the new `p`. -/
def readSign (s : List Nat) (p : Nat) : Except Fault (Bool × Nat) := do
  let c ← rd s p
  if c = 45 then pure (true, p + 1)
  else if c = 43 then pure (false, p + 1)
  else pure (false, p)

/-- Lines 99-110: count the characters of the mantissa run and locate the
decimal point; state is `(p, mantSize, decPt)`. -/
def scanMantissa (s : List Nat) : Nat → Nat → Int → Int → Except Fault (Nat × Int × Int)
  | 0, _, _, _ => .error .fuel
  | fuel + 1, p, mantSize, decPt => do
    let c ← rd s p
    if !isdigit c then
      if c ≠ 46 ∨ decPt ≥ 0 then pure (p, mantSize, decPt)
      else scanMantissa s fuel (p + 1) (mantSize + 1) mantSize
    else scanMantissa s fuel (p + 1) (mantSize + 1) decPt

/-- Lines 139-148 and 150-159: `for ( ; mantSize > lim; mantSize -= 1)` folding
one digit per iteration into `frac`; state is `(p, mantSize, frac)`. -/
def fracLoop (s : List Nat) (lim : Int) : Nat → Nat → Int → Int → Except Fault (Nat × Int × Int)
  | 0, _, _, _ => .error .fuel
  | fuel + 1, p, mantSize, frac =>
    if mantSize > lim then do
      let c ← rd s p
      let p := p + 1
      if c = 46 then do
        let c ← rd s p
        let p := p + 1
        fracLoop s lim fuel p (mantSize - 1) (wrap32 (wrap32 (10 * frac) + ((c : Int) - 48)))
      else
        fracLoop s lim fuel p (mantSize - 1) (wrap32 (wrap32 (10 * frac) + ((c : Int) - 48)))
    else pure (p, mantSize, frac)

/-- Lines 183-186: `while (isdigit(*p)) { exp = exp * 10 + (*p - '0'); p += 1; }`. -/
def scanExpDigits (s : List Nat) : Nat → Nat → Int → Except Fault (Nat × Int)
  | 0, _, _ => .error .fuel
  | fuel + 1, p, exp => do
    let c ← rd s p
    if isdigit c then
      scanExpDigits s fuel (p + 1) (wrap32 (wrap32 (exp * 10) + ((c : Int) - 48)))
    else pure (p, exp)

/-- Lines 212-216: `for (d = powersOf10; exp != 0; exp >>= 1, d += 1)`; `d` is
the index into the table. -/
def powLoop {α : Type} (ops : DblOps α) : Nat → Int → Nat → α → Except Fault α
  | 0, _, _, _ => .error .fuel
  | fuel + 1, exp, d, dblExp =>
    if exp ≠ 0 then
      if exp % 2 = 1 then do
        let t ← rdTable ops d
        powLoop ops fuel (exp / 2) (d + 1) (ops.mul dblExp t)
      else powLoop ops fuel (exp / 2) (d + 1) dblExp
    else pure dblExp

/-- Lines 223-231, the label `done`: store `p`, apply the sign. -/
def done {α : Type} (ops : DblOps α) (sign : Bool) (fraction : α) (p : Nat) (erange : Bool) :
    Result α :=
  { value := if sign then ops.neg fraction else fraction, endPos := p, erange := erange }

/-- State after lines 81-131. -/
structure Header where
  sign : Bool
  /-- position after the mantissa run -/
  pExp : Nat
  /-- position of the first character of the mantissa run -/
  p : Nat
  decPt : Int
  /-- digits to fold, at most 18 -/
  mantSize : Int
  fracExp : Int
  deriving DecidableEq

/-- Lines 81-131. -/
def header (s : List Nat) : Except Fault Header := do
  let fuel := s.length + 1
  let p ← skipSpace s fuel 0
  let (sign, p) ← readSign s p
  let (p, mantSize, decPt) ← scanMantissa s fuel p 0 (-1)
  let pExp := p
  let p := Int.toNat ((p : Int) - mantSize)
  let (decPt, mantSize) := if decPt < 0 then (mantSize, mantSize) else (decPt, mantSize - 1)
  let (fracExp, mantSize) :=
    if mantSize > 18 then (decPt - 18, (18 : Int)) else (decPt - mantSize, mantSize)
  pure { sign := sign, pExp := pExp, p := p, decPt := decPt, mantSize := mantSize,
         fracExp := fracExp }

/-- Lines 137-159: the two accumulators `(frac1, frac2)`. -/
def accumulate (s : List Nat) (h : Header) : Except Fault (Int × Int) := do
  let (p, mantSize, frac1) ← fracLoop s 9 19 h.p h.mantSize 0
  let (_, _, frac2) ← fracLoop s 0 19 p mantSize 0
  pure (frac1, frac2)

/-- Lines 167-187: the exponent field read at `pExp`.  `none` is the jump to
`done` with `p = pExp` (marker without a digit); otherwise `(expSign, exp, p)`. -/
def exponentField (s : List Nat) (pExp : Nat) : Except Fault (Option (Bool × Int × Nat)) := do
  let c ← rd s pExp
  if c = 69 ∨ c = 101 then
    let p := pExp + 1
    let c ← rd s p
    let (expSign, p) := if c = 45 then (true, p + 1) else if c = 43 then (false, p + 1)
      else (false, p)
    let c ← rd s p
    if !isdigit c then pure none
    else
      let (p, exp) ← scanExpDigits s (s.length + 1) p 0
      pure (some (expSign, exp, p))
  else pure (some (false, 0, pExp))

/-- Lines 188-210: combine the exponents, split off the sign, clamp; yields
`(expSign, exp, errno assigned)`. -/
def combineExponent (fracExp : Int) (expSign : Bool) (exp : Int) : Bool × Int × Bool :=
  let exp := if expSign then wrap32 (fracExp - exp) else wrap32 (fracExp + exp)
  let (expSign, exp) := if exp < 0 then (true, wrap32 (-exp)) else (false, exp)
  if exp > maxExponent then (expSign, maxExponent, true) else (expSign, exp, false)

/-- Lines 188-221 followed by `done`. -/
def scale {α : Type} (ops : DblOps α) (sign : Bool) (fraction : α) (fracExp : Int)
    (expSign : Bool) (exp : Int) (p : Nat) : Except Fault (Result α) := do
  let (expSign, exp, erange) := combineExponent fracExp expSign exp
  let dblExp ← powLoop ops 64 exp 0 (ops.lit 0)
  let fraction := if expSign then ops.div fraction dblExp else ops.mul fraction dblExp
  pure (done ops sign fraction p erange)

/-- The procedure `string_to_double`. -/
def string_to_double {α : Type} (ops : DblOps α) (s : List Nat) : Except Fault (Result α) := do
  let h ← header s
  if h.mantSize = 0 then
    pure (done ops h.sign ops.zero 0 false)
  else
    let (frac1, frac2) ← accumulate s h
    let fraction := ops.add (ops.mul (ops.lit 9) (ops.ofInt frac1)) (ops.ofInt frac2)
    match ← exponentField s h.pExp with
    | none => pure (done ops h.sign fraction h.pExp false)
    | some (expSign, exp, p) => scale ops h.sign fraction h.fracExp expSign exp p

/-- Exact arithmetic: every operation and literal denotes its rational value. -/
def exactOps : DblOps ℚ where
  ofInt := fun i => (i : ℚ)
  lit := fun n => ((10 ^ n : Nat) : ℚ)
  zero := 0
  add := fun x y => x + y
  mul := fun x y => x * y
  div := fun x y => x / y
  neg := fun x => -x

/-- Bytes of an ASCII text. -/
def bytes (t : String) : List Nat := t.toList.map Char.toNat

/-! ## Vocabulary for stating the properties -/

/-- First character of a suffix of the input, the terminator when it is empty. -/
def peek : List Nat → Nat
  | [] => 0
  | c :: _ => c

/-- Every character of the list is a decimal digit. -/
def AllDigits (l : List Nat) : Prop := ∀ c ∈ l, isdigit c = true

/-- Every character of the list is white space. -/
def AllSpace (l : List Nat) : Prop := ∀ c ∈ l, isspace c = true

instance (l : List Nat) : Decidable (AllDigits l) := by unfold AllDigits; infer_instance
instance (l : List Nat) : Decidable (AllSpace l) := by unfold AllSpace; infer_instance

/-- The decimal point as it stands in the text: one character or none. -/
def pointText (pt : Bool) : List Nat := if pt then [46] else []

/-- The sign as it stands in the text: absent, `+` or `-`. -/
def signText : Option Bool → List Nat
  | none => []
  | some false => [43]
  | some true => [45]

/-- Text of a mantissa run: integer digits, optional point, fraction digits. -/
def mantText (ip : List Nat) (pt : Bool) (fp : List Nat) : List Nat := ip ++ (pointText pt ++ fp)

/-- Horner value of a digit run continued from `a`. -/
def digitsFrom (a : Nat) (ds : List Nat) : Nat := ds.foldl (fun a c => 10 * a + (c - 48)) a

/-- The integer a run of digits denotes. -/
def digitsVal (ds : List Nat) : Nat := digitsFrom 0 ds

/-- Text of an exponent field: marker, optional sign, digits. -/
def expText (m : Nat) (es : Option Bool) (ed : List Nat) : List Nat := m :: (signText es ++ ed)

/-- Digits folded into the accumulators. -/
def foldCount (digits : List Nat) : Nat := min digits.length 18

/-- Value of `frac1` after line 148 for the digits of a mantissa run. -/
def frac1Of (digits : List Nat) : Nat := digitsVal (digits.take (foldCount digits - 9))

/-- Value of `frac2` after line 159 for the digits of a mantissa run. -/
def frac2Of (digits : List Nat) : Nat :=
  digitsVal ((digits.drop (foldCount digits - 9)).take (min (foldCount digits) 9))

/-- Line 160: `fraction = (1.0e9 * frac1) + frac2`. -/
def fractionOf {α : Type} (ops : DblOps α) (digits : List Nat) : α :=
  ops.add (ops.mul (ops.lit 9) (ops.ofInt (frac1Of digits))) (ops.ofInt (frac2Of digits))

/-- Value of `fracExp` after line 131. -/
def fracExpOf (ip fp : List Nat) : Int := (ip.length : Int) - (foldCount (ip ++ fp) : Nat)

/-- State after lines 81-131 for `ws sign ip [. fp]`. -/
def headerOf (ws ip fp : List Nat) (sg : Option Bool) (pt : Bool) : Header :=
  { sign := sg = some true
    pExp := ws.length + (signText sg).length + (mantText ip pt fp).length
    p := ws.length + (signText sg).length
    decPt := ip.length
    mantSize := ((min (ip.length + fp.length) 18 : Nat) : Int)
    fracExp := (ip.length : Int) - ((min (ip.length + fp.length) 18 : Nat) : Int) }

/-- An exponent field: marker, optional sign, digits. -/
abbrev ExpField := Nat × Option Bool × List Nat

/-- A numeral read by the grammar
`whitespace* [+-]? (digit+ ('.' digit*)? | '.' digit+) ([eE] [+-]? digit+)?`:
white space, sign, integer digits, whether a point is there, fraction digits, exponent field. -/
structure Numeral where
  ws : List Nat
  sign : Option Bool
  ip : List Nat
  pt : Bool
  fp : List Nat
  exp : Option ExpField

/-- Text of an optional exponent field. -/
def expFieldText : Option ExpField → List Nat
  | none => []
  | some (m, es, ed) => expText m es ed

/-- An exponent field follows the grammar `[eE] [+-]? digit+`. -/
def ExpWF : Option ExpField → Prop
  | none => True
  | some (m, _, ed) => (m = 69 ∨ m = 101) ∧ AllDigits ed ∧ ed ≠ []

/-- The characters of a numeral. -/
def Numeral.text (N : Numeral) : List Nat :=
  N.ws ++ (signText N.sign ++ (mantText N.ip N.pt N.fp ++ expFieldText N.exp))

/-- The parts of a numeral follow the grammar. -/
def Numeral.WF (N : Numeral) : Prop :=
  AllSpace N.ws ∧ AllDigits N.ip ∧ AllDigits N.fp ∧ (N.pt = false → N.fp = []) ∧
    N.ip ++ N.fp ≠ [] ∧ ExpWF N.exp

/-- All digits of the mantissa, the point left out. -/
def Numeral.digits (N : Numeral) : List Nat := N.ip ++ N.fp

/-- The exponent sign flag an exponent field sets. -/
def expSignOf : Option ExpField → Bool
  | none => false
  | some (_, es, _) => es = some true

/-- The integer the digits of an exponent field denote, 0 without a field. -/
def expMagnitude : Option ExpField → Nat
  | none => 0
  | some (_, _, ed) => digitsVal ed

/-- Characters that may follow the numeral without being read as part of it: no digit, and
after a numeral without exponent field no exponent marker and no first point. -/
def Follows (N : Numeral) (rest : List Nat) : Prop :=
  isdigit (peek rest) = false ∧
    (N.exp = none → (N.pt = false → peek rest ≠ 46) ∧ peek rest ≠ 69 ∧ peek rest ≠ 101)

/-- The text does not start with a complete exponent field: either no marker stands first,
or the marker and its optional sign are not followed by a digit. -/
def NoExp (u : List Nat) : Prop :=
  (peek u ≠ 69 ∧ peek u ≠ 101) ∨
    ∃ (m : Nat) (es : Option Bool) (r : List Nat), u = m :: (signText es ++ r) ∧
      (m = 69 ∨ m = 101) ∧ (es = none → peek r ≠ 43 ∧ peek r ≠ 45) ∧ isdigit (peek r) = false

/-- Nothing of `rest` can lengthen the numeral `N`. -/
def MaxFollows (N : Numeral) (rest : List Nat) : Prop :=
  isdigit (peek rest) = false ∧ (N.exp = none → (N.pt = false → peek rest ≠ 46) ∧ NoExp rest)

/-- Some prefix of the text is a numeral. -/
def IsNumeralText (l : List Nat) : Prop := ∃ N : Numeral, N.WF ∧ N.text = l

/-- Position `e` ends the longest prefix of `s` that is a numeral, and is 0 when no prefix
is one. -/
def LongestMatchEnd (s : List Nat) (e : Nat) : Prop :=
  (e ≤ s.length ∧ IsNumeralText (s.take e) ∧
      ∀ k, k ≤ s.length → IsNumeralText (s.take k) → k ≤ e) ∨
    (e = 0 ∧ ∀ k, k ≤ s.length → ¬ IsNumeralText (s.take k))

/-- Factor `-1` for a numeral with a minus sign, `1` otherwise. -/
def signFactor (sg : Option Bool) : ℚ := if sg = some true then -1 else 1

/-- The integer `M` denoted by all digits of the mantissa. -/
def Numeral.mant (N : Numeral) : Nat := digitsVal N.digits

/-- The signed integer the exponent field denotes, 0 without a field. -/
def Numeral.expInt (N : Numeral) : Int :=
  if expSignOf N.exp then -(expMagnitude N.exp : Int) else (expMagnitude N.exp : Int)

/-- The decimal exponent `x = decPt - n ± E` that belongs to the integer `M`. -/
def Numeral.decExp (N : Numeral) : Int :=
  (N.ip.length : Int) - (N.digits.length : Int) + N.expInt

/-- The decimal value of a mantissa: integer part plus fraction part. -/
def mantissaValue (ip fp : List Nat) : ℚ := (digitsVal ip : ℚ) + (digitsVal fp : ℚ) / 10 ^ fp.length

/-- The number a numeral denotes. -/
def Numeral.value (N : Numeral) : ℚ :=
  signFactor N.sign * mantissaValue N.ip N.fp * (10 : ℚ) ^ N.expInt

/-- The value formed by lines 217-231 from `M`, the exponent `x` and the sign: a product for
`x ≥ 0`, a quotient for `x < 0`. -/
def formed (sg : Option Bool) (M : Nat) (x : Int) : ℚ :=
  signFactor sg * (if x < 0 then (M : ℚ) / 10 ^ x.natAbs else (M : ℚ) * 10 ^ x.natAbs)

/-! ## Binary64 arithmetic: IEEE 754 `double`, rounding to nearest, ties to even -/

/-- A `double` in IEEE 754 binary64: a finite value (zero carries no sign here), an
infinity with its sign, or a NaN. -/
inductive Dbl where
  | fin (q : ℚ)
  | inf (neg : Bool)
  | nan
  deriving DecidableEq

/-- Absolute value of a rational. -/
def qabs (q : ℚ) : ℚ := if q < 0 then -q else q

/-- Power of two with an integer exponent. -/
def pow2 (e : Int) : ℚ :=
  if 0 ≤ e then ((2 ^ e.toNat : Nat) : ℚ) else 1 / ((2 ^ (-e).toNat : Nat) : ℚ)

/-- The first `j'` from `j` on with `n < 2^(2^j')`. -/
def log2Span : Nat → Nat → Nat → Nat
  | 0, _, j => j
  | fuel + 1, n, j => if n < 2 ^ 2 ^ j then j else log2Span fuel n (j + 1)

/-- The integer part of the binary logarithm of `n ≥ 1` when `n < 2^(2^j)`, found by halving
the span of bits. -/
def log2Halving : Nat → Nat → Nat
  | 0, _ => 0
  | j + 1, n =>
    if n < 2 ^ 2 ^ j then log2Halving j n else 2 ^ j + log2Halving j (n / 2 ^ 2 ^ j)

/-- The integer part of the binary logarithm of `n ≥ 1`. -/
def natLog2 (n : Nat) : Nat := log2Halving (log2Span n n 0) n

/-- The largest exponent `e` with `2^e ≤ |q|`, for `q ≠ 0`. -/
def ilog2 (q : ℚ) : Int :=
  if pow2 ((natLog2 q.num.natAbs : Int) - (natLog2 q.den : Int)) ≤ qabs q then
    (natLog2 q.num.natAbs : Int) - (natLog2 q.den : Int)
  else (natLog2 q.num.natAbs : Int) - (natLog2 q.den : Int) - 1

/-- Nearest integer to `x ≥ 0`, a tie going to the even neighbour. -/
def roundHalfEven (x : ℚ) : Nat :=
  if x - ((x.num.natAbs / x.den : Nat) : ℚ) < 1 / 2 then x.num.natAbs / x.den
  else if 1 / 2 < x - ((x.num.natAbs / x.den : Nat) : ℚ) then x.num.natAbs / x.den + 1
  else if (x.num.natAbs / x.den) % 2 = 0 then x.num.natAbs / x.den
  else x.num.natAbs / x.den + 1

/-- Magnitudes from `2^1024 - 2^970` on round to an infinity. -/
def overflowThreshold : ℚ := pow2 1024 - pow2 970

/-- Exponent of the unit in the last place around `q`: 53 significant bits, and the
subnormal spacing `2^-1074` below `2^-1022`. -/
def quantumExp (q : ℚ) : Int := max (ilog2 q) (-1022) - 52

/-- Rounding of a rational to binary64: to nearest, ties to even. -/
def roundD (q : ℚ) : Dbl :=
  if q = 0 then .fin 0
  else if overflowThreshold ≤ qabs q then .inf (decide (q < 0))
  else .fin ((if q < 0 then -1 else 1)
    * (roundHalfEven (qabs q / pow2 (quantumExp q)) : ℚ) * pow2 (quantumExp q))

/-- Negation of a `double`. -/
def Dbl.neg : Dbl → Dbl
  | .fin q => .fin (-q)
  | .inf s => .inf (!s)
  | .nan => .nan

/-- Sum of two `double`s. -/
def Dbl.add : Dbl → Dbl → Dbl
  | .fin a, .fin b => roundD (a + b)
  | .fin _, .inf s => .inf s
  | .inf s, .fin _ => .inf s
  | .inf s, .inf t => if s = t then .inf s else .nan
  | .nan, _ => .nan
  | _, .nan => .nan

/-- Product of two `double`s. -/
def Dbl.mul : Dbl → Dbl → Dbl
  | .fin a, .fin b => roundD (a * b)
  | .fin a, .inf s => if a = 0 then .nan else .inf (xor (decide (a < 0)) s)
  | .inf s, .fin b => if b = 0 then .nan else .inf (xor s (decide (b < 0)))
  | .inf s, .inf t => .inf (xor s t)
  | .nan, _ => .nan
  | _, .nan => .nan

/-- Quotient of two `double`s. -/
def Dbl.div : Dbl → Dbl → Dbl
  | .fin a, .fin b =>
    if b = 0 then (if a = 0 then .nan else .inf (decide (a < 0))) else roundD (a / b)
  | .fin _, .inf _ => .fin 0
  | .inf s, .fin b => .inf (xor s (decide (b < 0)))
  | .inf _, .inf _ => .nan
  | .nan, _ => .nan
  | _, .nan => .nan

instance (e : Option ExpField) : Decidable (ExpWF e) :=
  match e with
  | none => isTrue trivial
  | some (m, _, ed) =>
    if h : (m = 69 ∨ m = 101) ∧ AllDigits ed ∧ ed ≠ [] then isTrue h else isFalse h

instance (N : Numeral) : Decidable N.WF := by unfold Numeral.WF; infer_instance

/-! ## Inputs named in the properties -/

/-- Digits of a run from its first nonzero digit on. -/
def significantDigits (digits : List Nat) : Nat := (digits.dropWhile (fun c => c == 48)).length

/-- The numeral `0.0000000000000000001`: nineteen fraction digits, one of them nonzero. -/
def tinyNumeral : Numeral :=
  ⟨[], none, [48], true, List.replicate 18 48 ++ [49], none⟩

/-- The numeral `1.5`, read below in front of a marker without digits. -/
def fractionNumeral : Numeral :=
  ⟨[], none, bytes "1", true, bytes "5", none⟩

/-- The numeral `1e4294967296`. -/
def wrappingNumeral : Numeral :=
  ⟨[], none, [49], false, [], some (101, none, bytes "4294967296")⟩

instance (N : Numeral) (rest : List Nat) : Decidable (Follows N rest) := by
  unfold Follows; infer_instance

/-- Lines 139-148 and 150-159 as in `fracLoop`, with a record that takes one entry per
iteration: the character `c` that is folded and the value of `10*frac + (c - '0')` before
it is stored in the `int`. -/
def fracLoopTrace (s : List Nat) (lim : Int) :
    Nat → Nat → Int → Int → List (Nat × Int) → Except Fault (Nat × Int × Int × List (Nat × Int))
  | 0, _, _, _, _ => .error .fuel
  | fuel + 1, p, mantSize, frac, tr =>
    if mantSize > lim then do
      let c ← rd s p
      let p := p + 1
      if c = 46 then do
        let c ← rd s p
        let p := p + 1
        fracLoopTrace s lim fuel p (mantSize - 1) (wrap32 (wrap32 (10 * frac) + ((c : Int) - 48)))
          (tr ++ [(c, 10 * frac + ((c : Int) - 48))])
      else
        fracLoopTrace s lim fuel p (mantSize - 1) (wrap32 (wrap32 (10 * frac) + ((c : Int) - 48)))
          (tr ++ [(c, 10 * frac + ((c : Int) - 48))])
    else pure (p, mantSize, frac, tr)

/-- Lines 137-159 as in `accumulate`, with the records of the two loops. -/
def accumulateTrace (s : List Nat) (h : Header) :
    Except Fault ((Int × Int) × List (Nat × Int) × List (Nat × Int)) := do
  let (p, mantSize, frac1, tr1) ← fracLoopTrace s 9 19 h.p h.mantSize 0 []
  let (_, _, frac2, tr2) ← fracLoopTrace s 0 19 p mantSize 0 []
  pure ((frac1, frac2), tr1, tr2)

/-- The record of folding the digits `ds` into an accumulator that holds `a`, in integers
without bound. -/
def foldTrace (a : Nat) : List Nat → List (Nat × Int)
  | [] => []
  | c :: ds => (c, ((10 * a + (c - 48) : Nat) : Int)) :: foldTrace (10 * a + (c - 48)) ds

/-! ## Rounding error -/

@[simp] theorem peek_nil : peek [] = 0 := rfl
@[simp] theorem peek_cons (c : Nat) (t : List Nat) : peek (c :: t) = c := rfl

theorem rd_append_cons (pre : List Nat) (c : Nat) (t : List Nat) :
    rd (pre ++ c :: t) pre.length = .ok c := by
  have h : pre.length < (pre ++ c :: t).length := by simp
  simp only [rd, h, if_true, List.getD_eq_getElem?_getD]
  congr 1
  induction pre with
  | nil => simp
  | cons a pre ih => simpa using ih (by simp)

theorem rd_append (pre t : List Nat) : rd (pre ++ t) pre.length = .ok (peek t) := by
  cases t with
  | nil => simp [rd]
  | cons c t => exact rd_append_cons pre c t

theorem skipSpace_run (ws : List Nat) : ∀ (pre t : List Nat) (fuel : Nat), AllSpace ws →
    isspace (peek t) = false → ws.length < fuel →
    skipSpace (pre ++ ws ++ t) fuel pre.length = .ok (pre.length + ws.length) := by
  induction ws with
  | nil =>
    intro pre t fuel _ ht hf
    obtain ⟨fuel, rfl⟩ : ∃ k, fuel = k + 1 := ⟨fuel - 1, by simp only [List.length_cons, List.length_nil] at hf; omega⟩
    simp [skipSpace, rd_append, ht, bind, Except.bind, pure, Except.pure]
  | cons c ws ih =>
    intro pre t fuel hws ht hf
    obtain ⟨fuel, rfl⟩ : ∃ k, fuel = k + 1 := ⟨fuel - 1, by simp only [List.length_cons, List.length_nil] at hf; omega⟩
    have hc : isspace c = true := hws c (by simp)
    have h := ih (pre ++ [c]) t fuel (fun x hx => hws x (by simp [hx])) ht
      (by simp only [List.length_cons] at hf; omega)
    simp only [List.append_assoc, List.singleton_append, List.length_append, List.length_singleton] at h
    simp only [skipSpace, List.append_assoc, List.cons_append, rd_append_cons, bind, Except.bind, hc, if_true, h,
      List.length_cons]
    rw [show pre.length + (ws.length + 1) = pre.length + 1 + ws.length by omega]
    simpa using h

theorem isdigit_ne_point {c : Nat} (h : isdigit c = true) : c ≠ 46 := by
  intro hc; subst hc; simp [isdigit] at h

/-- The scan consumes a run of digits, counting each. -/
theorem scanMantissa_digits (s : List Nat) (ds : List Nat) : ∀ (pre t : List Nat) (fuel : Nat)
    (m d : Int), s = pre ++ (ds ++ t) → AllDigits ds →
    scanMantissa s (fuel + ds.length) pre.length m d
      = scanMantissa s fuel (pre.length + ds.length) (m + ds.length) d := by
  induction ds with
  | nil => intro pre t fuel m d _ _; simp
  | cons c ds ih =>
    intro pre t fuel m d hs hds
    have hc : isdigit c = true := hds c (by simp)
    have h := ih (pre ++ [c]) t fuel (m + 1) d (by simp [hs]) (fun x hx => hds x (by simp [hx]))
    have hr : rd s pre.length = .ok c := by rw [hs]; exact rd_append_cons pre c (ds ++ t)
    rw [show fuel + (c :: ds).length = (fuel + ds.length) + 1 by simp; omega]
    simp only [scanMantissa, hr, bind, Except.bind, hc, Bool.not_true]
    simp only [List.length_append, List.length_singleton] at h
    simp only [List.length_cons, Nat.cast_add, Nat.cast_one]
    rw [show pre.length + (ds.length + 1) = pre.length + 1 + ds.length by omega,
      show m + ((ds.length : Int) + 1) = m + 1 + ds.length by omega]
    simpa using h

/-- The scan steps over the first decimal point and records where it was. -/
theorem scanMantissa_point (s pre t : List Nat) (fuel : Nat) (m d : Int)
    (hs : s = pre ++ 46 :: t) (hd : d < 0) :
    scanMantissa s (fuel + 1) pre.length m d = scanMantissa s fuel (pre.length + 1) (m + 1) m := by
  have hr : rd s pre.length = .ok 46 := by rw [hs]; exact rd_append_cons pre 46 t
  have hd' : ¬ d ≥ 0 := by omega
  simp [scanMantissa, hr, bind, Except.bind, isdigit, hd']

/-- The scan stops at a character that is neither a digit nor a first point. -/
theorem scanMantissa_stop (s pre t : List Nat) (fuel : Nat) (m d : Int)
    (hs : s = pre ++ t) (h1 : isdigit (peek t) = false) (h2 : peek t ≠ 46 ∨ d ≥ 0) :
    scanMantissa s (fuel + 1) pre.length m d = .ok (pre.length, m, d) := by
  have hr : rd s pre.length = .ok (peek t) := by rw [hs]; exact rd_append pre t
  simp [scanMantissa, hr, bind, Except.bind, h1, h2, pure, Except.pure]

/-- Lines 99-110 on a mantissa run `ip [. fp]` followed by `tail`. -/
theorem scanMantissa_run (s pre ip fp tail : List Nat) (pt : Bool) (fuel : Nat)
    (hs : s = pre ++ (ip ++ (pointText pt ++ (fp ++ tail))))
    (hip : AllDigits ip) (hfp : AllDigits fp) (hpt : pt = false → fp = [])
    (h1 : isdigit (peek tail) = false) (h2 : pt = false → peek tail ≠ 46)
    (hf : ip.length + (pointText pt).length + fp.length < fuel) :
    scanMantissa s fuel pre.length 0 (-1)
      = .ok (pre.length + ip.length + (pointText pt).length + fp.length,
             (ip.length : Int) + (pointText pt).length + fp.length,
             if pt then (ip.length : Int) else -1) := by
  cases pt with
  | false =>
    have hfp' := hpt rfl
    subst hfp'
    simp only [pointText, List.nil_append, List.length_nil, Nat.add_zero, Bool.false_eq_true,
      if_false] at hs hf ⊢
    obtain ⟨k, rfl⟩ : ∃ k, fuel = (k + 1) + ip.length := ⟨fuel - ip.length - 1, by omega⟩
    rw [scanMantissa_digits s ip pre tail (k + 1) 0 (-1) hs hip]
    have hs' : s = (pre ++ ip) ++ tail := by simp [hs]
    have := scanMantissa_stop s (pre ++ ip) tail k (0 + ip.length) (-1) hs' h1 (Or.inl (h2 rfl))
    simpa using this
  | true =>
    simp only [pointText, if_true, List.singleton_append, List.length_singleton] at hs hf ⊢
    obtain ⟨k, rfl⟩ : ∃ k, fuel = (((k + 1) + fp.length) + 1) + ip.length :=
      ⟨fuel - ip.length - 1 - fp.length - 1, by omega⟩
    rw [scanMantissa_digits s ip pre (46 :: (fp ++ tail)) _ 0 (-1) hs hip]
    have hs1 : s = (pre ++ ip) ++ 46 :: (fp ++ tail) := by simp [hs]
    have e1 := scanMantissa_point s (pre ++ ip) (fp ++ tail) ((k + 1) + fp.length)
      (0 + ip.length) (-1) hs1 (by omega)
    simp only [List.length_append] at e1
    rw [e1]
    have hs2 : s = (pre ++ ip ++ [46]) ++ (fp ++ tail) := by simp [hs]
    have e2 := scanMantissa_digits s fp (pre ++ ip ++ [46]) tail (k + 1)
      (0 + ip.length + 1) (0 + ip.length) hs2 hfp
    simp only [List.length_append, List.length_singleton] at e2
    rw [e2]
    have hs3 : s = (pre ++ ip ++ [46] ++ fp) ++ tail := by simp [hs]
    have e3 := scanMantissa_stop s (pre ++ ip ++ [46] ++ fp) tail k
      (0 + ip.length + 1 + fp.length) (0 + ip.length) hs3 h1 (Or.inr (by omega))
    simp only [List.length_append, List.length_singleton] at e3
    rw [e3]
    simp

/-- Lines 85-93 on a sign followed by `rest`. -/
theorem readSign_run (s pre rest : List Nat) (sg : Option Bool)
    (hs : s = pre ++ (signText sg ++ rest))
    (h : sg = none → peek rest ≠ 43 ∧ peek rest ≠ 45) :
    readSign s pre.length = .ok (sg = some true, pre.length + (signText sg).length) := by
  match sg with
  | none =>
    have hr : rd s pre.length = .ok (peek rest) := by rw [hs]; exact rd_append pre rest
    obtain ⟨h1, h2⟩ := h rfl
    simp [readSign, hr, bind, Except.bind, h1, h2, signText, pure, Except.pure]
  | some false =>
    have hr : rd s pre.length = .ok 43 := by rw [hs]; exact rd_append_cons pre 43 rest
    simp [readSign, hr, bind, Except.bind, signText, pure, Except.pure]
  | some true =>
    have hr : rd s pre.length = .ok 45 := by rw [hs]; exact rd_append_cons pre 45 rest
    simp [readSign, hr, bind, Except.bind, signText, pure, Except.pure]

theorem mantText_length (ip : List Nat) (pt : Bool) (fp : List Nat) :
    (mantText ip pt fp).length = ip.length + (pointText pt).length + fp.length := by
  simp [mantText]; omega

/-- Lines 81-131 on `ws sign ip [. fp] tail`. -/
theorem header_run (s ws ip fp tail : List Nat) (sg : Option Bool) (pt : Bool)
    (hs : s = ws ++ (signText sg ++ (mantText ip pt fp ++ tail)))
    (hws : AllSpace ws) (hip : AllDigits ip) (hfp : AllDigits fp) (hpt : pt = false → fp = [])
    (h0 : isspace (peek (signText sg ++ (mantText ip pt fp ++ tail))) = false)
    (hsg : sg = none → peek (mantText ip pt fp ++ tail) ≠ 43 ∧ peek (mantText ip pt fp ++ tail) ≠ 45)
    (h1 : isdigit (peek tail) = false) (h2 : pt = false → peek tail ≠ 46) :
    header s = .ok
      { sign := sg = some true
        pExp := ws.length + (signText sg).length + (mantText ip pt fp).length
        p := ws.length + (signText sg).length
        decPt := ip.length
        mantSize := ((min (ip.length + fp.length) 18 : Nat) : Int)
        fracExp := (ip.length : Int) - ((min (ip.length + fp.length) 18 : Nat) : Int) } := by
  have hlen : s.length = ws.length + (signText sg).length + (mantText ip pt fp).length
      + tail.length := by rw [hs]; simp; omega
  have e1 : skipSpace s (s.length + 1) 0 = .ok ws.length := by
    have := skipSpace_run ws [] (signText sg ++ (mantText ip pt fp ++ tail)) (s.length + 1) hws h0
      (by omega)
    simpa [hs] using this
  have e2 := readSign_run s ws (mantText ip pt fp ++ tail) sg hs hsg
  have hs3 : s = (ws ++ signText sg) ++ (ip ++ (pointText pt ++ (fp ++ tail))) := by
    simp [hs, mantText]
  have e3 := scanMantissa_run s (ws ++ signText sg) ip fp tail pt (s.length + 1) hs3 hip hfp hpt
    h1 h2 (by rw [mantText_length] at hlen; omega)
  simp only [List.length_append] at e3
  simp only [header, e1, e2, e3, bind, Except.bind, pure, Except.pure]
  rw [mantText_length]
  have hp : (((ws.length + (signText sg).length + ip.length + (pointText pt).length
      + fp.length : Nat) : Int) - ((ip.length : Int) + (pointText pt).length + fp.length)).toNat
      = ws.length + (signText sg).length := by omega
  rw [hp]
  cases pt with
  | false =>
    have := hpt rfl; subst this
    simp only [pointText, Bool.false_eq_true, if_false, List.length_nil, Nat.cast_zero,
      Int.add_zero, Nat.add_zero]
    have hneg : ((-1 : Int) < 0) := by omega
    simp only [hneg, if_true]
    by_cases h18 : (18 : Int) < ip.length
    · simp only [h18, if_true]
      congr 2 <;> omega
    · simp only [h18, if_false]
      congr 2 <;> omega
  | true =>
    simp only [pointText, if_true, List.length_singleton, Nat.cast_one]
    have hneg : ¬ ((ip.length : Int) < 0) := by omega
    simp only [hneg, if_false]
    by_cases h18 : (18 : Int) < ip.length + 1 + fp.length - 1
    · simp only [h18, if_true]
      congr 2 <;> omega
    · simp only [h18, if_false]
      congr 2 <;> omega

/-! ## The digit accumulators -/

@[simp] theorem digitsFrom_nil (a : Nat) : digitsFrom a [] = a := rfl
@[simp] theorem digitsFrom_cons (a c : Nat) (ds : List Nat) :
    digitsFrom a (c :: ds) = digitsFrom (10 * a + (c - 48)) ds := rfl

theorem digitsFrom_append (a : Nat) (l1 l2 : List Nat) :
    digitsFrom a (l1 ++ l2) = digitsFrom (digitsFrom a l1) l2 := by
  simp [digitsFrom, List.foldl_append]

theorem wrap32_of_lt {x : Int} (h0 : 0 ≤ x) (h1 : x < 2147483648) : wrap32 x = x := by
  unfold wrap32; omega

theorem isdigit_iff {c : Nat} : isdigit c = true ↔ 48 ≤ c ∧ c ≤ 57 := by
  simp [isdigit]

/-- One `frac = 10*frac + (c - '0')` on a digit, below the `int` range. -/
theorem fold_step {a c : Nat} (hc : isdigit c = true) (ha : 10 * (a + 1) ≤ 2147483648) :
    wrap32 (wrap32 (10 * (a : Int)) + ((c : Int) - 48)) = ((10 * a + (c - 48) : Nat) : Int) := by
  obtain ⟨h1, h2⟩ := isdigit_iff.mp hc
  have e1 : wrap32 (10 * (a : Int)) = 10 * (a : Int) := wrap32_of_lt (by omega) (by omega)
  rw [e1, wrap32_of_lt (by omega) (by omega)]
  omega

theorem fracLoop_stop (s : List Nat) (lim : Int) (fuel p : Nat) (m a : Int) (h : m ≤ lim) :
    fracLoop s lim (fuel + 1) p m a = .ok (p, m, a) := by
  have : ¬ m > lim := by omega
  simp [fracLoop, this, pure, Except.pure]

theorem fracLoop_digits (s : List Nat) (lim : Int) (ds : List Nat) :
    ∀ (pre t : List Nat) (fuel : Nat) (m : Int) (a : Nat), s = pre ++ (ds ++ t) → AllDigits ds →
    lim ≤ m → (a + 1) * 10 ^ ds.length ≤ 2147483648 →
    fracLoop s lim (fuel + ds.length) pre.length (m + ds.length) a
      = fracLoop s lim fuel (pre.length + ds.length) m (digitsFrom a ds : Nat) := by
  induction ds with
  | nil => intro pre t fuel m a _ _ _ _; simp
  | cons c ds ih =>
    intro pre t fuel m a hs hds hm ha
    have hc : isdigit c = true := hds c (by simp)
    have hr : rd s pre.length = .ok c := by rw [hs]; exact rd_append_cons pre c (ds ++ t)
    have hpos : 1 ≤ 10 ^ ds.length := Nat.one_le_pow _ _ (by norm_num)
    have ha1 : 10 * (a + 1) ≤ 2147483648 := by
      have : (a + 1) * 10 ^ (ds.length + 1) = 10 * (a + 1) * 10 ^ ds.length := by ring
      simp only [List.length_cons] at ha
      rw [this] at ha
      calc 10 * (a + 1) = 10 * (a + 1) * 1 := by ring
        _ ≤ 10 * (a + 1) * 10 ^ ds.length := Nat.mul_le_mul_left _ hpos
        _ ≤ _ := ha
    have ha2 : (10 * a + (c - 48) + 1) * 10 ^ ds.length ≤ 2147483648 := by
      obtain ⟨h1, h2⟩ := isdigit_iff.mp hc
      have : (a + 1) * 10 ^ (ds.length + 1) = (10 * a + 10) * 10 ^ ds.length := by ring
      simp only [List.length_cons] at ha
      rw [this] at ha
      exact le_trans (Nat.mul_le_mul_right _ (by omega)) ha
    have h := ih (pre ++ [c]) t fuel m (10 * a + (c - 48)) (by simp [hs])
      (fun x hx => hds x (by simp [hx])) hm ha2
    have hgt : m + ((c :: ds).length : Int) > lim := by simp; omega
    rw [show fuel + (c :: ds).length = (fuel + ds.length) + 1 by simp; omega]
    simp only [fracLoop, hgt, if_true, hr, bind, Except.bind, isdigit_ne_point hc, if_false,
      fold_step hc ha1]
    simp only [List.length_append, List.length_singleton] at h
    simp only [List.length_cons, Nat.cast_add, Nat.cast_one, digitsFrom_cons]
    rw [show pre.length + (ds.length + 1) = pre.length + 1 + ds.length by omega,
      show m + ((ds.length : Int) + 1) - 1 = m + ds.length by omega]
    exact h

theorem fracLoop_point (s : List Nat) (lim : Int) (pre t : List Nat) (c fuel : Nat) (m : Int)
    (a : Nat) (hs : s = pre ++ 46 :: c :: t) (hc : isdigit c = true) (hm : lim ≤ m)
    (ha : 10 * (a + 1) ≤ 2147483648) :
    fracLoop s lim (fuel + 1) pre.length (m + 1) a
      = fracLoop s lim fuel (pre.length + 2) m ((10 * a + (c - 48) : Nat) : Int) := by
  have hr : rd s pre.length = .ok 46 := by rw [hs]; exact rd_append_cons pre 46 (c :: t)
  have hr2 : rd s (pre.length + 1) = .ok c := by
    have := rd_append_cons (pre ++ [46]) c t
    simpa [hs] using this
  have hgt : m + 1 > lim := by omega
  simp only [fracLoop, hgt, if_true, hr, hr2, bind, Except.bind, fold_step hc ha]
  simp

theorem digitsFrom_bound (ds : List Nat) : ∀ a : Nat, AllDigits ds →
    digitsFrom a ds + 1 ≤ (a + 1) * 10 ^ ds.length := by
  induction ds with
  | nil => intro a _; simp
  | cons c ds ih =>
    intro a hds
    obtain ⟨h1, h2⟩ := isdigit_iff.mp (hds c (by simp))
    have h := ih (10 * a + (c - 48)) (fun x hx => hds x (by simp [hx]))
    have e : (a + 1) * 10 ^ (c :: ds).length = (10 * a + 10) * 10 ^ ds.length := by
      simp only [List.length_cons]; ring
    rw [digitsFrom_cons, e]
    exact le_trans h (Nat.mul_le_mul_right _ (by omega))

theorem AllDigits.take {l : List Nat} (h : AllDigits l) (j : Nat) : AllDigits (l.take j) :=
  fun c hc => h c (List.mem_of_mem_take hc)

theorem AllDigits.drop {l : List Nat} (h : AllDigits l) (j : Nat) : AllDigits (l.drop j) :=
  fun c hc => h c (List.mem_of_mem_drop hc)

theorem AllDigits.append {l1 l2 : List Nat} (h1 : AllDigits l1) (h2 : AllDigits l2) :
    AllDigits (l1 ++ l2) := by
  intro c hc
  rcases List.mem_append.mp hc with h | h
  · exact h1 c h
  · exact h2 c h

theorem allDigits_nil : AllDigits [] := fun _ h => absurd h (List.not_mem_nil _)

theorem pow10_mono {i j : Nat} (h : i ≤ j) (x : Nat) : x * 10 ^ i ≤ x * 10 ^ j :=
  Nat.mul_le_mul_left _ (Nat.pow_le_pow_right (by norm_num) h)

theorem split_at (l x : List Nat) (j : Nat) : l ++ x = l.take j ++ (l.drop j ++ x) := by
  rw [← List.append_assoc, List.take_append_drop]

/-- Either loop of lines 139-159, run for `j` iterations from the start of what is left of
the mantissa run: it folds the next `j` digits and stands at the start of the rest. -/
theorem fracLoop_region (s : List Nat) (lim : Int) (pre ip fp tail : List Nat) (pt : Bool)
    (j a : Nat) (hs : s = pre ++ (mantText ip pt fp ++ tail)) (hip : AllDigits ip)
    (hfp : AllDigits fp) (hpt : pt = false → fp = []) (hj : j ≤ ip.length + fp.length)
    (ha : (a + 1) * 10 ^ j ≤ 2147483648) :
    ∃ (pre' ip' fp' : List Nat) (pt' : Bool), s = pre' ++ (mantText ip' pt' fp' ++ tail) ∧
      AllDigits ip' ∧ AllDigits fp' ∧ (pt' = false → fp' = []) ∧
      ip' ++ fp' = (ip ++ fp).drop j ∧
      ∀ (fuel : Nat) (m : Int), lim ≤ m →
        fracLoop s lim (fuel + j) pre.length (m + j) a
          = fracLoop s lim fuel pre'.length m (digitsFrom a ((ip ++ fp).take j) : Nat) := by
  by_cases hj1 : j ≤ ip.length
  · refine ⟨pre ++ ip.take j, ip.drop j, fp, pt, ?_, hip.drop j, hfp, hpt, ?_, ?_⟩
    · rw [hs]
      simp only [mantText, List.append_assoc, List.append_cancel_left_eq]
      exact split_at ip _ j
    · rw [List.drop_append_of_le_length hj1]
    · intro fuel m hm
      have hlen : (ip.take j).length = j := by simp [hj1]
      have hs' : s = pre ++ (ip.take j ++ (ip.drop j ++ (pointText pt ++ fp) ++ tail)) := by
        rw [hs]
        simp only [mantText, List.append_assoc, List.append_cancel_left_eq]
        exact split_at ip _ j
      have := fracLoop_digits s lim (ip.take j) pre _ fuel m a hs' (hip.take j) hm
        (by rw [hlen]; exact ha)
      rw [hlen] at this
      rw [List.take_append_of_le_length hj1, List.length_append, hlen]
      exact this
  · have hptt : pt = true := by
      cases pt with
      | true => rfl
      | false => have := hpt rfl; subst this; simp at hj; omega
    subst hptt
    obtain ⟨c, fp0, rfl⟩ : ∃ c fp0, fp = c :: fp0 := by
      cases fp with
      | nil => simp at hj; omega
      | cons c fp0 => exact ⟨c, fp0, rfl⟩
    have hc : isdigit c = true := hfp c (by simp)
    have hfp0 : AllDigits fp0 := fun x hx => hfp x (by simp [hx])
    obtain ⟨j', rfl⟩ : ∃ j', j = ip.length + 1 + j' := ⟨j - ip.length - 1, by omega⟩
    have hj' : j' ≤ fp0.length := by simp at hj; omega
    have hlen : (fp0.take j').length = j' := by simp [hj']
    have htake : (ip ++ c :: fp0).take (ip.length + 1 + j') = ip ++ c :: fp0.take j' := by
      rw [show ip.length + 1 + j' = ip.length + (1 + j') by omega, List.take_append]
      simp [Nat.add_comm 1 j', List.take_succ_cons]
    have hdrop : (ip ++ c :: fp0).drop (ip.length + 1 + j') = fp0.drop j' := by
      rw [show ip.length + 1 + j' = ip.length + (1 + j') by omega, List.drop_append]
      simp [Nat.add_comm 1 j']
    refine ⟨pre ++ ip ++ [46, c] ++ fp0.take j', fp0.drop j', [], false, ?_, hfp0.drop j',
      allDigits_nil, fun _ => rfl, ?_, ?_⟩
    · rw [hs]
      simp only [mantText, pointText, if_true, List.append_assoc, List.append_cancel_left_eq,
        List.singleton_append, List.cons_append, List.nil_append, Bool.false_eq_true, if_false,
        List.cons.injEq, true_and]
      exact split_at fp0 _ j'
    · simp [hdrop]
    · intro fuel m hm
      have hs1 : s = pre ++ (ip ++ (46 :: c :: fp0 ++ tail)) := by
        rw [hs]; simp [mantText, pointText]
      have b1 : (a + 1) * 10 ^ ip.length ≤ 2147483648 :=
        le_trans (pow10_mono (by omega) _) ha
      have e1 := fracLoop_digits s lim ip pre _ (fuel + j' + 1) (m + j' + 1) a hs1 hip
        (by omega) b1
      have hs2 : s = (pre ++ ip) ++ 46 :: c :: (fp0 ++ tail) := by
        rw [hs]; simp [mantText, pointText]
      have b2 : 10 * (digitsFrom a ip + 1) ≤ 2147483648 := by
        have := digitsFrom_bound ip a hip
        calc 10 * (digitsFrom a ip + 1) ≤ 10 * ((a + 1) * 10 ^ ip.length) :=
              Nat.mul_le_mul_left _ this
          _ = (a + 1) * 10 ^ (ip.length + 1) := by ring
          _ ≤ (a + 1) * 10 ^ (ip.length + 1 + j') := pow10_mono (by omega) _
          _ ≤ _ := ha
      have e2 := fracLoop_point s lim (pre ++ ip) (fp0 ++ tail) c (fuel + j') (m + j')
        (digitsFrom a ip) hs2 hc (by omega) b2
      have hs3 : s = (pre ++ ip ++ [46, c]) ++ (fp0.take j' ++ (fp0.drop j' ++ tail)) := by
        rw [hs]
        simp only [mantText, pointText, if_true, List.append_assoc, List.append_cancel_left_eq,
          List.singleton_append, List.cons_append, List.nil_append, List.cons.injEq, true_and]
        exact split_at fp0 _ j'
      have b3 : (10 * digitsFrom a ip + (c - 48) + 1) * 10 ^ (fp0.take j').length
          ≤ 2147483648 := by
        have h1 := digitsFrom_bound (ip ++ [c]) a (hip.append (fun x hx => by
          simp at hx; subst hx; exact hc))
        rw [digitsFrom_append] at h1
        simp only [digitsFrom_cons, digitsFrom_nil, List.length_append,
          List.length_singleton] at h1
        rw [hlen]
        calc (10 * digitsFrom a ip + (c - 48) + 1) * 10 ^ j'
            ≤ ((a + 1) * 10 ^ (ip.length + 1)) * 10 ^ j' := Nat.mul_le_mul_right _ h1
          _ = (a + 1) * 10 ^ (ip.length + 1 + j') := by ring
          _ ≤ _ := ha
      have e3 := fracLoop_digits s lim (fp0.take j') (pre ++ ip ++ [46, c]) _ fuel m
        (10 * digitsFrom a ip + (c - 48)) hs3 (hfp0.take j') hm b3
      rw [hlen] at e3
      simp only [List.length_append, List.length_cons, List.length_nil] at e2 e3 ⊢
      rw [show fuel + (ip.length + 1 + j') = fuel + j' + 1 + ip.length by omega,
        show m + ((ip.length + 1 + j' : Nat) : Int) = m + j' + 1 + ip.length by push_cast; omega]
      rw [e1, e2]
      rw [htake, digitsFrom_append, digitsFrom_cons, hlen]
      rw [show pre.length + ip.length + (0 + 1 + 1) = pre.length + ip.length + 2 by omega] at e3
      rw [e3]

/-- Lines 137-159 on a mantissa run with `k` digits to fold: `frac1` takes the first `k - 9`
digits, `frac2` the `min k 9` after them. -/
theorem accumulate_run (s pre ip fp tail : List Nat) (pt : Bool) (h : Header) (k : Nat)
    (hs : s = pre ++ (mantText ip pt fp ++ tail)) (hip : AllDigits ip) (hfp : AllDigits fp)
    (hpt : pt = false → fp = []) (hp : h.p = pre.length) (hm : h.mantSize = k)
    (hk : k ≤ ip.length + fp.length) (hk18 : k ≤ 18) :
    accumulate s h = .ok ((digitsVal ((ip ++ fp).take (k - 9)) : Nat),
      (digitsVal (((ip ++ fp).drop (k - 9)).take (min k 9)) : Nat)) := by
  have hpow : ∀ j, j ≤ 9 → (0 + 1) * 10 ^ j ≤ 2147483648 := by
    intro j hj
    calc (0 + 1) * 10 ^ j ≤ (0 + 1) * 10 ^ 9 := pow10_mono hj _
      _ ≤ _ := by norm_num
  by_cases h9 : k ≤ 9
  · have e1 : fracLoop s 9 19 h.p h.mantSize 0 = .ok (pre.length, (k : Int), 0) := by
      rw [hp, hm]; exact fracLoop_stop s 9 18 _ _ _ (by omega)
    obtain ⟨pre', ip', fp', pt', -, -, -, -, -, hrun⟩ :=
      fracLoop_region s 0 pre ip fp tail pt k 0 hs hip hfp hpt hk (hpow k h9)
    have e2 := hrun (19 - k) 0 (le_refl _)
    rw [show 19 - k + k = 19 by omega, Int.zero_add] at e2
    have e3 := fracLoop_stop s 0 (18 - k) pre'.length 0
      ((digitsFrom 0 ((ip ++ fp).take k) : Nat) : Int) (le_refl _)
    rw [show 18 - k + 1 = 19 - k by omega] at e3
    have hk0 : k - 9 = 0 := by omega
    have hmin : min k 9 = k := by omega
    simp only [accumulate, e1, bind, Except.bind, Nat.cast_zero] at e2 ⊢
    rw [e2, e3]
    simp [hk0, hmin, digitsVal, pure, Except.pure]
  · obtain ⟨pre1, ip1, fp1, pt1, hs1, hip1, hfp1, hpt1, hD1, hrun1⟩ :=
      fracLoop_region s 9 pre ip fp tail pt (k - 9) 0 hs hip hfp hpt (by omega)
        (hpow (k - 9) (by omega))
    have e1 := hrun1 (19 - (k - 9)) 9 (le_refl _)
    rw [show 19 - (k - 9) + (k - 9) = 19 by omega,
      show (9 : Int) + ((k - 9 : Nat) : Int) = k by omega] at e1
    have e1' := fracLoop_stop s 9 (18 - (k - 9)) pre1.length 9
      ((digitsFrom 0 ((ip ++ fp).take (k - 9)) : Nat) : Int) (le_refl _)
    rw [show 18 - (k - 9) + 1 = 19 - (k - 9) by omega] at e1'
    have hlen1 : ip1.length + fp1.length = ip.length + fp.length - (k - 9) := by
      have := congrArg List.length hD1
      simpa using this
    obtain ⟨pre2, ip2, fp2, pt2, -, -, -, -, -, hrun2⟩ :=
      fracLoop_region s 0 pre1 ip1 fp1 tail pt1 9 0 hs1 hip1 hfp1 hpt1 (by omega)
        (hpow 9 (le_refl _))
    have e2 := hrun2 10 0 (le_refl _)
    have e3 := fracLoop_stop s 0 9 pre2.length 0
      ((digitsFrom 0 ((ip1 ++ fp1).take 9) : Nat) : Int) (le_refl _)
    have hmin : min k 9 = 9 := by omega
    simp only [accumulate, hp, hm, bind, Except.bind, Nat.cast_zero] at e1 e2 ⊢
    rw [e1, e1']
    simp only [Nat.cast_ofNat, Int.zero_add] at e2 ⊢
    rw [e2, e3, hD1]
    simp [hmin, digitsVal, pure, Except.pure]

/-! ## The exponent field -/

theorem wrap32_step (x : Int) (d : Int) :
    wrap32 (wrap32 (wrap32 x * 10) + d) = wrap32 (x * 10 + d) := by
  unfold wrap32; omega

theorem scanExpDigits_stop (s pre t : List Nat) (fuel : Nat) (e : Int)
    (hs : s = pre ++ t) (h1 : isdigit (peek t) = false) :
    scanExpDigits s (fuel + 1) pre.length e = .ok (pre.length, e) := by
  have hr : rd s pre.length = .ok (peek t) := by rw [hs]; exact rd_append pre t
  simp [scanExpDigits, hr, bind, Except.bind, h1, pure, Except.pure]

/-- The exponent loop on a digit run: the accumulator holds the wrapped value of the digits
read so far. -/
theorem scanExpDigits_digits (s : List Nat) (ds : List Nat) : ∀ (pre t : List Nat) (fuel a : Nat),
    s = pre ++ (ds ++ t) → AllDigits ds →
    scanExpDigits s (fuel + ds.length) pre.length (wrap32 a)
      = scanExpDigits s fuel (pre.length + ds.length) (wrap32 (digitsFrom a ds : Nat)) := by
  induction ds with
  | nil => intro pre t fuel a _ _; simp
  | cons c ds ih =>
    intro pre t fuel a hs hds
    have hc : isdigit c = true := hds c (by simp)
    obtain ⟨h1, h2⟩ := isdigit_iff.mp hc
    have hr : rd s pre.length = .ok c := by rw [hs]; exact rd_append_cons pre c (ds ++ t)
    have h := ih (pre ++ [c]) t fuel (10 * a + (c - 48)) (by simp [hs])
      (fun x hx => hds x (by simp [hx]))
    have hw : wrap32 (wrap32 (wrap32 (a : Int) * 10) + ((c : Int) - 48))
        = wrap32 ((10 * a + (c - 48) : Nat) : Int) := by
      rw [wrap32_step]; congr 1; omega
    rw [show fuel + (c :: ds).length = (fuel + ds.length) + 1 by simp; omega]
    simp only [scanExpDigits, hr, bind, Except.bind, hc, if_true, hw]
    simp only [List.length_append, List.length_singleton] at h
    simp only [List.length_cons, digitsFrom_cons]
    rw [show pre.length + (ds.length + 1) = pre.length + 1 + ds.length by omega]
    exact h

/-- Lines 167-187 when no exponent marker stands at `pExp`. -/
theorem exponentField_absent (s pre tail : List Nat) (hs : s = pre ++ tail)
    (h : peek tail ≠ 69 ∧ peek tail ≠ 101) :
    exponentField s pre.length = .ok (some (false, 0, pre.length)) := by
  have hr : rd s pre.length = .ok (peek tail) := by rw [hs]; exact rd_append pre tail
  simp [exponentField, hr, bind, Except.bind, h.1, h.2, pure, Except.pure]

theorem rd_after_sign (s pre rest : List Nat) (m : Nat) (es : Option Bool)
    (hs : s = pre ++ (m :: (signText es ++ rest))) :
    rd s (pre.length + 1 + (signText es).length) = .ok (peek rest) := by
  have hl : (pre ++ m :: signText es).length = pre.length + 1 + (signText es).length := by
    simp only [List.length_append, List.length_cons]; omega
  have := rd_append (pre ++ m :: signText es) rest
  rw [hl] at this
  simpa [hs] using this

/-- Lines 167-182 when the marker (and optional sign) is not followed by a digit. -/
theorem exponentField_dangling (s pre rest : List Nat) (m : Nat) (es : Option Bool)
    (hs : s = pre ++ (m :: (signText es ++ rest))) (hm : m = 69 ∨ m = 101)
    (hes : es = none → peek rest ≠ 43 ∧ peek rest ≠ 45) (h1 : isdigit (peek rest) = false) :
    exponentField s pre.length = .ok none := by
  have hr : rd s pre.length = .ok m := by rw [hs]; exact rd_append_cons pre m _
  have hr3 := rd_after_sign s pre rest m es hs
  match es with
  | none =>
    obtain ⟨ha, hb⟩ := hes rfl
    simp only [signText, List.length_nil, Nat.add_zero, List.nil_append] at hr3
    simp [exponentField, hr, bind, Except.bind, hm, hr3, ha, hb, h1, pure, Except.pure]
  | some false =>
    have hr2 : rd s (pre.length + 1) = .ok 43 := by
      have := rd_append_cons (pre ++ [m]) 43 rest
      simpa [hs, signText] using this
    simp only [signText, List.length_singleton] at hr3
    simp [exponentField, hr, bind, Except.bind, hm, hr2, hr3, h1, pure, Except.pure]
  | some true =>
    have hr2 : rd s (pre.length + 1) = .ok 45 := by
      have := rd_append_cons (pre ++ [m]) 45 rest
      simpa [hs, signText] using this
    simp only [signText, List.length_singleton] at hr3
    simp [exponentField, hr, bind, Except.bind, hm, hr2, hr3, h1, pure, Except.pure]

/-- Lines 167-187 on a complete exponent field followed by `rest`. -/
theorem exponentField_run (s pre ed rest : List Nat) (m : Nat) (es : Option Bool)
    (hs : s = pre ++ (expText m es ed ++ rest)) (hm : m = 69 ∨ m = 101)
    (hed : AllDigits ed) (hne : ed ≠ []) (h1 : isdigit (peek rest) = false) :
    exponentField s pre.length = .ok (some (es = some true, wrap32 (digitsVal ed : Nat),
      pre.length + (expText m es ed).length)) := by
  have hs0 : s = pre ++ (m :: (signText es ++ (ed ++ rest))) := by simp [hs, expText]
  have hr : rd s pre.length = .ok m := by rw [hs0]; exact rd_append_cons pre m _
  have hr3 := rd_after_sign s pre (ed ++ rest) m es hs0
  obtain ⟨c, ed0, rfl⟩ : ∃ c ed0, ed = c :: ed0 := by
    cases ed with
    | nil => exact absurd rfl hne
    | cons c ed0 => exact ⟨c, ed0, rfl⟩
  have hc : isdigit c = true := hed c (by simp)
  obtain ⟨hc1, hc2⟩ := isdigit_iff.mp hc
  simp only [List.cons_append, peek_cons] at hr3
  have hlen : (c :: ed0).length ≤ s.length := by
    rw [hs0]; simp only [List.length_append, List.length_cons]; omega
  have hs1 : s = (pre ++ m :: signText es) ++ ((c :: ed0) ++ rest) := by simp [hs0]
  have e1 := scanExpDigits_digits s (c :: ed0) (pre ++ m :: signText es) rest
    (s.length - (c :: ed0).length + 1) 0 hs1 hed
  have hs2 : s = (pre ++ m :: signText es ++ (c :: ed0)) ++ rest := by simp [hs0]
  have e2 := scanExpDigits_stop s (pre ++ m :: signText es ++ (c :: ed0)) rest
    (s.length - (c :: ed0).length) (wrap32 (digitsFrom 0 (c :: ed0) : Nat)) hs2 h1
  rw [show s.length - (c :: ed0).length + 1 + (c :: ed0).length = s.length + 1 by omega] at e1
  have hw0 : wrap32 ((0 : Nat) : Int) = 0 := by decide
  rw [hw0] at e1
  simp only [List.length_append] at e1 e2
  have e12 := e1.trans e2
  have hl2 : (m :: signText es).length = 1 + (signText es).length := by
    simp only [List.length_cons]; omega
  rw [hl2, ← Nat.add_assoc] at e12
  have hl3 : (expText m es (c :: ed0)).length = 1 + (signText es).length + (c :: ed0).length := by
    simp only [expText, List.length_cons, List.length_append]; omega
  rw [hl3, ← Nat.add_assoc, ← Nat.add_assoc]
  have hdig : isdigit c = true := hc
  match es with
  | none =>
    simp only [signText, List.length_nil, Nat.add_zero] at hr3 e12 ⊢
    have ha : c ≠ 45 := by omega
    have hb : c ≠ 43 := by omega
    simp only [exponentField, hr, bind, Except.bind, hm, if_true, hr3, ha, hb, if_false, hdig,
      Bool.not_true, e12, pure, Except.pure, digitsVal]
    simp [hr3, e12, hdig]
  | some false =>
    have hr2 : rd s (pre.length + 1) = .ok 43 := by
      have := rd_append_cons (pre ++ [m]) 43 (c :: ed0 ++ rest)
      simpa [hs0, signText] using this
    simp only [signText, List.length_singleton] at hr3 e12 ⊢
    simp only [exponentField, hr, bind, Except.bind, hm, if_true, hr2, hr3, if_false, hdig,
      Bool.not_true, e12, pure, Except.pure, digitsVal]
    simp [hr3, e12, hdig]
  | some true =>
    have hr2 : rd s (pre.length + 1) = .ok 45 := by
      have := rd_append_cons (pre ++ [m]) 45 (c :: ed0 ++ rest)
      simpa [hs0, signText] using this
    simp only [signText, List.length_singleton] at hr3 e12 ⊢
    simp only [exponentField, hr, bind, Except.bind, hm, if_true, hr2, hr3, if_false, hdig,
      Bool.not_true, e12, pure, Except.pure, digitsVal]
    simp [hr3, e12, hdig]

/-! ## The whole procedure on a parsed input -/

/-- Lines 81-136 when the mantissa run holds no digit: value `0.0` (with the sign applied) and
the end at the start of the input. -/
theorem string_to_double_no_digit {α : Type} (ops : DblOps α) (ws t : List Nat)
    (sg : Option Bool) (hws : AllSpace ws)
    (hsg : sg = none → isspace (peek t) = false ∧ peek t ≠ 43 ∧ peek t ≠ 45)
    (hd : isdigit (peek t) = false) (hp : peek t = 46 → isdigit (peek t.tail) = false) :
    string_to_double ops (ws ++ (signText sg ++ t))
      = .ok (done ops (sg = some true) ops.zero 0 false) := by
  have h0 : ∀ u : List Nat, (sg = none → isspace (peek u) = false) →
      isspace (peek (signText sg ++ u)) = false := by
    intro u hu
    match sg, hu with
    | none, hu => simpa [signText] using hu rfl
    | some false, _ => simp [signText, isspace]
    | some true, _ => simp [signText, isspace]
  by_cases h46 : peek t = 46
  · obtain ⟨t', rfl⟩ : ∃ t', t = 46 :: t' := by
      cases t with
      | nil => simp at h46
      | cons c t' => simp at h46; exact ⟨t', by rw [h46]⟩
    have hh := header_run (ws ++ (signText sg ++ (46 :: t'))) ws [] [] t' sg true
      (by simp [mantText, pointText]) hws allDigits_nil allDigits_nil (by simp)
      (h0 _ (fun h => by simpa [mantText, pointText] using (hsg h).1))
      (fun h => by simp [mantText, pointText])
      (by simpa using hp h46) (by simp)
    simp [string_to_double, hh, bind, Except.bind, pure, Except.pure]
  · have hh := header_run (ws ++ (signText sg ++ t)) ws [] [] t sg false
      (by simp [mantText, pointText]) hws allDigits_nil allDigits_nil (by simp)
      (h0 _ (fun h => by simpa [mantText, pointText] using (hsg h).1))
      (fun h => by simpa [mantText, pointText] using (hsg h).2)
      hd (fun _ => h46)
    simp [string_to_double, hh, bind, Except.bind, pure, Except.pure]

theorem peek_mantText {ip fp : List Nat} {pt : Bool} (tail : List Nat) (hip : AllDigits ip)
    (hpt : pt = false → fp = []) (hn : ip ++ fp ≠ []) :
    isdigit (peek (mantText ip pt fp ++ tail)) = true ∨ peek (mantText ip pt fp ++ tail) = 46 := by
  cases ip with
  | cons c ip => left; simpa [mantText] using hip c (by simp)
  | nil =>
    cases pt with
    | true => right; simp [mantText, pointText]
    | false => have := hpt rfl; subst this; simp at hn

/-- Lines 81-159 on `ws sign ip [. fp] tail` with at least one digit: the header and the
two accumulators. -/
theorem header_accumulate_run (s ws ip fp tail : List Nat) (sg : Option Bool) (pt : Bool)
    (hs : s = ws ++ (signText sg ++ (mantText ip pt fp ++ tail)))
    (hws : AllSpace ws) (hip : AllDigits ip) (hfp : AllDigits fp) (hpt : pt = false → fp = [])
    (hn : ip ++ fp ≠ [])
    (h1 : isdigit (peek tail) = false) (h2 : pt = false → peek tail ≠ 46) :
    header s = .ok (headerOf ws ip fp sg pt) ∧
      accumulate s (headerOf ws ip fp sg pt)
        = .ok ((frac1Of (ip ++ fp) : Nat), (frac2Of (ip ++ fp) : Nat)) := by
  have hpk := peek_mantText tail hip hpt hn
  have hnsp : isspace (peek (mantText ip pt fp ++ tail)) = false := by
    rcases hpk with h | h
    · obtain ⟨a, b⟩ := isdigit_iff.mp h
      simp only [isspace, Bool.or_eq_false_iff, decide_eq_false_iff_not, Bool.and_eq_false_iff]
      omega
    · rw [h]; decide
  have hnsg : peek (mantText ip pt fp ++ tail) ≠ 43 ∧ peek (mantText ip pt fp ++ tail) ≠ 45 := by
    rcases hpk with h | h
    · obtain ⟨a, b⟩ := isdigit_iff.mp h
      omega
    · rw [h]; decide
  have h0 : isspace (peek (signText sg ++ (mantText ip pt fp ++ tail))) = false := by
    match sg with
    | none => simpa [signText] using hnsp
    | some false => simp [signText, isspace]
    | some true => simp [signText, isspace]
  have hh := header_run s ws ip fp tail sg pt hs hws hip hfp hpt h0 (fun _ => hnsg) h1 h2
  have hlen : 0 < ip.length + fp.length := by
    have : 0 < (ip ++ fp).length := List.length_pos.mpr hn
    simpa using this
  have hs' : s = (ws ++ signText sg) ++ (mantText ip pt fp ++ tail) := by simp [hs]
  have hacc := accumulate_run s (ws ++ signText sg) ip fp tail pt (headerOf ws ip fp sg pt)
    (min (ip.length + fp.length) 18) hs' hip hfp hpt (by simp [headerOf]) rfl (by omega) (by omega)
  refine ⟨hh, ?_⟩
  rw [hacc]
  simp only [frac1Of, frac2Of, foldCount, List.length_append]

/-- Lines 81-161 on `ws sign ip [. fp] tail` with at least one digit: what is left is the
exponent field at `pExp` and the scaling. -/
theorem string_to_double_mantissa {α : Type} (ops : DblOps α) (s ws ip fp tail : List Nat)
    (sg : Option Bool) (pt : Bool)
    (hs : s = ws ++ (signText sg ++ (mantText ip pt fp ++ tail)))
    (hws : AllSpace ws) (hip : AllDigits ip) (hfp : AllDigits fp) (hpt : pt = false → fp = [])
    (hn : ip ++ fp ≠ [])
    (h1 : isdigit (peek tail) = false) (h2 : pt = false → peek tail ≠ 46) :
    string_to_double ops s =
      (match exponentField s (ws.length + (signText sg).length + (mantText ip pt fp).length) with
       | .error e => .error e
       | .ok none => .ok (done ops (sg = some true) (fractionOf ops (ip ++ fp))
          (ws.length + (signText sg).length + (mantText ip pt fp).length) false)
       | .ok (some (expSign, exp, p)) =>
          scale ops (sg = some true) (fractionOf ops (ip ++ fp)) (fracExpOf ip fp) expSign exp p) := by
  obtain ⟨hh, hacc⟩ := header_accumulate_run s ws ip fp tail sg pt hs hws hip hfp hpt hn h1 h2
  have hlen : 0 < ip.length + fp.length := by
    have : 0 < (ip ++ fp).length := List.length_pos.mpr hn
    simpa using this
  have hm0 : ¬ (headerOf ws ip fp sg pt).mantSize = 0 := by
    simp only [headerOf]; omega
  simp only [string_to_double, hh, hacc, bind, Except.bind, hm0, if_false]
  simp only [fractionOf, fracExpOf, foldCount, headerOf, List.length_append]
  cases exponentField s (ws.length + (signText sg).length + (mantText ip pt fp).length) with
  | error e => rfl
  | ok v =>
    match v with
    | none => rfl
    | some (expSign, exp, p) => rfl

/-! ## Exact arithmetic -/

theorem digitsFrom_eq (ds : List Nat) : ∀ a : Nat,
    digitsFrom a ds = a * 10 ^ ds.length + digitsVal ds := by
  induction ds with
  | nil => intro a; simp [digitsVal]
  | cons c ds ih =>
    intro a
    rw [digitsVal, digitsFrom_cons, digitsFrom_cons, ih, ih (10 * 0 + (c - 48))]
    simp only [List.length_cons]
    ring

theorem digitsVal_append (l1 l2 : List Nat) :
    digitsVal (l1 ++ l2) = digitsVal l1 * 10 ^ l2.length + digitsVal l2 := by
  rw [digitsVal, digitsFrom_append, digitsFrom_eq l2]
  rfl

/-- The two accumulators together hold the first `foldCount` digits. -/
theorem frac_combine (digits : List Nat) :
    frac1Of digits * 10 ^ 9 + frac2Of digits = digitsVal (digits.take (foldCount digits)) := by
  unfold frac1Of frac2Of
  have hk : foldCount digits ≤ digits.length := by unfold foldCount; omega
  by_cases h9 : foldCount digits ≤ 9
  · have h0 : foldCount digits - 9 = 0 := by omega
    have hm : min (foldCount digits) 9 = foldCount digits := by omega
    rw [h0, hm]
    simp [digitsVal]
  · have hm : min (foldCount digits) 9 = 9 := by omega
    have e : digits.take (foldCount digits)
        = digits.take (foldCount digits - 9)
          ++ (digits.drop (foldCount digits - 9)).take 9 := by
      conv_lhs => rw [show foldCount digits = (foldCount digits - 9) + 9 by omega]
      rw [List.take_add]
    have hl : ((digits.drop (foldCount digits - 9)).take 9).length = 9 := by
      simp only [List.length_take, List.length_drop]; omega
    rw [hm, e, digitsVal_append, hl]

theorem fractionOf_exact (digits : List Nat) :
    fractionOf exactOps digits = (digitsVal (digits.take (foldCount digits)) : ℚ) := by
  rw [← frac_combine]
  simp only [fractionOf, exactOps]
  push_cast
  ring

theorem rdTable_exact (d : Nat) (hd : d < 9) : rdTable exactOps d = .ok ((10 : ℚ) ^ (2 ^ d)) := by
  interval_cases d <;> simp [rdTable, powersOf10, exactOps]

/-- Lines 212-216 in exact arithmetic: the running product is multiplied by `10^(e * 2^d)`
when the bits of `e` fit the table from entry `d` on. -/
theorem powLoop_exact : ∀ (fuel : Nat) (e : Nat) (d : Nat) (acc : ℚ), d ≤ 9 → e < 2 ^ (9 - d) →
    9 - d < fuel →
    powLoop exactOps fuel (e : Int) d acc = .ok (acc * (10 : ℚ) ^ (e * 2 ^ d)) := by
  intro fuel
  induction fuel with
  | zero => intro e d acc _ _ hf; omega
  | succ fuel ih =>
    intro e d acc hd he hf
    by_cases h0 : e = 0
    · subst h0; simp [powLoop, pure, Except.pure]
    · have hd9 : d < 9 := by
        by_contra hc
        have : 9 - d = 0 := by omega
        rw [this] at he
        simp at he
        omega
      have hne : ¬ (e : Int) = 0 := by omega
      have he2 : e / 2 < 2 ^ (9 - (d + 1)) := by
        have : 2 ^ (9 - d) = 2 * 2 ^ (9 - (d + 1)) := by
          rw [show 9 - d = (9 - (d + 1)) + 1 by omega, pow_succ]; ring
        omega
      have hdiv : (e : Int) / 2 = ((e / 2 : Nat) : Int) := by omega
      have hrec := fun acc => ih (e / 2) (d + 1) acc (by omega) he2 (by omega)
      by_cases hodd : e % 2 = 1
      · have hodd' : (e : Int) % 2 = 1 := by omega
        simp only [powLoop, ne_eq, hne, not_false_eq_true, if_true, hodd', rdTable_exact d hd9,
          bind, Except.bind, hdiv, hrec]
        congr 1
        have : e * 2 ^ d = 2 ^ d + e / 2 * 2 ^ (d + 1) := by
          have h2 : e = 2 * (e / 2) + 1 := by omega
          conv_lhs => rw [h2]
          ring
        simp only [exactOps]
        rw [this, pow_add]
        ring
      · have hodd' : ¬ (e : Int) % 2 = 1 := by omega
        simp only [powLoop, ne_eq, hne, not_false_eq_true, if_true, hodd', if_false, hdiv, hrec]
        congr 1
        have : e * 2 ^ d = e / 2 * 2 ^ (d + 1) := by
          have h2 : e = 2 * (e / 2) := by omega
          conv_lhs => rw [h2]
          ring
        rw [this]

/-- Lines 188-221 and `done` in exact arithmetic, when the combined exponent is within the
range of the table. -/
theorem scale_exact (sign : Bool) (fraction : ℚ) (fracExp : Int) (expSign : Bool) (exp : Int)
    (p : Nat) (e : Nat) (es : Bool) (er : Bool)
    (hc : combineExponent fracExp expSign exp = (es, (e : Int), er)) (he : e ≤ 511) :
    scale exactOps sign fraction fracExp expSign exp p
      = .ok (done exactOps sign (if es then fraction / 10 ^ e else fraction * 10 ^ e) p er) := by
  have hp := powLoop_exact 64 e 0 1 (by omega) (by simp; omega) (by omega)
  simp only [pow_zero, mul_one, one_mul] at hp
  have hl : exactOps.lit 0 = 1 := by simp [exactOps]
  simp only [scale, hc, hl, hp, bind, Except.bind, pure, Except.pure]
  cases es <;> simp [exactOps]

/-! ## Numerals -/

theorem scale_endPos {α : Type} (ops : DblOps α) (sign : Bool) (fraction : α) (fracExp : Int)
    (expSign : Bool) (exp : Int) (p : Nat) (r : Result α)
    (h : scale ops sign fraction fracExp expSign exp p = .ok r) : r.endPos = p := by
  simp only [scale, bind, Except.bind, pure, Except.pure] at h
  split at h
  · cases h
  · cases h; rfl

/-- The procedure on a numeral followed by `rest`: lines 188-221 are run on the folded
digits, the fractional exponent and the wrapped value of the exponent digits. -/
theorem string_to_double_numeral {α : Type} (ops : DblOps α) (N : Numeral) (rest : List Nat)
    (hwf : N.WF) (hrest : Follows N rest) :
    string_to_double ops (N.text ++ rest)
      = scale ops (N.sign = some true) (fractionOf ops N.digits) (fracExpOf N.ip N.fp)
          (expSignOf N.exp) (wrap32 (expMagnitude N.exp : Nat)) N.text.length := by
  obtain ⟨hws, hip, hfp, hpt, hn, hexp⟩ := hwf
  obtain ⟨hr1, hr2⟩ := hrest
  have hs : N.text ++ rest = N.ws ++ (signText N.sign ++ (mantText N.ip N.pt N.fp
      ++ (expFieldText N.exp ++ rest))) := by simp [Numeral.text]
  have hlen : N.text.length = N.ws.length + (signText N.sign).length
      + (mantText N.ip N.pt N.fp).length + (expFieldText N.exp).length := by
    simp only [Numeral.text, List.length_append]; omega
  have hs' : N.text ++ rest = (N.ws ++ signText N.sign ++ mantText N.ip N.pt N.fp)
      ++ (expFieldText N.exp ++ rest) := by simp [Numeral.text]
  have hpl : (N.ws ++ signText N.sign ++ mantText N.ip N.pt N.fp).length
      = N.ws.length + (signText N.sign).length + (mantText N.ip N.pt N.fp).length := by
    simp only [List.length_append]
  match hN : N.exp, hexp with
  | none, _ =>
    obtain ⟨h46, h69, h101⟩ := hr2 hN
    rw [hN] at hs hs' hlen
    simp only [expFieldText, List.nil_append, List.length_nil, Nat.add_zero] at hs hs' hlen
    rw [string_to_double_mantissa ops _ N.ws N.ip N.fp rest N.sign N.pt hs hws hip hfp hpt hn
      hr1 h46]
    have he := exponentField_absent _ _ rest hs' ⟨h69, h101⟩
    rw [hpl] at he
    rw [he, hlen]
    rfl
  | some (m, es, ed), hexp =>
    obtain ⟨hm, hed, hne⟩ := hexp
    rw [hN] at hs hs' hlen
    simp only [expFieldText] at hs hs' hlen
    have hpk : peek (expText m es ed ++ rest) = m := by simp [expText]
    have hmd : isdigit m = false := by rcases hm with h | h <;> subst h <;> decide
    have hm46 : m ≠ 46 := by rcases hm with h | h <;> subst h <;> decide
    rw [string_to_double_mantissa ops _ N.ws N.ip N.fp (expText m es ed ++ rest) N.sign N.pt hs
      hws hip hfp hpt hn (by rw [hpk]; exact hmd) (fun _ => by rw [hpk]; exact hm46)]
    have he := exponentField_run _ _ ed rest m es hs' hm hed hne hr1
    rw [hpl] at he
    rw [he, hlen]
    rfl

/-! ## The consumed span -/

theorem text_length (N : Numeral) : N.text.length = N.ws.length + (signText N.sign).length
    + (mantText N.ip N.pt N.fp).length + (expFieldText N.exp).length := by
  simp only [Numeral.text, List.length_append]; omega

/-- The procedure on a numeral that nothing after it can lengthen: either lines 188-221 are
run, or the exponent marker without digits jumps to `done` with the unscaled fraction. -/
theorem string_to_double_maxFollows {α : Type} (ops : DblOps α) (N : Numeral) (rest : List Nat)
    (hwf : N.WF) (hrest : MaxFollows N rest) :
    string_to_double ops (N.text ++ rest)
        = scale ops (N.sign = some true) (fractionOf ops N.digits) (fracExpOf N.ip N.fp)
            (expSignOf N.exp) (wrap32 (expMagnitude N.exp : Nat)) N.text.length ∨
      string_to_double ops (N.text ++ rest)
        = .ok (done ops (N.sign = some true) (fractionOf ops N.digits) N.text.length false) := by
  obtain ⟨hr1, hr2⟩ := hrest
  by_cases hfol : Follows N rest
  · left; exact string_to_double_numeral ops N rest hwf hfol
  · have hN : N.exp = none := by
      by_contra hne
      exact hfol ⟨hr1, fun h => absurd h hne⟩
    obtain ⟨h46, hno⟩ := hr2 hN
    rcases hno with ⟨h69, h101⟩ | ⟨m, es, r', hu, hm, hes, hd⟩
    · exact absurd ⟨hr1, fun _ => ⟨h46, h69, h101⟩⟩ hfol
    · right
      obtain ⟨hws, hip, hfp, hpt, hn, -⟩ := hwf
      have hs : N.text ++ rest = N.ws ++ (signText N.sign ++ (mantText N.ip N.pt N.fp
          ++ rest)) := by simp [Numeral.text, hN, expFieldText]
      have hs' : N.text ++ rest = (N.ws ++ signText N.sign ++ mantText N.ip N.pt N.fp)
          ++ (m :: (signText es ++ r')) := by simp [Numeral.text, hN, expFieldText, hu]
      have hlen := text_length N
      rw [hN] at hlen
      simp only [expFieldText, List.length_nil, Nat.add_zero] at hlen
      rw [string_to_double_mantissa ops _ N.ws N.ip N.fp rest N.sign N.pt hs hws hip hfp hpt hn
        hr1 h46]
      have he := exponentField_dangling _ _ r' m es hs' hm hes hd
      simp only [List.length_append] at he
      rw [he, hlen]
      rfl

/-- The end reported for a numeral that nothing after it can lengthen is the end of the
numeral. -/
theorem endPos_of_maxFollows {α : Type} (ops : DblOps α) (N : Numeral) (rest : List Nat)
    (r : Result α) (hwf : N.WF) (hrest : MaxFollows N rest)
    (hr : string_to_double ops (N.text ++ rest) = .ok r) : r.endPos = N.text.length := by
  rcases string_to_double_maxFollows ops N rest hwf hrest with h | h
  · rw [h] at hr
    exact scale_endPos ops _ _ _ _ _ _ r hr
  · rw [h] at hr
    simp only [Except.ok.injEq] at hr
    rw [← hr]; rfl

theorem digits_split (u : List Nat) :
    ∃ ds rest, u = ds ++ rest ∧ AllDigits ds ∧ isdigit (peek rest) = false := by
  induction u with
  | nil => exact ⟨[], [], rfl, allDigits_nil, by decide⟩
  | cons c u ih =>
    by_cases hc : isdigit c = true
    · obtain ⟨ds, rest, rfl, hds, hr⟩ := ih
      refine ⟨c :: ds, rest, rfl, ?_, hr⟩
      intro x hx
      rcases List.mem_cons.mp hx with h | h
      · rw [h]; exact hc
      · exact hds x h
    · exact ⟨[], c :: u, rfl, allDigits_nil, by simpa using hc⟩

theorem spaces_split (u : List Nat) :
    ∃ ws rest, u = ws ++ rest ∧ AllSpace ws ∧ isspace (peek rest) = false := by
  induction u with
  | nil => exact ⟨[], [], rfl, fun _ h => absurd h (List.not_mem_nil _), by decide⟩
  | cons c u ih =>
    by_cases hc : isspace c = true
    · obtain ⟨ds, rest, rfl, hds, hr⟩ := ih
      refine ⟨c :: ds, rest, rfl, ?_, hr⟩
      intro x hx
      rcases List.mem_cons.mp hx with h | h
      · rw [h]; exact hc
      · exact hds x h
    · exact ⟨[], c :: u, rfl, fun _ h => absurd h (List.not_mem_nil _), by simpa using hc⟩

theorem sign_split (u : List Nat) :
    ∃ (sg : Option Bool) (rest : List Nat), u = signText sg ++ rest ∧
      (sg = none → peek rest ≠ 43 ∧ peek rest ≠ 45) := by
  cases u with
  | nil => exact ⟨none, [], rfl, fun _ => by decide⟩
  | cons c u =>
    by_cases h45 : c = 45
    · exact ⟨some true, u, by simp [signText, h45], fun h => by cases h⟩
    · by_cases h43 : c = 43
      · exact ⟨some false, u, by simp [signText, h43], fun h => by cases h⟩
      · exact ⟨none, c :: u, rfl, fun _ => ⟨h43, h45⟩⟩

/-- What follows a mantissa run either starts with a complete exponent field or with none. -/
theorem exp_stage (u : List Nat) :
    (∃ (m : Nat) (es : Option Bool) (ed rest : List Nat), u = expText m es ed ++ rest ∧
      (m = 69 ∨ m = 101) ∧ AllDigits ed ∧ ed ≠ [] ∧ isdigit (peek rest) = false) ∨ NoExp u := by
  cases u with
  | nil => right; left; decide
  | cons m u1 =>
    by_cases hm : m = 69 ∨ m = 101
    · obtain ⟨es, r, hu1, hes⟩ := sign_split u1
      by_cases hd : isdigit (peek r) = true
      · obtain ⟨ed, rest, hr, hed, hrest⟩ := digits_split r
        left
        refine ⟨m, es, ed, rest, by simp [expText, hu1, hr], hm, hed, ?_, hrest⟩
        intro hnil
        subst hnil
        simp only [List.nil_append] at hr
        rw [hr, hrest] at hd
        cases hd
      · right; right
        exact ⟨m, es, r, by rw [hu1], hm, hes, by simpa using hd⟩
    · right; left
      simp only [peek_cons]
      exact ⟨fun h => hm (Or.inl h), fun h => hm (Or.inr h)⟩

theorem extend_exp (N0 : Numeral) (u1 : List Nat) (hwf : N0.WF) (hexp : N0.exp = none)
    (h1 : isdigit (peek u1) = false) (h2 : N0.pt = false → peek u1 ≠ 46) :
    ∃ (N : Numeral) (rest : List Nat), N.WF ∧ MaxFollows N rest ∧
      N0.text ++ u1 = N.text ++ rest ∧ N0.text.length ≤ N.text.length := by
  obtain ⟨ws, sg, ip, pt, fp, ex⟩ := N0
  simp only at hexp h2
  subst hexp
  rcases exp_stage u1 with ⟨m, es, ed, rest, hu, hm, hed, hne, hrest⟩ | hno
  · obtain ⟨hws, hip, hfp, hpt, hn, -⟩ := hwf
    refine ⟨⟨ws, sg, ip, pt, fp, some (m, es, ed)⟩, rest, ⟨hws, hip, hfp, hpt, hn, hm, hed, hne⟩,
      ⟨hrest, fun h => by cases h⟩, ?_, ?_⟩
    · simp [Numeral.text, expFieldText, hu]
    · simp only [text_length, expFieldText, List.length_nil]; omega
  · exact ⟨⟨ws, sg, ip, pt, fp, none⟩, u1, hwf, ⟨h1, fun _ => ⟨h2, hno⟩⟩, rfl, le_refl _⟩

/-- Every numeral at the start of a text lies inside one that nothing after it can lengthen. -/
theorem extend (N : Numeral) (u : List Nat) (hwf : N.WF) :
    ∃ (N' : Numeral) (rest : List Nat), N'.WF ∧ MaxFollows N' rest ∧
      N.text ++ u = N'.text ++ rest ∧ N.text.length ≤ N'.text.length := by
  obtain ⟨ws, sg, ip, pt, fp, ex⟩ := N
  obtain ⟨hws, hip, hfp, hpt, hn, hex⟩ := hwf
  simp only at hws hip hfp hpt hn hex
  obtain ⟨ds, u1, hu, hds, hu1⟩ := digits_split u
  match ex, hex with
  | some (m, es, ed), hex =>
    obtain ⟨hm, hed, hne⟩ := hex
    refine ⟨⟨ws, sg, ip, pt, fp, some (m, es, ed ++ ds)⟩, u1,
      ⟨hws, hip, hfp, hpt, hn, hm, hed.append hds, by simp [hne]⟩,
      ⟨hu1, fun h => by cases h⟩, ?_, ?_⟩
    · simp [Numeral.text, expFieldText, expText, hu]
    · simp only [text_length, expFieldText, expText, List.length_cons, List.length_append]; omega
  | none, _ =>
    cases pt with
    | true =>
      have hwf0 : (⟨ws, sg, ip, true, fp ++ ds, none⟩ : Numeral).WF :=
        ⟨hws, hip, hfp.append hds, (fun h => by cases h), (by
          intro h; apply hn
          rw [← List.append_assoc] at h
          exact (List.append_eq_nil.mp h).1), trivial⟩
      obtain ⟨N', rest, hwf', hmax, htxt, hlen⟩ :=
        extend_exp ⟨ws, sg, ip, true, fp ++ ds, none⟩ u1 hwf0 rfl hu1 (fun h => by cases h)
      refine ⟨N', rest, hwf', hmax, ?_, le_trans ?_ hlen⟩
      · rw [← htxt]; simp [Numeral.text, expFieldText, mantText, hu]
      · simp only [text_length, mantText_length, expFieldText, List.length_append]; omega
    | false =>
      have hfp0 := hpt rfl
      subst hfp0
      have hn' : ip ++ ds ++ [] ≠ [] := by
        intro h; apply hn
        simp only [List.append_nil] at h ⊢
        exact (List.append_eq_nil.mp h).1
      by_cases h46 : peek u1 = 46
      · obtain ⟨u2, rfl⟩ : ∃ u2, u1 = 46 :: u2 := by
          cases u1 with
          | nil => simp at h46
          | cons c t => simp at h46; exact ⟨t, by rw [h46]⟩
        obtain ⟨ds2, u3, hu2, hds2, hu3⟩ := digits_split u2
        have hwf0 : (⟨ws, sg, ip ++ ds, true, ds2, none⟩ : Numeral).WF :=
          ⟨hws, hip.append hds, hds2, (fun h => by cases h), (by
            intro h; apply hn'
            simp only [List.append_nil]
            exact (List.append_eq_nil.mp h).1), trivial⟩
        obtain ⟨N', rest, hwf', hmax, htxt, hlen⟩ :=
          extend_exp ⟨ws, sg, ip ++ ds, true, ds2, none⟩ u3 hwf0 rfl hu3 (fun h => by cases h)
        refine ⟨N', rest, hwf', hmax, ?_, le_trans ?_ hlen⟩
        · rw [← htxt]; simp [Numeral.text, expFieldText, mantText, pointText, hu, hu2]
        · simp only [text_length, mantText_length, expFieldText, List.length_append, pointText,
            Bool.false_eq_true, if_false, if_true, List.length_nil, List.length_singleton]
          omega
      · have hwf0 : (⟨ws, sg, ip ++ ds, false, [], none⟩ : Numeral).WF :=
          ⟨hws, hip.append hds, allDigits_nil, fun _ => rfl, hn', trivial⟩
        obtain ⟨N', rest, hwf', hmax, htxt, hlen⟩ :=
          extend_exp ⟨ws, sg, ip ++ ds, false, [], none⟩ u1 hwf0 rfl hu1 (fun _ => h46)
        refine ⟨N', rest, hwf', hmax, ?_, le_trans ?_ hlen⟩
        · rw [← htxt]; simp [Numeral.text, expFieldText, mantText, pointText, hu]
        · simp only [text_length, mantText_length, expFieldText, List.length_append, pointText,
            Bool.false_eq_true, if_false, if_true, List.length_nil, List.length_singleton]
          omega

/-- Every text starts with a numeral or with a mantissa run that holds no digit. -/
theorem numeral_or_no_digit (s : List Nat) :
    (∃ (N : Numeral) (rest : List Nat), N.WF ∧ s = N.text ++ rest) ∨
    (∃ (ws t : List Nat) (sg : Option Bool), s = ws ++ (signText sg ++ t) ∧ AllSpace ws ∧
      (sg = none → isspace (peek t) = false ∧ peek t ≠ 43 ∧ peek t ≠ 45) ∧
      isdigit (peek t) = false ∧ (peek t = 46 → isdigit (peek t.tail) = false)) := by
  obtain ⟨ws, u, hs, hws, hu⟩ := spaces_split s
  obtain ⟨sg, t, hu2, hsg⟩ := sign_split u
  have hspace : sg = none → isspace (peek t) = false := by
    intro h; subst h; simpa [hu2, signText] using hu
  by_cases hd : isdigit (peek t) = true
  · left
    obtain ⟨c, t', rfl⟩ : ∃ c t', t = c :: t' := by
      cases t with
      | nil => simp [isdigit] at hd
      | cons c t' => exact ⟨c, t', rfl⟩
    refine ⟨⟨ws, sg, [c], false, [], none⟩, t', ⟨hws, ?_, allDigits_nil, (fun _ => rfl),
      (by simp), trivial⟩, ?_⟩
    · intro x hx; simp at hx; subst hx; simpa using hd
    · simp [Numeral.text, expFieldText, mantText, pointText, hs, hu2]
  · by_cases hp : peek t = 46 ∧ isdigit (peek t.tail) = true
    · left
      obtain ⟨h46, hd2⟩ := hp
      obtain ⟨t1, rfl⟩ : ∃ t1, t = 46 :: t1 := by
        cases t with
        | nil => simp at h46
        | cons c t' => simp at h46; exact ⟨t', by rw [h46]⟩
      obtain ⟨c, t', rfl⟩ : ∃ c t', t1 = c :: t' := by
        cases t1 with
        | nil => simp [isdigit] at hd2
        | cons c t' => exact ⟨c, t', rfl⟩
      refine ⟨⟨ws, sg, [], true, [c], none⟩, t', ⟨hws, allDigits_nil, ?_, (fun h => by cases h),
        (by simp), trivial⟩, ?_⟩
      · intro x hx; simp at hx; subst hx; simpa using hd2
      · simp [Numeral.text, expFieldText, mantText, pointText, hs, hu2]
    · right
      refine ⟨ws, t, sg, by rw [hs, hu2], hws, fun h => ⟨hspace h, hsg h⟩, by simpa using hd, ?_⟩
      intro h46
      by_contra hc
      exact hp ⟨h46, by simpa using hc⟩

theorem text_length_pos (N : Numeral) (hwf : N.WF) : 0 < N.text.length := by
  obtain ⟨-, -, -, -, hn, -⟩ := hwf
  have : 0 < (N.ip ++ N.fp).length := List.length_pos.mpr hn
  simp only [List.length_append] at this
  rw [text_length, mantText_length]
  omega

theorem endPos_ge {α : Type} (ops : DblOps α) (s : List Nat) (r : Result α)
    (hr : string_to_double ops s = .ok r) (N : Numeral) (u : List Nat) (hwf : N.WF)
    (hs : s = N.text ++ u) :
    N.text.length ≤ r.endPos ∧ r.endPos ≤ s.length ∧ IsNumeralText (s.take r.endPos) := by
  obtain ⟨N', rest, hwf', hmax, htxt, hlen⟩ := extend N u hwf
  rw [hs, htxt] at hr
  have he := endPos_of_maxFollows ops N' rest r hwf' hmax hr
  refine ⟨by omega, ?_, N', hwf', ?_⟩
  · rw [hs, htxt, he]; simp
  · rw [hs, htxt, he]; simp

/-! ## The value of a numeral -/

theorem formed_eq (sg : Option Bool) (M : Nat) (x : Int) :
    formed sg M x = signFactor sg * (M : ℚ) * (10 : ℚ) ^ x := by
  unfold formed
  by_cases hx : x < 0
  · have e : x = -((x.natAbs : Nat) : Int) := by omega
    simp only [hx, if_true]
    conv_rhs => rw [e]
    rw [zpow_neg, zpow_natCast]
    ring
  · have e : x = ((x.natAbs : Nat) : Int) := by omega
    simp only [hx, if_false]
    conv_rhs => rw [e]
    rw [zpow_natCast]
    ring

theorem done_exact (sign : Option Bool) (v : ℚ) (p : Nat) (e : Bool) :
    done exactOps (sign = some true) v p e = ⟨signFactor sign * v, p, e⟩ := by
  by_cases h : sign = some true <;> simp [done, exactOps, signFactor, h]

/-- Lines 188-210 when the exponent arithmetic stays small: no wrap, no clamp. -/
theorem combineExponent_small (fe : Int) (es : Bool) (E : Nat) (x : Int)
    (hx : x = if es then fe - E else fe + E) (hfe : -1073741824 ≤ fe ∧ fe ≤ 1073741824)
    (hb : |x| ≤ 511) :
    combineExponent fe es (wrap32 (E : Nat)) = (decide (x < 0), ((x.natAbs : Nat) : Int), false) := by
  have hb' : -511 ≤ x ∧ x ≤ 511 := abs_le.mp hb
  have hE : (E : Int) ≤ 1073742335 := by
    cases es <;> simp at hx <;> omega
  have hw : wrap32 (E : Int) = E := wrap32_of_lt (by omega) (by omega)
  have hwx : wrap32 x = x := by unfold wrap32; omega
  have hwn : wrap32 (-x) = -x := by unfold wrap32; omega
  have hcomb : (if es = true then wrap32 (fe - E) else wrap32 (fe + E)) = x := by
    cases es <;> simp at hx ⊢ <;> rw [← hx] <;> exact hwx
  simp only [combineExponent, hw, hcomb, maxExponent]
  by_cases hneg : x < 0
  · have h1 : ¬ -x > 511 := by omega
    simp only [hneg, if_true, h1, if_false, hwn, decide_True, Prod.mk.injEq, true_and, and_true]
    omega
  · have h1 : ¬ x > 511 := by omega
    simp only [hneg, if_false, h1, decide_False, Prod.mk.injEq, true_and, and_true]
    omega

theorem foldCount_of_le {digits : List Nat} (h : digits.length ≤ 18) :
    foldCount digits = digits.length := by
  unfold foldCount; omega

/-- The value returned for a numeral of at most 18 digits with a combined exponent of at
most 511 in magnitude, followed by text that is not read as part of it:
`(-1)^sign * M * 10^x`, formed as a product for `x ≥ 0` and as a quotient for `x < 0`. -/
theorem numeral_value_exact (N : Numeral) (rest : List Nat) (hwf : N.WF)
    (hrest : Follows N rest) (hn : N.digits.length ≤ 18) (hx : |N.decExp| ≤ 511) :
    string_to_double exactOps (N.text ++ rest)
      = .ok ⟨formed N.sign N.mant N.decExp, N.text.length, false⟩ := by
  rw [string_to_double_numeral exactOps N rest hwf hrest]
  have hfc : foldCount (N.ip ++ N.fp) = (N.ip ++ N.fp).length := foldCount_of_le hn
  have hfe : fracExpOf N.ip N.fp = (N.ip.length : Int) - (N.digits.length : Int) := by
    simp only [fracExpOf, hfc, Numeral.digits]
  have hfeb : -1073741824 ≤ fracExpOf N.ip N.fp ∧ fracExpOf N.ip N.fp ≤ 1073741824 := by
    rw [hfe]
    simp only [Numeral.digits, List.length_append] at hn ⊢
    omega
  have hxe : N.decExp = if expSignOf N.exp = true then fracExpOf N.ip N.fp - (expMagnitude N.exp : Nat)
      else fracExpOf N.ip N.fp + (expMagnitude N.exp : Nat) := by
    rw [hfe]
    simp only [Numeral.decExp, Numeral.expInt]
    split <;> omega
  have hc := combineExponent_small (fracExpOf N.ip N.fp) (expSignOf N.exp) (expMagnitude N.exp)
    N.decExp hxe hfeb hx
  have hle : N.decExp.natAbs ≤ 511 := by
    have := abs_le.mp hx
    omega
  rw [scale_exact _ _ _ _ _ _ N.decExp.natAbs _ _ hc hle, done_exact, fractionOf_exact]
  have ht : N.digits.take (foldCount N.digits) = N.digits := by
    rw [foldCount_of_le hn, List.take_length]
  rw [ht]
  simp only [formed, Numeral.mant, decide_eq_true_eq]

/-! ## Truncation to 18 digits -/

theorem digitsVal_lt (ds : List Nat) (h : AllDigits ds) : digitsVal ds < 10 ^ ds.length := by
  have := digitsFrom_bound ds 0 h
  simp only [Nat.zero_add, Nat.one_mul] at this
  exact this

theorem mantissaValue_eq (ip fp : List Nat) :
    mantissaValue ip fp = (digitsVal (ip ++ fp) : ℚ) / 10 ^ fp.length := by
  have h10 : (10 : ℚ) ^ fp.length ≠ 0 := pow_ne_zero _ (by norm_num)
  rw [mantissaValue, digitsVal_append]
  push_cast
  field_simp

/-- What is lost by dropping the digits after the 18th: their value at their place. -/
theorem mantissa_truncation_eq (ip fp : List Nat) (hn : 18 ≤ ip.length + fp.length) :
    mantissaValue ip fp
        - (digitsVal ((ip ++ fp).take 18) : ℚ) * (10 : ℚ) ^ ((ip.length : Int) - 18)
      = (digitsVal ((ip ++ fp).drop 18) : ℚ) / 10 ^ fp.length := by
  have h10 : (0 : ℚ) < 10 ^ fp.length := pow_pos (by norm_num) _
  have hlen : ((ip ++ fp).drop 18).length = ip.length + fp.length - 18 := by simp
  have hsplit : digitsVal (ip ++ fp) = digitsVal ((ip ++ fp).take 18)
      * 10 ^ (ip.length + fp.length - 18) + digitsVal ((ip ++ fp).drop 18) := by
    conv_lhs => rw [← List.take_append_drop 18 (ip ++ fp)]
    rw [digitsVal_append, hlen]
  have hpow : (10 : ℚ) ^ ((ip.length : Int) - 18)
      = (10 : ℚ) ^ (ip.length + fp.length - 18) / (10 : ℚ) ^ fp.length := by
    rw [← zpow_natCast, ← zpow_natCast, ← zpow_sub₀ (by norm_num)]
    congr 1
    omega
  rw [mantissaValue_eq, hpow, hsplit]
  push_cast
  field_simp

/-- Dropping the digits after the 18th lowers the value of the mantissa by less than one
unit of the 18th digit. -/
theorem mantissa_truncation (ip fp : List Nat) (hip : AllDigits ip) (hfp : AllDigits fp)
    (hn : 18 < ip.length + fp.length) :
    0 ≤ mantissaValue ip fp
        - (digitsVal ((ip ++ fp).take 18) : ℚ) * (10 : ℚ) ^ ((ip.length : Int) - 18) ∧
      mantissaValue ip fp
        - (digitsVal ((ip ++ fp).take 18) : ℚ) * (10 : ℚ) ^ ((ip.length : Int) - 18)
        < (10 : ℚ) ^ ((ip.length : Int) - 18) := by
  have h10 : (0 : ℚ) < 10 ^ fp.length := pow_pos (by norm_num) _
  have hlen : ((ip ++ fp).drop 18).length = ip.length + fp.length - 18 := by simp
  have hR : digitsVal ((ip ++ fp).drop 18) < 10 ^ (ip.length + fp.length - 18) := by
    have := digitsVal_lt _ ((hip.append hfp).drop 18)
    rwa [hlen] at this
  have hpow : (10 : ℚ) ^ ((ip.length : Int) - 18)
      = (10 : ℚ) ^ (ip.length + fp.length - 18) / (10 : ℚ) ^ fp.length := by
    rw [← zpow_natCast, ← zpow_natCast, ← zpow_sub₀ (by norm_num)]
    congr 1
    omega
  rw [mantissa_truncation_eq ip fp hn.le, hpow]
  constructor
  · positivity
  · apply div_lt_div_of_pos_right _ h10
    exact_mod_cast hR

theorem digitsVal_zeros (ds : List Nat) (h : ∀ c ∈ ds, c = 48) : digitsVal ds = 0 := by
  induction ds with
  | nil => rfl
  | cons c ds ih =>
    have hc : c = 48 := h c (by simp)
    have := ih (fun x hx => h x (by simp [hx]))
    rw [digitsVal, digitsFrom_cons, hc]
    exact this

/-- The first 18 digits at their place give the value of the mantissa when every digit after
them is 0. -/
theorem first18_scaled_eq (ip fp : List Nat) (hz : ∀ c ∈ (ip ++ fp).drop 18, c = 48) :
    (digitsVal ((ip ++ fp).take 18) : ℚ)
        * (10 : ℚ) ^ ((ip.length : Int) - ((min (ip.length + fp.length) 18 : Nat) : Int))
      = mantissaValue ip fp := by
  rcases Nat.lt_or_ge (ip.length + fp.length) 18 with hlt | hge
  · have hmin : min (ip.length + fp.length) 18 = ip.length + fp.length := by omega
    have ht : (ip ++ fp).take 18 = ip ++ fp :=
      List.take_of_length_le (by simp only [List.length_append]; omega)
    have e : (ip.length : Int) - ((ip.length + fp.length : Nat) : Int)
        = -((fp.length : Nat) : Int) := by push_cast; omega
    rw [hmin, ht, mantissaValue_eq, e, zpow_neg, zpow_natCast]
    rfl
  · have hmin : min (ip.length + fp.length) 18 = 18 := by omega
    have h := mantissa_truncation_eq ip fp hge
    rw [digitsVal_zeros _ hz] at h
    rw [hmin]
    simp only [Nat.cast_zero, zero_div] at h
    have e : ((18 : Nat) : Int) = 18 := rfl
    rw [e]
    linarith

/-! ## Rounding to binary64 -/

theorem log2Halving_le (j : Nat) : ∀ n : Nat, 1 ≤ n → 2 ^ log2Halving j n ≤ n := by
  induction j with
  | zero => intro n hn; simpa [log2Halving] using hn
  | succ j ih =>
    intro n hn
    simp only [log2Halving]
    split
    · exact ih n hn
    · rename_i h
      have hpos : 0 < 2 ^ 2 ^ j := Nat.pow_pos (by norm_num)
      have h1 : 1 ≤ n / 2 ^ 2 ^ j := (Nat.one_le_div_iff hpos).mpr (by omega)
      calc 2 ^ (2 ^ j + log2Halving j (n / 2 ^ 2 ^ j))
          = 2 ^ 2 ^ j * 2 ^ log2Halving j (n / 2 ^ 2 ^ j) := by rw [pow_add]
        _ ≤ 2 ^ 2 ^ j * (n / 2 ^ 2 ^ j) := Nat.mul_le_mul_left _ (ih _ h1)
        _ ≤ n := Nat.mul_div_le n _

theorem log2Halving_lt (j : Nat) : ∀ n : Nat, n < 2 ^ 2 ^ j → n < 2 ^ (log2Halving j n + 1) := by
  induction j with
  | zero => intro n hn; simpa [log2Halving] using hn
  | succ j ih =>
    intro n hn
    simp only [log2Halving]
    split
    · rename_i h; exact ih n h
    · have hpos : 0 < 2 ^ 2 ^ j := Nat.pow_pos (by norm_num)
      have hsq : 2 ^ 2 ^ (j + 1) = 2 ^ 2 ^ j * 2 ^ 2 ^ j := by
        rw [← pow_add, pow_succ]; congr 1; omega
      have hq : n / 2 ^ 2 ^ j < 2 ^ 2 ^ j := by
        rw [Nat.div_lt_iff_lt_mul hpos, ← hsq]; exact hn
      have h2 := ih _ hq
      have h3 : n < 2 ^ 2 ^ j * (n / 2 ^ 2 ^ j + 1) := Nat.lt_mul_div_succ n hpos
      calc n < 2 ^ 2 ^ j * (n / 2 ^ 2 ^ j + 1) := h3
        _ ≤ 2 ^ 2 ^ j * 2 ^ (log2Halving j (n / 2 ^ 2 ^ j) + 1) := Nat.mul_le_mul_left _ h2
        _ = 2 ^ (2 ^ j + log2Halving j (n / 2 ^ 2 ^ j) + 1) := by rw [← pow_add]; congr 1

theorem log2Span_spec : ∀ (fuel n j : Nat), n ≤ fuel + j → n < 2 ^ 2 ^ log2Span fuel n j := by
  intro fuel
  induction fuel with
  | zero =>
    intro n j h
    simp only [log2Span]
    calc n ≤ j := by omega
      _ < 2 ^ j := Nat.lt_two_pow j
      _ < 2 ^ 2 ^ j := Nat.pow_lt_pow_right (by norm_num) (Nat.lt_two_pow j)
  | succ fuel ih =>
    intro n j h
    simp only [log2Span]
    split
    · assumption
    · exact ih n (j + 1) (by omega)

theorem natLog2_le (n : Nat) (hn : 1 ≤ n) : 2 ^ natLog2 n ≤ n := log2Halving_le _ n hn

theorem natLog2_lt (n : Nat) : n < 2 ^ (natLog2 n + 1) :=
  log2Halving_lt _ n (log2Span_spec n n 0 (by omega))

theorem pow2_eq (e : Int) : pow2 e = (2 : ℚ) ^ e := by
  unfold pow2
  split
  · rename_i h
    conv_rhs => rw [← Int.toNat_of_nonneg h]
    rw [zpow_natCast]; push_cast; rfl
  · rename_i h
    have h' : e = -(((-e).toNat : Nat) : Int) := by omega
    conv_rhs => rw [h']
    rw [zpow_neg, zpow_natCast]; push_cast
    rw [one_div]

theorem pow2_pos (e : Int) : 0 < pow2 e := by
  rw [pow2_eq]; positivity

theorem pow2_add (a b : Int) : pow2 (a + b) = pow2 a * pow2 b := by
  rw [pow2_eq, pow2_eq, pow2_eq, zpow_add₀ (by norm_num)]

theorem pow2_le {a b : Int} (h : a ≤ b) : pow2 a ≤ pow2 b := by
  rw [pow2_eq, pow2_eq]; exact zpow_le_zpow_right₀ (by norm_num) h

theorem pow2_lt {a b : Int} (h : a < b) : pow2 a < pow2 b := by
  rw [pow2_eq, pow2_eq]; exact zpow_lt_zpow_right₀ (by norm_num) h

theorem pow2_natCast (k : Nat) : pow2 (k : Int) = ((2 ^ k : Nat) : ℚ) := by
  rw [pow2_eq, zpow_natCast]; push_cast; rfl

theorem qabs_eq (q : ℚ) : qabs q = |q| := by
  unfold qabs
  split
  · rename_i h; rw [abs_of_neg h]
  · rename_i h; rw [abs_of_nonneg (not_lt.mp h)]

/-- The exponent found for `q ≠ 0` is not above the binary logarithm of `|q|`. -/
theorem ilog2_le (q : ℚ) (hq : q ≠ 0) : pow2 (ilog2 q) ≤ qabs q := by
  unfold ilog2
  split
  · assumption
  · have hnum : 1 ≤ q.num.natAbs := by
      have : q.num ≠ 0 := Rat.num_ne_zero.mpr hq
      omega
    have hden : 0 < q.den := q.den_pos
    have h1 := natLog2_le q.num.natAbs hnum
    have h2 := natLog2_lt q.den
    have hq' : qabs q = (q.num.natAbs : ℚ) / (q.den : ℚ) := by
      rw [qabs_eq]
      have : |q| = |(q.num : ℚ)| / (q.den : ℚ) := by
        conv_lhs => rw [← Rat.num_div_den q]
        rw [abs_div, Nat.abs_cast]
      rw [this, Nat.cast_natAbs, Int.cast_abs]
    rw [hq']
    have e : ((natLog2 q.num.natAbs : Int) - (natLog2 q.den : Int) - 1)
        = (natLog2 q.num.natAbs : Int) + -(((natLog2 q.den + 1 : Nat)) : Int) := by
      push_cast; ring
    rw [e, pow2_add, pow2_natCast, pow2_eq, zpow_neg, zpow_natCast]
    have hd : (0 : ℚ) < (q.den : ℚ) := by exact_mod_cast hden
    have hp : (0 : ℚ) < (2 : ℚ) ^ (natLog2 q.den + 1) := by positivity
    rw [← div_eq_mul_inv, div_le_div_iff₀ hp hd]
    have h1' : ((2 ^ natLog2 q.num.natAbs : Nat) : ℚ) ≤ (q.num.natAbs : ℚ) := by exact_mod_cast h1
    have h2' : (q.den : ℚ) ≤ (2 : ℚ) ^ (natLog2 q.den + 1) := by exact_mod_cast h2.le
    have h0 : (0 : ℚ) ≤ ((2 ^ natLog2 q.num.natAbs : Nat) : ℚ) := by positivity
    calc ((2 ^ natLog2 q.num.natAbs : Nat) : ℚ) * (q.den : ℚ)
        ≤ ((2 ^ natLog2 q.num.natAbs : Nat) : ℚ) * (2 : ℚ) ^ (natLog2 q.den + 1) :=
          mul_le_mul_of_nonneg_left h2' h0
      _ ≤ (q.num.natAbs : ℚ) * (2 : ℚ) ^ (natLog2 q.den + 1) :=
          mul_le_mul_of_nonneg_right h1' hp.le

theorem natFloor_eq (x : ℚ) (hx : 0 ≤ x) : ((x.num.natAbs / x.den : Nat) : Int) = ⌊x⌋ := by
  have hnum : 0 ≤ x.num := Rat.num_nonneg.mpr hx
  rw [Rat.floor_def, Int.ofNat_ediv, Int.natCast_natAbs, abs_of_nonneg hnum]

theorem natFloor_le (x : ℚ) (hx : 0 ≤ x) : ((x.num.natAbs / x.den : Nat) : ℚ) ≤ x := by
  have h := Int.floor_le x
  rw [← natFloor_eq x hx] at h
  exact_mod_cast h

theorem lt_natFloor_add_one (x : ℚ) (hx : 0 ≤ x) : x < ((x.num.natAbs / x.den : Nat) : ℚ) + 1 := by
  have h := Int.lt_floor_add_one x
  rw [← natFloor_eq x hx] at h
  exact_mod_cast h

theorem frac1Of_lt (digits : List Nat) (h : AllDigits digits) : frac1Of digits < 10 ^ 9 := by
  unfold frac1Of
  have hl : (digits.take (foldCount digits - 9)).length ≤ 9 := by
    simp only [List.length_take, foldCount]; omega
  calc digitsVal (digits.take (foldCount digits - 9))
      < 10 ^ (digits.take (foldCount digits - 9)).length := digitsVal_lt _ (h.take _)
    _ ≤ 10 ^ 9 := Nat.pow_le_pow_right (by norm_num) hl

theorem frac2Of_lt (digits : List Nat) (h : AllDigits digits) : frac2Of digits < 10 ^ 9 := by
  unfold frac2Of
  have hl : ((digits.drop (foldCount digits - 9)).take (min (foldCount digits) 9)).length ≤ 9 := by
    simp only [List.length_take, List.length_drop, foldCount]; omega
  calc digitsVal ((digits.drop (foldCount digits - 9)).take (min (foldCount digits) 9))
      < 10 ^ ((digits.drop (foldCount digits - 9)).take (min (foldCount digits) 9)).length :=
        digitsVal_lt _ ((h.drop _).take _)
    _ ≤ 10 ^ 9 := Nat.pow_le_pow_right (by norm_num) hl

theorem wrap32_range (x : Int) : -2147483648 ≤ wrap32 x ∧ wrap32 x < 2147483648 := by
  unfold wrap32; omega

/-- After the sign split and the clamp of lines 201-210 the exponent lies in `0..511`, or is
the one value `-2^31` whose negation wraps onto itself. -/
theorem combineExponent_range (fe : Int) (es : Bool) (e : Int) :
    (0 ≤ (combineExponent fe es e).2.1 ∧ (combineExponent fe es e).2.1 ≤ 511) ∨
      (combineExponent fe es e).2.1 = -2147483648 := by
  unfold combineExponent
  have h1 := wrap32_range (fe - e)
  have h2 := wrap32_range (fe + e)
  have h3 := wrap32_range (-wrap32 (fe - e))
  have h4 := wrap32_range (-wrap32 (fe + e))
  have h5 : ∀ y : Int, -2147483648 ≤ y → y < 0 → 0 ≤ wrap32 (-y) ∨ wrap32 (-y) = -2147483648 := by
    intro y _ _; unfold wrap32; omega
  simp only [maxExponent]
  cases es <;> simp only [if_true, if_false, Bool.false_eq_true] <;> split <;> split <;>
    simp only <;> first | omega | (rename_i hneg hgt; rcases h5 _ (by omega) hneg with h | h <;> omega)

theorem rdTable_ok {α : Type} (ops : DblOps α) (d : Nat) (hd : d < 9) :
    ∃ t, rdTable ops d = .ok t := by
  interval_cases d <;> exact ⟨_, rfl⟩

/-- Lines 212-216 finish for an exponent whose bits fit the table from entry `d` on. -/
theorem powLoop_returns {α : Type} (ops : DblOps α) : ∀ (fuel : Nat) (e : Nat) (d : Nat) (acc : α),
    d ≤ 9 → e < 2 ^ (9 - d) → 9 - d < fuel → ∃ r, powLoop ops fuel (e : Int) d acc = .ok r := by
  intro fuel
  induction fuel with
  | zero => intro e d acc _ _ hf; omega
  | succ fuel ih =>
    intro e d acc hd he hf
    by_cases h0 : e = 0
    · subst h0; exact ⟨acc, by simp [powLoop, pure, Except.pure]⟩
    · have hd9 : d < 9 := by
        by_contra hc
        have : 9 - d = 0 := by omega
        rw [this] at he
        simp at he
        omega
      have hne : ¬ (e : Int) = 0 := by omega
      have he2 : e / 2 < 2 ^ (9 - (d + 1)) := by
        have : 2 ^ (9 - d) = 2 * 2 ^ (9 - (d + 1)) := by
          rw [show 9 - d = (9 - (d + 1)) + 1 by omega, pow_succ]; ring
        omega
      have hdiv : (e : Int) / 2 = ((e / 2 : Nat) : Int) := by omega
      obtain ⟨t, ht⟩ := rdTable_ok ops d hd9
      by_cases hodd : (e : Int) % 2 = 1
      · obtain ⟨r, hr⟩ := ih (e / 2) (d + 1) (ops.mul acc t) (by omega) he2 (by omega)
        exact ⟨r, by simp only [powLoop, ne_eq, hne, not_false_eq_true, if_true, hodd, ht, bind,
          Except.bind, hdiv, hr]⟩
      · obtain ⟨r, hr⟩ := ih (e / 2) (d + 1) acc (by omega) he2 (by omega)
        exact ⟨r, by simp only [powLoop, ne_eq, hne, not_false_eq_true, if_true, hodd, if_false,
          hdiv, hr]⟩

/-- Lines 212-216 started on `-2^31` shift it down to `-1` and then read entry 31 of the
nine-entry table. -/
theorem powLoop_overrun {α : Type} (ops : DblOps α) (acc : α) :
    powLoop ops 64 (-2147483648) 0 acc = .error .tableRead := by
  rfl

/-- Lines 188-221 return, except when the exponent is `-2^31` after the sign split: then the
loop runs off the table. -/
theorem scale_outcome {α : Type} (ops : DblOps α) (sign : Bool) (fraction : α) (fracExp : Int)
    (expSign : Bool) (exp : Int) (p : Nat) :
    (∃ r, scale ops sign fraction fracExp expSign exp p = .ok r) ∨
      scale ops sign fraction fracExp expSign exp p = .error .tableRead := by
  have hrange := combineExponent_range fracExp expSign exp
  rcases hce : combineExponent fracExp expSign exp with ⟨es', e', er⟩
  rw [hce] at hrange
  simp only at hrange
  rcases hrange with ⟨h0, h1⟩ | h
  · left
    obtain ⟨e, he⟩ : ∃ e : Nat, e' = e := ⟨e'.toNat, by omega⟩
    obtain ⟨r, hr⟩ := powLoop_returns ops 64 e 0 (ops.lit 0) (by omega)
      (by simp only [Nat.sub_zero]; omega) (by omega)
    rw [← he] at hr
    refine ⟨done ops sign (if es' = true then ops.div fraction r else ops.mul fraction r) p er, ?_⟩
    simp only [scale, hce, hr, bind, Except.bind, pure, Except.pure]
  · right
    subst h
    simp only [scale, hce, powLoop_overrun, bind, Except.bind]

/-- A call returns a result unless the power loop runs off `powersOf10`: it never reads the
input past its terminator and no loop over the input runs out of iterations. -/
theorem string_to_double_outcome {α : Type} (ops : DblOps α) (s : List Nat) :
    (∃ r, string_to_double ops s = .ok r) ∨ string_to_double ops s = .error .tableRead := by
  rcases numeral_or_no_digit s with ⟨N0, rest0, hwf0, hs0⟩ | ⟨ws, t, sg, hs, hws, hsg, hd, hp⟩
  · obtain ⟨N, rest, hwf, hmax, htxt, -⟩ := extend N0 rest0 hwf0
    rw [hs0, htxt]
    rcases string_to_double_maxFollows ops N rest hwf hmax with h | h
    · rw [h]; exact scale_outcome ops _ _ _ _ _ _
    · left; exact ⟨_, h⟩
  · left
    rw [hs]
    exact ⟨_, string_to_double_no_digit ops ws t sg hws hsg hd hp⟩

/-! ## Finite results in binary64 -/

/-- A marker without digits after a numeral: the jump to `done` at line 181 returns the
unscaled fraction and the end of the numeral. -/
theorem string_to_double_dangling {α : Type} (ops : DblOps α) (N : Numeral) (rest : List Nat)
    (hwf : N.WF) (hrest : MaxFollows N rest) (hnf : ¬ Follows N rest) :
    string_to_double ops (N.text ++ rest)
      = .ok (done ops (N.sign = some true) (fractionOf ops N.digits) N.text.length false) := by
  obtain ⟨hr1, hr2⟩ := hrest
  have hN : N.exp = none := by
    by_contra hne
    exact hnf ⟨hr1, fun h => absurd h hne⟩
  obtain ⟨h46, hno⟩ := hr2 hN
  rcases hno with ⟨h69, h101⟩ | ⟨m, es, r', hu, hm, hes, hd⟩
  · exact absurd ⟨hr1, fun _ => ⟨h46, h69, h101⟩⟩ hnf
  · obtain ⟨hws, hip, hfp, hpt, hn, -⟩ := hwf
    have hs : N.text ++ rest = N.ws ++ (signText N.sign ++ (mantText N.ip N.pt N.fp
        ++ rest)) := by simp [Numeral.text, hN, expFieldText]
    have hs' : N.text ++ rest = (N.ws ++ signText N.sign ++ mantText N.ip N.pt N.fp)
        ++ (m :: (signText es ++ r')) := by simp [Numeral.text, hN, expFieldText, hu]
    have hlen := text_length N
    rw [hN] at hlen
    simp only [expFieldText, List.length_nil, Nat.add_zero] at hlen
    rw [string_to_double_mantissa ops _ N.ws N.ip N.fp rest N.sign N.pt hs hws hip hfp hpt hn
      hr1 h46]
    have he := exponentField_dangling _ _ r' m es hs' hm hes hd
    simp only [List.length_append] at he
    rw [he, hlen]
    rfl

/-- Lines 188-221 do not look at the sign and the end position: they are handed on to
`done`. -/
theorem scale_eq_map {α : Type} (ops : DblOps α) (sign : Bool) (fraction : α) (fracExp : Int)
    (expSign : Bool) (exp : Int) (p : Nat) :
    scale ops sign fraction fracExp expSign exp p
      = (scale ops false fraction fracExp expSign exp 0).map
          (fun r => done ops sign r.value p r.erange) := by
  rcases hce : combineExponent fracExp expSign exp with ⟨es, e, er⟩
  simp only [scale, hce, bind, Except.bind, pure, Except.pure]
  cases powLoop ops 64 e 0 (ops.lit 0) with
  | error f => rfl
  | ok d => simp [Except.map, done]

/-- The white space and the sign in front of a numeral only enter through `done`: the
magnitude and the advisory depend on the mantissa, the exponent field and what follows. -/
theorem string_to_double_core {α : Type} (ops : DblOps α) (ip fp : List Nat) (pt : Bool)
    (ex : Option ExpField) (rest : List Nat) :
    ∃ X : Except Fault (Result α), ∀ (ws : List Nat) (sg : Option Bool),
      Numeral.WF ⟨ws, sg, ip, pt, fp, ex⟩ → MaxFollows ⟨ws, sg, ip, pt, fp, ex⟩ rest →
      string_to_double ops (Numeral.text ⟨ws, sg, ip, pt, fp, ex⟩ ++ rest)
        = X.map (fun r => done ops (sg = some true) r.value
            (Numeral.text ⟨ws, sg, ip, pt, fp, ex⟩).length r.erange) := by
  by_cases hfol : Follows ⟨[], none, ip, pt, fp, ex⟩ rest
  · refine ⟨scale ops false (fractionOf ops (ip ++ fp)) (fracExpOf ip fp) (expSignOf ex)
      (wrap32 (expMagnitude ex : Nat)) 0, ?_⟩
    intro ws sg hwf _
    have hf : Follows ⟨ws, sg, ip, pt, fp, ex⟩ rest := hfol
    rw [string_to_double_numeral ops _ rest hwf hf, scale_eq_map]
    rfl
  · refine ⟨.ok ⟨fractionOf ops (ip ++ fp), 0, false⟩, ?_⟩
    intro ws sg hwf hmax
    have hf : ¬ Follows ⟨ws, sg, ip, pt, fp, ex⟩ rest := hfol
    rw [string_to_double_dangling ops _ rest hwf hmax hf]
    rfl

/-- Every input is a numeral that nothing after it can lengthen, followed by the rest, or it
has no digit where the mantissa is looked for. -/
theorem maximal_numeral_or_no_digit (s : List Nat) :
    (∃ (N : Numeral) (rest : List Nat), N.WF ∧ MaxFollows N rest ∧ s = N.text ++ rest) ∨
    (∃ (ws t : List Nat) (sg : Option Bool), s = ws ++ (signText sg ++ t) ∧ AllSpace ws ∧
      (sg = none → isspace (peek t) = false ∧ peek t ≠ 43 ∧ peek t ≠ 45) ∧
      isdigit (peek t) = false ∧ (peek t = 46 → isdigit (peek t.tail) = false)) := by
  rcases numeral_or_no_digit s with ⟨N0, rest0, hwf0, hs0⟩ | h
  · obtain ⟨N, rest, hwf, hmax, htxt, -⟩ := extend N0 rest0 hwf0
    exact Or.inl ⟨N, rest, hwf, hmax, by rw [hs0, htxt]⟩
  · exact Or.inr h

/-- First character of a text that starts with white space. -/
theorem peek_ws_append (ws u : List Nat) (hws : AllSpace ws) (hne : ws ≠ []) :
    isspace (peek (ws ++ u)) = true := by
  cases ws with
  | nil => exact absurd rfl hne
  | cons c ws' => exact hws c (by simp)

/-- First character of a text that starts with a sign. -/
theorem peek_sign_append (sg : Option Bool) (u : List Nat) (hsg : sg ≠ none) :
    peek (signText sg ++ u) = 43 ∨ peek (signText sg ++ u) = 45 := by
  match sg, hsg with
  | some false, _ => left; rfl
  | some true, _ => right; rfl

/-! ## Reads of the input -/

/-- Lines 81-131 when the mantissa run holds no digit: they return with `mantSize = 0`. -/
theorem header_no_digit (ws t : List Nat) (sg : Option Bool) (hws : AllSpace ws)
    (hsg : sg = none → isspace (peek t) = false ∧ peek t ≠ 43 ∧ peek t ≠ 45)
    (hd : isdigit (peek t) = false) (hp : peek t = 46 → isdigit (peek t.tail) = false) :
    ∃ h, header (ws ++ (signText sg ++ t)) = .ok h ∧ h.mantSize = 0 := by
  have h0 : ∀ u : List Nat, (sg = none → isspace (peek u) = false) →
      isspace (peek (signText sg ++ u)) = false := by
    intro u hu
    match sg, hu with
    | none, hu => simpa [signText] using hu rfl
    | some false, _ => simp [signText, isspace]
    | some true, _ => simp [signText, isspace]
  by_cases h46 : peek t = 46
  · obtain ⟨t', rfl⟩ : ∃ t', t = 46 :: t' := by
      cases t with
      | nil => simp at h46
      | cons c t' => simp at h46; exact ⟨t', by rw [h46]⟩
    have hh := header_run (ws ++ (signText sg ++ (46 :: t'))) ws [] [] t' sg true
      (by simp [mantText, pointText]) hws allDigits_nil allDigits_nil (by simp)
      (h0 _ (fun h => by simpa [mantText, pointText] using (hsg h).1))
      (fun h => by simp [mantText, pointText])
      (by simpa using hp h46) (by simp)
    exact ⟨_, hh, rfl⟩
  · have hh := header_run (ws ++ (signText sg ++ t)) ws [] [] t sg false
      (by simp [mantText, pointText]) hws allDigits_nil allDigits_nil (by simp)
      (h0 _ (fun h => by simpa [mantText, pointText] using (hsg h).1))
      (fun h => by simpa [mantText, pointText] using (hsg h).2)
      hd (fun _ => h46)
    exact ⟨_, hh, rfl⟩

/-- Lines 167-187 return after a numeral that nothing after it can lengthen. -/
theorem exponentField_returns (N : Numeral) (rest : List Nat) (hwf : N.WF)
    (hmax : MaxFollows N rest) :
    ∃ e, exponentField (N.text ++ rest)
      (N.ws.length + (signText N.sign).length + (mantText N.ip N.pt N.fp).length) = .ok e := by
  obtain ⟨hr1, hr2⟩ := hmax
  have hpl : (N.ws ++ signText N.sign ++ mantText N.ip N.pt N.fp).length
      = N.ws.length + (signText N.sign).length + (mantText N.ip N.pt N.fp).length := by
    simp only [List.length_append]
  have hs : N.text ++ rest = (N.ws ++ signText N.sign ++ mantText N.ip N.pt N.fp)
      ++ (expFieldText N.exp ++ rest) := by simp [Numeral.text]
  rw [← hpl]
  match hN : N.exp, hwf.2.2.2.2.2 with
  | some (m, es, ed), hexp =>
    obtain ⟨hm, hed, hne⟩ := hexp
    rw [hN] at hs
    exact ⟨_, exponentField_run _ _ ed rest m es hs hm hed hne hr1⟩
  | none, _ =>
    rw [hN] at hs
    simp only [expFieldText, List.nil_append] at hs
    obtain ⟨-, hno⟩ := hr2 hN
    rcases hno with hno | ⟨m, es, r', hu, hm, hes, hd⟩
    · exact ⟨_, exponentField_absent _ _ rest hs hno⟩
    · have hs2 : N.text ++ rest = (N.ws ++ signText N.sign ++ mantText N.ip N.pt N.fp)
          ++ (m :: (signText es ++ r')) := by rw [hs, hu]
      exact ⟨_, exponentField_dangling _ _ r' m es hs2 hm hes hd⟩

/-! ## What the accumulation loops fold -/

/-- The record does not change what the loop computes. -/
theorem fracLoopTrace_fst (s : List Nat) (lim : Int) : ∀ (fuel p : Nat) (m a : Int)
    (tr : List (Nat × Int)),
    (fracLoopTrace s lim fuel p m a tr).map (fun r => (r.1, r.2.1, r.2.2.1))
      = fracLoop s lim fuel p m a := by
  intro fuel
  induction fuel with
  | zero => intro p m a tr; rfl
  | succ fuel ih =>
    intro p m a tr
    by_cases hm : m > lim
    · simp only [fracLoopTrace, fracLoop, hm, if_true, bind, Except.bind]
      cases rd s p with
      | error e => rfl
      | ok c =>
        simp only
        by_cases hc : c = 46
        · simp only [hc, if_true]
          cases rd s (p + 1) with
          | error e => rfl
          | ok c2 => exact ih _ _ _ _
        · simp only [hc, if_false]
          exact ih _ _ _ _
    · simp only [fracLoopTrace, fracLoop, hm, if_false]
      rfl

/-- The record does not change what lines 137-159 compute. -/
theorem accumulateTrace_fst (s : List Nat) (h : Header) :
    (accumulateTrace s h).map Prod.fst = accumulate s h := by
  have h1 := fracLoopTrace_fst s 9 19 h.p h.mantSize 0 []
  simp only [accumulateTrace, accumulate, bind, Except.bind]
  rw [← h1]
  cases fracLoopTrace s 9 19 h.p h.mantSize 0 [] with
  | error e => rfl
  | ok r =>
    obtain ⟨p, m, a, tr⟩ := r
    have h2 := fracLoopTrace_fst s 0 19 p m 0 []
    simp only [Except.map]
    rw [← h2]
    cases fracLoopTrace s 0 19 p m 0 [] with
    | error e => rfl
    | ok r2 => rfl

theorem foldTrace_append (l1 l2 : List Nat) : ∀ a : Nat,
    foldTrace a (l1 ++ l2) = foldTrace a l1 ++ foldTrace (digitsFrom a l1) l2 := by
  induction l1 with
  | nil => intro a; rfl
  | cons c l1 ih =>
    intro a
    show foldTrace a (c :: (l1 ++ l2)) = _
    simp only [foldTrace, digitsFrom_cons, ih, List.cons_append]

theorem foldTrace_fst (ds : List Nat) : ∀ a : Nat, (foldTrace a ds).map Prod.fst = ds := by
  induction ds with
  | nil => intro a; rfl
  | cons c ds ih => intro a; simp only [foldTrace, List.map_cons, ih]

/-- Every value in the record of folding digits is a partial Horner value: it is not
negative and stays below the bound of the whole run. -/
theorem foldTrace_bound (ds : List Nat) : ∀ a : Nat, AllDigits ds →
    ∀ e ∈ foldTrace a ds, 0 ≤ e.2 ∧ e.2 + 1 ≤ (((a + 1) * 10 ^ ds.length : Nat) : Int) := by
  induction ds with
  | nil => intro a _ e he; cases he
  | cons c ds ih =>
    intro a hds e he
    obtain ⟨h1, h2⟩ := isdigit_iff.mp (hds c (by simp))
    have hpos : 1 ≤ 10 ^ ds.length := Nat.one_le_pow _ _ (by norm_num)
    have e0 : (a + 1) * 10 ^ (c :: ds).length = (10 * a + 10) * 10 ^ ds.length := by
      simp only [List.length_cons]; ring
    have hstep : (10 * a + (c - 48) + 1) * 10 ^ ds.length ≤ (a + 1) * 10 ^ (c :: ds).length := by
      rw [e0]; exact Nat.mul_le_mul_right _ (by omega)
    simp only [foldTrace, List.mem_cons] at he
    rcases he with he | he
    · subst he
      refine ⟨Int.natCast_nonneg _, ?_⟩
      have : 10 * a + (c - 48) + 1 ≤ (a + 1) * 10 ^ (c :: ds).length :=
        le_trans (by nlinarith) hstep
      show ((10 * a + (c - 48) : Nat) : Int) + 1 ≤ _
      exact_mod_cast this
    · obtain ⟨h0, hb⟩ := ih (10 * a + (c - 48)) (fun x hx => hds x (by simp [hx])) e he
      refine ⟨h0, le_trans hb ?_⟩
      exact_mod_cast hstep

theorem trace_entry {a c : Nat} (hc : isdigit c = true) :
    10 * (a : Int) + ((c : Int) - 48) = ((10 * a + (c - 48) : Nat) : Int) := by
  obtain ⟨h1, h2⟩ := isdigit_iff.mp hc
  omega

theorem fracLoopTrace_stop (s : List Nat) (lim : Int) (fuel p : Nat) (m a : Int)
    (tr : List (Nat × Int)) (h : m ≤ lim) :
    fracLoopTrace s lim (fuel + 1) p m a tr = .ok (p, m, a, tr) := by
  have : ¬ m > lim := by omega
  simp [fracLoopTrace, this, pure, Except.pure]

theorem fracLoopTrace_digits (s : List Nat) (lim : Int) (ds : List Nat) :
    ∀ (pre t : List Nat) (fuel : Nat) (m : Int) (a : Nat) (tr : List (Nat × Int)),
    s = pre ++ (ds ++ t) → AllDigits ds →
    lim ≤ m → (a + 1) * 10 ^ ds.length ≤ 2147483648 →
    fracLoopTrace s lim (fuel + ds.length) pre.length (m + ds.length) a tr
      = fracLoopTrace s lim fuel (pre.length + ds.length) m (digitsFrom a ds : Nat)
          (tr ++ foldTrace a ds) := by
  induction ds with
  | nil => intro pre t fuel m a tr _ _ _ _; simp [foldTrace]
  | cons c ds ih =>
    intro pre t fuel m a tr hs hds hm ha
    have hc : isdigit c = true := hds c (by simp)
    have hr : rd s pre.length = .ok c := by rw [hs]; exact rd_append_cons pre c (ds ++ t)
    have hpos : 1 ≤ 10 ^ ds.length := Nat.one_le_pow _ _ (by norm_num)
    have ha1 : 10 * (a + 1) ≤ 2147483648 := by
      have : (a + 1) * 10 ^ (ds.length + 1) = 10 * (a + 1) * 10 ^ ds.length := by ring
      simp only [List.length_cons] at ha
      rw [this] at ha
      calc 10 * (a + 1) = 10 * (a + 1) * 1 := by ring
        _ ≤ 10 * (a + 1) * 10 ^ ds.length := Nat.mul_le_mul_left _ hpos
        _ ≤ _ := ha
    have ha2 : (10 * a + (c - 48) + 1) * 10 ^ ds.length ≤ 2147483648 := by
      obtain ⟨h1, h2⟩ := isdigit_iff.mp hc
      have : (a + 1) * 10 ^ (ds.length + 1) = (10 * a + 10) * 10 ^ ds.length := by ring
      simp only [List.length_cons] at ha
      rw [this] at ha
      exact le_trans (Nat.mul_le_mul_right _ (by omega)) ha
    have h := ih (pre ++ [c]) t fuel m (10 * a + (c - 48))
      (tr ++ [(c, ((10 * a + (c - 48) : Nat) : Int))]) (by simp [hs])
      (fun x hx => hds x (by simp [hx])) hm ha2
    have hgt : m + ((c :: ds).length : Int) > lim := by simp; omega
    rw [show fuel + (c :: ds).length = (fuel + ds.length) + 1 by simp; omega]
    simp only [fracLoopTrace, hgt, if_true, hr, bind, Except.bind, isdigit_ne_point hc, if_false,
      fold_step hc ha1, trace_entry hc]
    simp only [List.length_append, List.length_singleton] at h
    simp only [List.length_cons, Nat.cast_add, Nat.cast_one, digitsFrom_cons, foldTrace]
    rw [show pre.length + (ds.length + 1) = pre.length + 1 + ds.length by omega,
      show m + ((ds.length : Int) + 1) - 1 = m + ds.length by omega]
    push_cast at h ⊢
    rw [h]
    simp

theorem fracLoopTrace_point (s : List Nat) (lim : Int) (pre t : List Nat) (c fuel : Nat)
    (m : Int) (a : Nat) (tr : List (Nat × Int)) (hs : s = pre ++ 46 :: c :: t)
    (hc : isdigit c = true) (hm : lim ≤ m) (ha : 10 * (a + 1) ≤ 2147483648) :
    fracLoopTrace s lim (fuel + 1) pre.length (m + 1) a tr
      = fracLoopTrace s lim fuel (pre.length + 2) m ((10 * a + (c - 48) : Nat) : Int)
          (tr ++ foldTrace a [c]) := by
  have hr : rd s pre.length = .ok 46 := by rw [hs]; exact rd_append_cons pre 46 (c :: t)
  have hr2 : rd s (pre.length + 1) = .ok c := by
    have := rd_append_cons (pre ++ [46]) c t
    simpa [hs] using this
  have hgt : m + 1 > lim := by omega
  simp only [fracLoopTrace, hgt, if_true, hr, hr2, bind, Except.bind, fold_step hc ha,
    trace_entry hc, foldTrace]
  simp

/-- Either loop of lines 139-159 with its record, run for `j` iterations from the start of
what is left of the mantissa run: it folds the next `j` digits, one per iteration. -/
theorem fracLoopTrace_region (s : List Nat) (lim : Int) (pre ip fp tail : List Nat) (pt : Bool)
    (j a : Nat) (hs : s = pre ++ (mantText ip pt fp ++ tail)) (hip : AllDigits ip)
    (hfp : AllDigits fp) (hpt : pt = false → fp = []) (hj : j ≤ ip.length + fp.length)
    (ha : (a + 1) * 10 ^ j ≤ 2147483648) :
    ∃ (pre' ip' fp' : List Nat) (pt' : Bool), s = pre' ++ (mantText ip' pt' fp' ++ tail) ∧
      AllDigits ip' ∧ AllDigits fp' ∧ (pt' = false → fp' = []) ∧
      ip' ++ fp' = (ip ++ fp).drop j ∧
      ∀ (fuel : Nat) (m : Int) (tr : List (Nat × Int)), lim ≤ m →
        fracLoopTrace s lim (fuel + j) pre.length (m + j) a tr
          = fracLoopTrace s lim fuel pre'.length m (digitsFrom a ((ip ++ fp).take j) : Nat)
              (tr ++ foldTrace a ((ip ++ fp).take j)) := by
  by_cases hj1 : j ≤ ip.length
  · refine ⟨pre ++ ip.take j, ip.drop j, fp, pt, ?_, hip.drop j, hfp, hpt, ?_, ?_⟩
    · rw [hs]
      simp only [mantText, List.append_assoc, List.append_cancel_left_eq]
      exact split_at ip _ j
    · rw [List.drop_append_of_le_length hj1]
    · intro fuel m tr hm
      have hlen : (ip.take j).length = j := by simp [hj1]
      have hs' : s = pre ++ (ip.take j ++ (ip.drop j ++ (pointText pt ++ fp) ++ tail)) := by
        rw [hs]
        simp only [mantText, List.append_assoc, List.append_cancel_left_eq]
        exact split_at ip _ j
      have := fracLoopTrace_digits s lim (ip.take j) pre _ fuel m a tr hs' (hip.take j) hm
        (by rw [hlen]; exact ha)
      rw [hlen] at this
      rw [List.take_append_of_le_length hj1, List.length_append, hlen]
      exact this
  · have hptt : pt = true := by
      cases pt with
      | true => rfl
      | false => have := hpt rfl; subst this; simp at hj; omega
    subst hptt
    obtain ⟨c, fp0, rfl⟩ : ∃ c fp0, fp = c :: fp0 := by
      cases fp with
      | nil => simp at hj; omega
      | cons c fp0 => exact ⟨c, fp0, rfl⟩
    have hc : isdigit c = true := hfp c (by simp)
    have hfp0 : AllDigits fp0 := fun x hx => hfp x (by simp [hx])
    obtain ⟨j', rfl⟩ : ∃ j', j = ip.length + 1 + j' := ⟨j - ip.length - 1, by omega⟩
    have hj' : j' ≤ fp0.length := by simp at hj; omega
    have hlen : (fp0.take j').length = j' := by simp [hj']
    have htake : (ip ++ c :: fp0).take (ip.length + 1 + j') = ip ++ c :: fp0.take j' := by
      rw [show ip.length + 1 + j' = ip.length + (1 + j') by omega, List.take_append]
      simp [Nat.add_comm 1 j', List.take_succ_cons]
    have hdrop : (ip ++ c :: fp0).drop (ip.length + 1 + j') = fp0.drop j' := by
      rw [show ip.length + 1 + j' = ip.length + (1 + j') by omega, List.drop_append]
      simp [Nat.add_comm 1 j']
    refine ⟨pre ++ ip ++ [46, c] ++ fp0.take j', fp0.drop j', [], false, ?_, hfp0.drop j',
      allDigits_nil, fun _ => rfl, ?_, ?_⟩
    · rw [hs]
      simp only [mantText, pointText, if_true, List.append_assoc, List.append_cancel_left_eq,
        List.singleton_append, List.cons_append, List.nil_append, Bool.false_eq_true, if_false,
        List.cons.injEq, true_and]
      exact split_at fp0 _ j'
    · simp [hdrop]
    · intro fuel m tr hm
      have hs1 : s = pre ++ (ip ++ (46 :: c :: fp0 ++ tail)) := by
        rw [hs]; simp [mantText, pointText]
      have b1 : (a + 1) * 10 ^ ip.length ≤ 2147483648 :=
        le_trans (pow10_mono (by omega) _) ha
      have e1 := fracLoopTrace_digits s lim ip pre _ (fuel + j' + 1) (m + j' + 1) a tr hs1 hip
        (by omega) b1
      have hs2 : s = (pre ++ ip) ++ 46 :: c :: (fp0 ++ tail) := by
        rw [hs]; simp [mantText, pointText]
      have b2 : 10 * (digitsFrom a ip + 1) ≤ 2147483648 := by
        have := digitsFrom_bound ip a hip
        calc 10 * (digitsFrom a ip + 1) ≤ 10 * ((a + 1) * 10 ^ ip.length) :=
              Nat.mul_le_mul_left _ this
          _ = (a + 1) * 10 ^ (ip.length + 1) := by ring
          _ ≤ (a + 1) * 10 ^ (ip.length + 1 + j') := pow10_mono (by omega) _
          _ ≤ _ := ha
      have e2 := fracLoopTrace_point s lim (pre ++ ip) (fp0 ++ tail) c (fuel + j') (m + j')
        (digitsFrom a ip) (tr ++ foldTrace a ip) hs2 hc (by omega) b2
      have hs3 : s = (pre ++ ip ++ [46, c]) ++ (fp0.take j' ++ (fp0.drop j' ++ tail)) := by
        rw [hs]
        simp only [mantText, pointText, if_true, List.append_assoc, List.append_cancel_left_eq,
          List.singleton_append, List.cons_append, List.nil_append, List.cons.injEq, true_and]
        exact split_at fp0 _ j'
      have b3 : (10 * digitsFrom a ip + (c - 48) + 1) * 10 ^ (fp0.take j').length
          ≤ 2147483648 := by
        have h1 := digitsFrom_bound (ip ++ [c]) a (hip.append (fun x hx => by
          simp at hx; subst hx; exact hc))
        rw [digitsFrom_append] at h1
        simp only [digitsFrom_cons, digitsFrom_nil, List.length_append,
          List.length_singleton] at h1
        rw [hlen]
        calc (10 * digitsFrom a ip + (c - 48) + 1) * 10 ^ j'
            ≤ ((a + 1) * 10 ^ (ip.length + 1)) * 10 ^ j' := Nat.mul_le_mul_right _ h1
          _ = (a + 1) * 10 ^ (ip.length + 1 + j') := by ring
          _ ≤ _ := ha
      have e3 := fracLoopTrace_digits s lim (fp0.take j') (pre ++ ip ++ [46, c]) _ fuel m
        (10 * digitsFrom a ip + (c - 48)) (tr ++ foldTrace a ip ++ foldTrace (digitsFrom a ip) [c])
        hs3 (hfp0.take j') hm b3
      rw [hlen] at e3
      simp only [List.length_append, List.length_cons, List.length_nil] at e2 e3 ⊢
      rw [show fuel + (ip.length + 1 + j') = fuel + j' + 1 + ip.length by omega,
        show m + ((ip.length + 1 + j' : Nat) : Int) = m + j' + 1 + ip.length by push_cast; omega]
      rw [e1, e2]
      rw [htake, digitsFrom_append, digitsFrom_cons, hlen]
      rw [show pre.length + ip.length + (0 + 1 + 1) = pre.length + ip.length + 2 by omega] at e3
      rw [e3]
      have hsplit : foldTrace a (ip ++ c :: fp0.take j')
          = foldTrace a ip ++ (foldTrace (digitsFrom a ip) [c]
            ++ foldTrace (10 * digitsFrom a ip + (c - 48)) (fp0.take j')) := by
        rw [foldTrace_append]
        rfl
      rw [hsplit]
      simp only [List.append_assoc]

/-- Lines 137-159 with their records on a mantissa run with `k` digits to fold: the first
loop folds the first `k - 9` digits, the second the `min k 9` after them. -/
theorem accumulateTrace_run (s pre ip fp tail : List Nat) (pt : Bool) (h : Header) (k : Nat)
    (hs : s = pre ++ (mantText ip pt fp ++ tail)) (hip : AllDigits ip) (hfp : AllDigits fp)
    (hpt : pt = false → fp = []) (hp : h.p = pre.length) (hm : h.mantSize = k)
    (hk : k ≤ ip.length + fp.length) (hk18 : k ≤ 18) :
    accumulateTrace s h = .ok (((digitsVal ((ip ++ fp).take (k - 9)) : Nat),
        (digitsVal (((ip ++ fp).drop (k - 9)).take (min k 9)) : Nat)),
      foldTrace 0 ((ip ++ fp).take (k - 9)),
      foldTrace 0 (((ip ++ fp).drop (k - 9)).take (min k 9))) := by
  have hpow : ∀ j, j ≤ 9 → (0 + 1) * 10 ^ j ≤ 2147483648 := by
    intro j hj
    calc (0 + 1) * 10 ^ j ≤ (0 + 1) * 10 ^ 9 := pow10_mono hj _
      _ ≤ _ := by norm_num
  by_cases h9 : k ≤ 9
  · have e1 : fracLoopTrace s 9 19 h.p h.mantSize 0 [] = .ok (pre.length, (k : Int), 0, []) := by
      rw [hp, hm]; exact fracLoopTrace_stop s 9 18 _ _ _ _ (by omega)
    obtain ⟨pre', ip', fp', pt', -, -, -, -, -, hrun⟩ :=
      fracLoopTrace_region s 0 pre ip fp tail pt k 0 hs hip hfp hpt hk (hpow k h9)
    have e2 := hrun (19 - k) 0 [] (le_refl _)
    rw [show 19 - k + k = 19 by omega, Int.zero_add] at e2
    have e3 := fracLoopTrace_stop s 0 (18 - k) pre'.length 0
      ((digitsFrom 0 ((ip ++ fp).take k) : Nat) : Int) ([] ++ foldTrace 0 ((ip ++ fp).take k))
      (le_refl _)
    rw [show 18 - k + 1 = 19 - k by omega] at e3
    have hk0 : k - 9 = 0 := by omega
    have hmin : min k 9 = k := by omega
    simp only [accumulateTrace, e1, bind, Except.bind, Nat.cast_zero] at e2 ⊢
    rw [e2, e3]
    simp [hk0, hmin, digitsVal, pure, Except.pure, foldTrace]
  · obtain ⟨pre1, ip1, fp1, pt1, hs1, hip1, hfp1, hpt1, hD1, hrun1⟩ :=
      fracLoopTrace_region s 9 pre ip fp tail pt (k - 9) 0 hs hip hfp hpt (by omega)
        (hpow (k - 9) (by omega))
    have e1 := hrun1 (19 - (k - 9)) 9 [] (le_refl _)
    rw [show 19 - (k - 9) + (k - 9) = 19 by omega,
      show (9 : Int) + ((k - 9 : Nat) : Int) = k by omega] at e1
    have e1' := fracLoopTrace_stop s 9 (18 - (k - 9)) pre1.length 9
      ((digitsFrom 0 ((ip ++ fp).take (k - 9)) : Nat) : Int)
      ([] ++ foldTrace 0 ((ip ++ fp).take (k - 9))) (le_refl _)
    rw [show 18 - (k - 9) + 1 = 19 - (k - 9) by omega] at e1'
    have hlen1 : ip1.length + fp1.length = ip.length + fp.length - (k - 9) := by
      have := congrArg List.length hD1
      simpa using this
    obtain ⟨pre2, ip2, fp2, pt2, -, -, -, -, -, hrun2⟩ :=
      fracLoopTrace_region s 0 pre1 ip1 fp1 tail pt1 9 0 hs1 hip1 hfp1 hpt1 (by omega)
        (hpow 9 (le_refl _))
    have e2 := hrun2 10 0 [] (le_refl _)
    have e3 := fracLoopTrace_stop s 0 9 pre2.length 0
      ((digitsFrom 0 ((ip1 ++ fp1).take 9) : Nat) : Int)
      ([] ++ foldTrace 0 ((ip1 ++ fp1).take 9)) (le_refl _)
    have hmin : min k 9 = 9 := by omega
    simp only [accumulateTrace, hp, hm, bind, Except.bind, Nat.cast_zero] at e1 e2 ⊢
    rw [e1, e1']
    simp only [Nat.cast_ofNat, Int.zero_add] at e2 ⊢
    rw [e2, e3, hD1]
    simp [hmin, digitsVal, pure, Except.pure]

/-! ## Iterations of the power loop -/

/-- Halving a positive number takes one bit off its binary length. -/
theorem size_halve (e : Nat) (he : e ≠ 0) : Nat.size e = Nat.size (e / 2) + 1 := by
  apply le_antisymm
  · rw [Nat.size_le, pow_succ]
    have := Nat.lt_size_self (e / 2)
    omega
  · show Nat.size (e / 2) < Nat.size e
    rw [Nat.lt_size]
    by_cases h0 : e / 2 = 0
    · rw [h0, Nat.size_zero, pow_zero]; omega
    · have hpos : 0 < Nat.size (e / 2) := Nat.size_pos.mpr (Nat.pos_of_ne_zero h0)
      have h1 : Nat.size (e / 2) - 1 < Nat.size (e / 2) := by omega
      rw [Nat.lt_size] at h1
      have h2 : 2 ^ Nat.size (e / 2) = 2 * 2 ^ (Nat.size (e / 2) - 1) := by
        conv_lhs => rw [show Nat.size (e / 2) = (Nat.size (e / 2) - 1) + 1 by omega, pow_succ]
        ring
      omega

/-- Lines 212-216 given `fuel` evaluations of the loop condition, for an exponent whose bits
fit the table from entry `d` on: the loop needs one evaluation per bit of `e` and one more to
stop, and then the running product has been multiplied by `10^(e * 2^d)`. -/
theorem powLoop_fuel : ∀ (fuel : Nat) (e : Nat) (d : Nat) (acc : ℚ), d + Nat.size e ≤ 9 →
    powLoop exactOps fuel (e : Int) d acc
      = if Nat.size e < fuel then .ok (acc * (10 : ℚ) ^ (e * 2 ^ d)) else .error .fuel := by
  intro fuel
  induction fuel with
  | zero => intro e d acc _; simp [powLoop]
  | succ fuel ih =>
    intro e d acc hd
    by_cases h0 : e = 0
    · subst h0; simp [powLoop, pure, Except.pure]
    · have hs := size_halve e h0
      have hd9 : d < 9 := by omega
      have hne : ¬ (e : Int) = 0 := by omega
      have hdiv : (e : Int) / 2 = ((e / 2 : Nat) : Int) := by omega
      have hrec := fun acc => ih (e / 2) (d + 1) acc (by omega)
      have hiff : (Nat.size (e / 2) < fuel) = (Nat.size e < fuel + 1) := by
        rw [hs]; exact propext ⟨fun h => by omega, fun h => by omega⟩
      by_cases hodd : e % 2 = 1
      · have hodd' : (e : Int) % 2 = 1 := by omega
        have key : acc * (10 : ℚ) ^ 2 ^ d * (10 : ℚ) ^ (e / 2 * 2 ^ (d + 1))
            = acc * (10 : ℚ) ^ (e * 2 ^ d) := by
          have : e * 2 ^ d = 2 ^ d + e / 2 * 2 ^ (d + 1) := by
            have h2 : e = 2 * (e / 2) + 1 := by omega
            conv_lhs => rw [h2]
            ring
          rw [this, pow_add (10 : ℚ) (2 ^ d) _, mul_assoc]
        have hm : exactOps.mul acc ((10 : ℚ) ^ 2 ^ d) = acc * (10 : ℚ) ^ 2 ^ d := rfl
        simp only [powLoop, ne_eq, hne, not_false_eq_true, if_true, hodd', rdTable_exact d hd9,
          bind, Except.bind, hdiv, hrec, hiff, hm, key]
      · have hodd' : ¬ (e : Int) % 2 = 1 := by omega
        have key : acc * (10 : ℚ) ^ (e / 2 * 2 ^ (d + 1)) = acc * (10 : ℚ) ^ (e * 2 ^ d) := by
          have : e * 2 ^ d = e / 2 * 2 ^ (d + 1) := by
            have h2 : e = 2 * (e / 2) := by omega
            conv_lhs => rw [h2]
            ring
          rw [this]
        simp only [powLoop, ne_eq, hne, not_false_eq_true, if_true, hodd', if_false, hdiv, hrec,
          hiff, key]

/-! ## The clamped exponent and the range of binary64 -/

/-- The power `10^511` lies above `2^1024`. -/
theorem pow2_1024_le : pow2 1024 ≤ (10 : ℚ) ^ (511 : Nat) := by
  have h1 : pow2 1024 ≤ pow2 1533 := pow2_le (by norm_num)
  have h2 : pow2 1533 = ((2 : ℚ) ^ (3 : Nat)) ^ (511 : Nat) := by
    rw [pow2_eq, ← pow_mul, ← zpow_natCast]
    rfl
  have h3 : ((2 : ℚ) ^ (3 : Nat)) ^ (511 : Nat) ≤ (10 : ℚ) ^ (511 : Nat) :=
    pow_le_pow_left₀ (by norm_num) (by norm_num) _
  linarith

/-- The power `10^(-493)` lies below `2^(-1075)`. -/
theorem inv_pow10_493_le : 1 / (10 : ℚ) ^ (493 : Nat) ≤ pow2 (-1075) := by
  have h1 : pow2 (-1479) ≤ pow2 (-1075) := pow2_le (by norm_num)
  have h2 : pow2 (-1479) = 1 / ((2 : ℚ) ^ (3 : Nat)) ^ (493 : Nat) := by
    rw [pow2_eq, ← pow_mul, one_div, ← zpow_natCast, ← zpow_neg]
    rfl
  have h3 : ((2 : ℚ) ^ (3 : Nat)) ^ (493 : Nat) ≤ (10 : ℚ) ^ (493 : Nat) :=
    pow_le_pow_left₀ (by norm_num) (by norm_num) _
  have h4 : 1 / (10 : ℚ) ^ (493 : Nat) ≤ 1 / ((2 : ℚ) ^ (3 : Nat)) ^ (493 : Nat) :=
    one_div_le_one_div_of_le (by positivity) h3
  linarith

/-- A product `M * 10^x` with `M ≥ 1` and `x ≥ 511` lies at or above `2^1024`. -/
theorem large_product (M : Nat) (x : Int) (hM : 1 ≤ M) (hx : 511 ≤ x) :
    pow2 1024 ≤ (M : ℚ) * (10 : ℚ) ^ x := by
  have h1 : (10 : ℚ) ^ ((511 : Nat) : Int) ≤ (10 : ℚ) ^ x :=
    zpow_le_zpow_right₀ (by norm_num) (by simpa using hx)
  rw [zpow_natCast] at h1
  have h2 : (1 : ℚ) ≤ (M : ℚ) := by exact_mod_cast hM
  have h3 : (0 : ℚ) ≤ (10 : ℚ) ^ x := by positivity
  have := pow2_1024_le
  nlinarith

/-- A product `M * 10^x` with `M < 10^18` and `x ≤ -511` lies below `2^(-1075)`. -/
theorem small_product (M : Nat) (x : Int) (hM : M < 10 ^ 18) (hx : x ≤ -511) :
    (M : ℚ) * (10 : ℚ) ^ x < pow2 (-1075) := by
  have h1 : (10 : ℚ) ^ x ≤ (10 : ℚ) ^ (-((511 : Nat) : Int)) :=
    zpow_le_zpow_right₀ (by norm_num) (by simpa using hx)
  have h2 : (M : ℚ) < (10 : ℚ) ^ (18 : Nat) := by exact_mod_cast hM
  have h3 : (0 : ℚ) < (10 : ℚ) ^ (-((511 : Nat) : Int)) := by positivity
  have h4 : (10 : ℚ) ^ (18 : Nat) * (10 : ℚ) ^ (-((511 : Nat) : Int))
      = 1 / (10 : ℚ) ^ (493 : Nat) := by
    rw [← zpow_natCast, ← zpow_add₀ (by norm_num), one_div, ← zpow_natCast, ← zpow_neg]
    rfl
  have h5 := inv_pow10_493_le
  have h6 : (0 : ℚ) ≤ (M : ℚ) := by positivity
  calc (M : ℚ) * (10 : ℚ) ^ x ≤ (M : ℚ) * (10 : ℚ) ^ (-((511 : Nat) : Int)) :=
        mul_le_mul_of_nonneg_left h1 h6
    _ < (10 : ℚ) ^ (18 : Nat) * (10 : ℚ) ^ (-((511 : Nat) : Int)) :=
        mul_lt_mul_of_pos_right h2 h3
    _ = 1 / (10 : ℚ) ^ (493 : Nat) := h4
    _ ≤ _ := h5

/-- A value at or above `2^1024` rounds to plus infinity. -/
theorem roundD_overflow (q : ℚ) (hq : pow2 1024 ≤ q) : roundD q = .inf false := by
  have hpos : 0 < q := lt_of_lt_of_le (pow2_pos _) hq
  have hab : qabs q = q := by rw [qabs_eq, abs_of_pos hpos]
  have hov : overflowThreshold ≤ qabs q := by
    rw [hab]
    unfold overflowThreshold
    have := pow2_pos 970
    linarith
  have hnneg : ¬ q < 0 := not_lt.mpr hpos.le
  simp [roundD, ne_of_gt hpos, hov, hnneg]

/-- A value between 0 and `2^(-1075)`, half of the least positive `double`, rounds to
zero. -/
theorem roundD_underflow (q : ℚ) (h0 : 0 ≤ q) (hq : q < pow2 (-1075)) : roundD q = .fin 0 := by
  by_cases hz : q = 0
  · simp [roundD, hz]
  · have hpos : 0 < q := lt_of_le_of_ne h0 (Ne.symm hz)
    have hab : qabs q = q := by rw [qabs_eq, abs_of_pos hpos]
    have hnneg : ¬ q < 0 := not_lt.mpr h0
    have hsmall : pow2 (-1075) < overflowThreshold := by
      have h1 : pow2 (-1075) < pow2 970 := pow2_lt (by norm_num)
      have h2 : pow2 970 < pow2 1023 := pow2_lt (by norm_num)
      have h3 : pow2 1024 = pow2 1023 * pow2 1 := by rw [← pow2_add]; rfl
      have h4 : pow2 1 = 2 := by simp [pow2]
      unfold overflowThreshold
      rw [h3, h4]
      linarith
    have hnov : ¬ overflowThreshold ≤ qabs q := by
      rw [hab]; exact not_le.mpr (lt_trans hq hsmall)
    have hlog := ilog2_le q hz
    rw [hab] at hlog
    have hil : ilog2 q ≤ -1022 := by
      by_contra hc
      have : pow2 (-1075) ≤ pow2 (ilog2 q) := pow2_le (by omega)
      linarith
    have hqe : quantumExp q = -1074 := by unfold quantumExp; omega
    have hhalf : q / pow2 (-1074) < 1 / 2 := by
      rw [div_lt_iff₀ (pow2_pos _)]
      have h1 : pow2 (-1075) * pow2 1 = pow2 (-1074) := by rw [← pow2_add]; rfl
      have h4 : pow2 1 = 2 := by simp [pow2]
      rw [h4] at h1
      linarith
    have hsn : 0 ≤ q / pow2 (-1074) := div_nonneg h0 (pow2_pos _).le
    have hfl : (q / pow2 (-1074)).num.natAbs / (q / pow2 (-1074)).den = 0 := by
      have h1 := natFloor_le (q / pow2 (-1074)) hsn
      have h2 : (((q / pow2 (-1074)).num.natAbs / (q / pow2 (-1074)).den : Nat) : ℚ) < 1 := by
        linarith
      have h3 : (q / pow2 (-1074)).num.natAbs / (q / pow2 (-1074)).den < 1 := by
        exact_mod_cast h2
      exact Nat.lt_one_iff.mp h3
    have hr : roundHalfEven (q / pow2 (-1074)) = 0 := by
      unfold roundHalfEven
      rw [hfl]
      simp only [Nat.cast_zero, sub_zero, hhalf, if_true]
    have hnov' : ¬ overflowThreshold ≤ q := by rw [← hab]; exact hnov
    simp only [roundD, hz, if_false, hnov, hnov', hnneg, hab, hqe, hr]
    simp

/-- Lines 188-210 when the combined exponent lies outside `-511..511` and is not `-2^31`:
the sign is split off, the magnitude is replaced by 511 and `ERANGE` is assigned. -/
theorem combineExponent_clamped (fe E : Int) (es : Bool) (x : Int)
    (hc : (if es then wrap32 (fe - E) else wrap32 (fe + E)) = x)
    (hx : x < -511 ∨ 511 < x) (hmin : x ≠ -2147483648) :
    combineExponent fe es E = (decide (x < 0), 511, true) := by
  have hr : -2147483648 ≤ x ∧ x < 2147483648 := by
    rw [← hc]; split <;> exact wrap32_range _
  have hwn : wrap32 (-x) = -x := by unfold wrap32; omega
  simp only [combineExponent, hc, maxExponent]
  by_cases hneg : x < 0
  · have h1 : -x > 511 := by omega
    simp [hneg, hwn, h1]
  · have h1 : x > 511 := by omega
    simp [hneg, h1]

/-! ## Overflow in binary64 -/

theorem finiteBound_nonneg : (0 : ℚ) ≤ pow2 1024 - pow2 984 := by
  have := pow2_le (show (984 : Int) ≤ 1024 by norm_num)
  linarith

/-- The end position a call reports is the length of the longest prefix of the input that
matches `whitespace* [+-]? (digit+ ('.' digit*)? | '.' digit+) ([eE] [+-]? digit+)?`, and is
0 when no prefix matches. -/
theorem endPos_longestMatch {α : Type} (ops : DblOps α) (s : List Nat) (r : Result α)
    (hr : string_to_double ops s = .ok r) : LongestMatchEnd s r.endPos := by
  rcases numeral_or_no_digit s with ⟨N0, rest0, hwf0, hs0⟩ | ⟨ws, t, sg, hs, hws, hsg, hd, hp⟩
  · left
    obtain ⟨-, hle, hnum⟩ := endPos_ge ops s r hr N0 rest0 hwf0 hs0
    refine ⟨hle, hnum, ?_⟩
    intro k hk ⟨N, hwf, htxt⟩
    have hs : s = N.text ++ s.drop k := by rw [htxt, List.take_append_drop]
    have := (endPos_ge ops s r hr N (s.drop k) hwf hs).1
    have hl : N.text.length = k := by rw [htxt, List.length_take]; omega
    omega
  · right
    have h0 : r.endPos = 0 := by
      rw [hs, string_to_double_no_digit ops ws t sg hws hsg hd hp] at hr
      simp only [Except.ok.injEq] at hr
      rw [← hr]; rfl
    refine ⟨h0, ?_⟩
    intro k _ ⟨N, hwf, htxt⟩
    have hs' : s = N.text ++ s.drop k := by rw [htxt, List.take_append_drop]
    have := (endPos_ge ops s r hr N (s.drop k) hwf hs').1
    have := text_length_pos N hwf
    omega

/-- On every input the call either runs off `powersOf10` or returns and reports the end of
the longest prefix that is a numeral. -/
theorem end_is_longest_match_or_overrun {α : Type} (ops : DblOps α) (s : List Nat) :
    string_to_double ops s = .error .tableRead ∨
      ∃ r, string_to_double ops s = .ok r ∧ LongestMatchEnd s r.endPos := by
  rcases string_to_double_outcome ops s with ⟨r, hr⟩ | h
  · exact Or.inr ⟨r, hr, endPos_longestMatch ops s r hr⟩
  · exact Or.inl h

theorem tinyNumeral_value : tinyNumeral.value = 1 / 10 ^ 19 := by
  have h1 : digitsVal tinyNumeral.ip = 0 := by decide
  have h2 : digitsVal tinyNumeral.fp = 1 := by decide
  have h3 : tinyNumeral.fp.length = 19 := by decide
  have h4 : tinyNumeral.expInt = 0 := by decide
  have h5 : tinyNumeral.sign = none := rfl
  rw [Numeral.value, mantissaValue, h1, h2, h3, h4, h5]
  simp [signFactor]

/-- Where the value is exact: for every valid decimal numeral without an exponent field in
which every digit after the 18th of the mantissa run is `0` (leading zeros counted), the
accumulated mantissa `M = frac1 * 10^9 + frac2` scaled by `10^fracExp`, in exact arithmetic,
equals the decimal value the numeral denotes, and it is the value returned whenever
`|fracExp| ≤ 511`. -/
theorem zeros_after_18_digits_is_exact (N : Numeral) (hwf : N.WF) (hexp : N.exp = none)
    (hz : ∀ c ∈ N.digits.drop 18, c = 48) :
    ∃ (h : Header) (frac1 frac2 : Nat), header N.text = .ok h ∧
      accumulate N.text h = .ok ((frac1 : Int), (frac2 : Int)) ∧
      signFactor N.sign * ((frac1 * 10 ^ 9 + frac2 : Nat) : ℚ) * (10 : ℚ) ^ h.fracExp
        = N.value ∧
      (|h.fracExp| ≤ 511 →
        string_to_double exactOps N.text = .ok ⟨N.value, N.text.length, false⟩) := by
  have hf0 : Follows N [] := ⟨by decide, fun _ => ⟨fun _ => by decide, by decide, by decide⟩⟩
  have he : N.expInt = 0 := by simp [Numeral.expInt, hexp, expSignOf, expMagnitude]
  have htext : N.text = N.ws ++ (signText N.sign ++ (mantText N.ip N.pt N.fp ++ [])) := by
    simp [Numeral.text, hexp, expFieldText]
  obtain ⟨hh, hacc⟩ := header_accumulate_run N.text N.ws N.ip N.fp [] N.sign N.pt htext
    hwf.1 hwf.2.1 hwf.2.2.1 hwf.2.2.2.1 hwf.2.2.2.2.1 (by decide) (fun _ => by decide)
  have hfc : foldCount (N.ip ++ N.fp) = min (N.ip.length + N.fp.length) 18 := by
    simp only [foldCount, List.length_append]
  have ht : (N.ip ++ N.fp).take (foldCount (N.ip ++ N.fp)) = (N.ip ++ N.fp).take 18 := by
    rw [hfc]
    rcases Nat.lt_or_ge (N.ip.length + N.fp.length) 18 with hlt | hge
    · rw [List.take_of_length_le (by simp only [List.length_append]; omega),
        List.take_of_length_le (by simp only [List.length_append]; omega)]
    · rw [Nat.min_eq_right hge]
  have hM : frac1Of (N.ip ++ N.fp) * 10 ^ 9 + frac2Of (N.ip ++ N.fp)
      = digitsVal ((N.ip ++ N.fp).take 18) := by
    rw [frac_combine, ht]
  have hfe : (headerOf N.ws N.ip N.fp N.sign N.pt).fracExp
      = (N.ip.length : Int) - ((min (N.ip.length + N.fp.length) 18 : Nat) : Int) := rfl
  have hfe2 : fracExpOf N.ip N.fp = (headerOf N.ws N.ip N.fp N.sign N.pt).fracExp := by
    rw [hfe, fracExpOf, hfc]
  have hval : signFactor N.sign * ((digitsVal ((N.ip ++ N.fp).take 18) : Nat) : ℚ)
      * (10 : ℚ) ^ (headerOf N.ws N.ip N.fp N.sign N.pt).fracExp = N.value := by
    rw [Numeral.value, he, zpow_zero, mul_one, mul_assoc, hfe]
    congr 1
    exact first18_scaled_eq N.ip N.fp hz
  refine ⟨headerOf N.ws N.ip N.fp N.sign N.pt, frac1Of (N.ip ++ N.fp), frac2Of (N.ip ++ N.fp),
    hh, hacc, ?_, ?_⟩
  · rw [hM]; exact hval
  · intro hb
    have h := string_to_double_numeral exactOps N [] hwf hf0
    rw [List.append_nil] at h
    have hxe : (headerOf N.ws N.ip N.fp N.sign N.pt).fracExp
        = if expSignOf N.exp = true then fracExpOf N.ip N.fp - (expMagnitude N.exp : Nat)
          else fracExpOf N.ip N.fp + (expMagnitude N.exp : Nat) := by
      rw [hfe2]
      simp [hexp, expSignOf, expMagnitude]
    have hb2 := abs_le.mp hb
    have hc := combineExponent_small (fracExpOf N.ip N.fp) (expSignOf N.exp)
      (expMagnitude N.exp) _ hxe (by rw [hfe2]; omega) hb
    have hle : (headerOf N.ws N.ip N.fp N.sign N.pt).fracExp.natAbs ≤ 511 := by omega
    rw [h, scale_exact _ _ _ _ _ _ _ _ _ hc hle, done_exact, fractionOf_exact]
    have ht2 : N.digits.take (foldCount N.digits) = (N.ip ++ N.fp).take 18 := ht
    rw [ht2, ← hval, ← formed_eq]
    simp only [formed, decide_eq_true_eq]

/-- For an input `s` that is wholly a numeral and a text `t` whose first character is not a
digit, `.`, `e` or `E`, the call on `s` followed by `t` has the same outcome (value and
advisory) as on `s` alone, and an end it reports is `length s`. -/
theorem trailing_text_outcome {α : Type} (ops : DblOps α) (N : Numeral) (t : List Nat)
    (hwf : N.WF)
    (ht : isdigit (peek t) = false ∧ peek t ≠ 46 ∧ peek t ≠ 101 ∧ peek t ≠ 69) :
    string_to_double ops (N.text ++ t) = string_to_double ops N.text ∧
      ∀ r, string_to_double ops (N.text ++ t) = .ok r → r.endPos = N.text.length := by
  have hf : Follows N t := ⟨ht.1, fun _ => ⟨fun _ => ht.2.1, ht.2.2.2, ht.2.2.1⟩⟩
  have hf0 : Follows N [] := ⟨by decide, fun _ => ⟨fun _ => by decide, by decide, by decide⟩⟩
  have e1 := string_to_double_numeral ops N t hwf hf
  have e0 := string_to_double_numeral ops N [] hwf hf0
  rw [List.append_nil] at e0
  refine ⟨by rw [e1, e0], ?_⟩
  intro r hr
  rw [e1] at hr
  exact scale_endPos ops _ _ _ _ _ _ r hr

/-- For a numeral `s` and a text `t` as above, the call on `s` followed by `t` either runs
off `powersOf10`, as the call on `s` alone then does, or both calls return the same value
and advisory, with the end `length s`. -/
theorem trailing_text_or_overrun {α : Type} (ops : DblOps α) (N : Numeral) (t : List Nat)
    (hwf : N.WF)
    (ht : isdigit (peek t) = false ∧ peek t ≠ 46 ∧ peek t ≠ 101 ∧ peek t ≠ 69) :
    (string_to_double ops (N.text ++ t) = .error .tableRead ∧
        string_to_double ops N.text = .error .tableRead) ∨
      ∃ r, string_to_double ops N.text = .ok r ∧ string_to_double ops (N.text ++ t) = .ok r ∧
        r.endPos = N.text.length := by
  obtain ⟨heq, hend⟩ := trailing_text_outcome ops N t hwf ht
  rcases string_to_double_outcome ops (N.text ++ t) with ⟨r, hr⟩ | h
  · exact Or.inr ⟨r, by rw [← heq]; exact hr, hr, hend r hr⟩
  · exact Or.inl ⟨h, by rw [← heq]; exact h⟩

/-! ## The properties stated by the specification -/

/-- C1, at the input `1.5e`: the numeral `1.5` (`n = 2` digits, `decPt = 1`, `M = 15`, no
exponent field, so `x = -1`) followed by the rest `e`.  The claim gives `15 / 10^1 = 3/2`;
the call returns 15, because the jump to `done` at line 181 leaves out the scaling of lines
188-221. -/
theorem marker_after_fraction_returns_unscaled :
    fractionNumeral.WF ∧ fractionNumeral.text ++ bytes "e" = bytes "1.5e" ∧
      fractionNumeral.digits.length = 2 ∧ fractionNumeral.mant = 15 ∧
      fractionNumeral.decExp = -1 ∧
      formed fractionNumeral.sign fractionNumeral.mant fractionNumeral.decExp = 3 / 2 ∧
      string_to_double exactOps (fractionNumeral.text ++ bytes "e") = .ok ⟨15, 3, false⟩ := by
  refine ⟨by decide, by decide, by decide, by decide, by decide, ?_, by decide!⟩
  rw [formed_eq]
  have h1 : fractionNumeral.mant = 15 := by decide
  have h2 : fractionNumeral.decExp = -1 := by decide
  have h3 : fractionNumeral.sign = none := rfl
  rw [h1, h2, h3]
  simp [signFactor]
  norm_num

/-- C2, at the input `1e2147483648`: the whole input matches, so the longest matching prefix
has length 12, but the call reports no end: the exponent wraps to `-2^31` and the loop of
lines 212-216 runs off `powersOf10` before `done` is reached.  On every input the call
either runs off the table in this way or returns and reports the end of the longest matching
prefix; so it does on the inputs the specification lists. -/
theorem overrun_reports_no_end :
    LongestMatchEnd (bytes "1e2147483648") 12 ∧
      string_to_double exactOps (bytes "1e2147483648") = .error .tableRead ∧
      (∀ s : List Nat, string_to_double exactOps s = .error .tableRead ∨
        ∃ r, string_to_double exactOps s = .ok r ∧ LongestMatchEnd s r.endPos) ∧
      (string_to_double exactOps (bytes "3.14") = .ok ⟨157 / 50, 4, false⟩ ∧
        LongestMatchEnd (bytes "3.14") 4) ∧
      (string_to_double exactOps (bytes "  -0.5e3") = .ok ⟨-500, 8, false⟩ ∧
        LongestMatchEnd (bytes "  -0.5e3") 8) ∧
      (string_to_double exactOps (bytes "1e") = .ok ⟨1, 1, false⟩ ∧
        LongestMatchEnd (bytes "1e") 1) ∧
      (string_to_double exactOps (bytes "1.2.3") = .ok ⟨6 / 5, 3, false⟩ ∧
        LongestMatchEnd (bytes "1.2.3") 3) ∧
      (string_to_double exactOps (bytes "1e5.5") = .ok ⟨100000, 3, false⟩ ∧
        LongestMatchEnd (bytes "1e5.5") 3) := by
  have hlen : (bytes "1e2147483648").length = 12 := by decide
  have hlong : LongestMatchEnd (bytes "1e2147483648") 12 := by
    left
    refine ⟨by rw [hlen], ⟨⟨[], none, bytes "1", false, [], some (101, none, bytes "2147483648")⟩,
      by decide, by decide⟩, ?_⟩
    intro k hk _
    rw [hlen] at hk
    exact hk
  have e1 : string_to_double exactOps (bytes "3.14") = .ok ⟨157 / 50, 4, false⟩ := by decide!
  have e2 : string_to_double exactOps (bytes "  -0.5e3") = .ok ⟨-500, 8, false⟩ := by decide!
  have e3 : string_to_double exactOps (bytes "1e") = .ok ⟨1, 1, false⟩ := by decide!
  have e4 : string_to_double exactOps (bytes "1.2.3") = .ok ⟨6 / 5, 3, false⟩ := by decide!
  have e5 : string_to_double exactOps (bytes "1e5.5") = .ok ⟨100000, 3, false⟩ := by decide!
  exact ⟨hlong, by decide!, end_is_longest_match_or_overrun exactOps,
    ⟨e1, endPos_longestMatch exactOps _ _ e1⟩, ⟨e2, endPos_longestMatch exactOps _ _ e2⟩,
    ⟨e3, endPos_longestMatch exactOps _ _ e3⟩, ⟨e4, endPos_longestMatch exactOps _ _ e4⟩,
    ⟨e5, endPos_longestMatch exactOps _ _ e5⟩⟩

/-- C3: when the mantissa run after the leading white space `ws` and the optional sign `sg`
holds no digit (the text `t` left starts with no digit, and a point at its start is not
followed by a digit), the call returns 0 and reports the end at offset 0, the very start of
the input. -/
theorem no_digit_returns_zero_at_start (ws t : List Nat) (sg : Option Bool) (hws : AllSpace ws)
    (hsg : sg = none → isspace (peek t) = false ∧ peek t ≠ 43 ∧ peek t ≠ 45)
    (hd : isdigit (peek t) = false) (hp : peek t = 46 → isdigit (peek t.tail) = false) :
    string_to_double exactOps (ws ++ (signText sg ++ t)) = .ok ⟨0, 0, false⟩ := by
  rw [string_to_double_no_digit exactOps ws t sg hws hsg hd hp]
  by_cases h : sg = some true <;> simp [done, exactOps, h]

/-- The inputs the specification lists: the empty input, blanks, `abc`, `+`, `-`, and also
a lone `.` and blanks before `-.e5`. -/
theorem no_digit_returns_zero_at_start_witness :
    string_to_double exactOps (bytes "") = .ok ⟨0, 0, false⟩ ∧
      string_to_double exactOps (bytes "   ") = .ok ⟨0, 0, false⟩ ∧
      string_to_double exactOps (bytes "abc") = .ok ⟨0, 0, false⟩ ∧
      string_to_double exactOps (bytes "+") = .ok ⟨0, 0, false⟩ ∧
      string_to_double exactOps (bytes "-") = .ok ⟨0, 0, false⟩ ∧
      string_to_double exactOps (bytes ".") = .ok ⟨0, 0, false⟩ ∧
      string_to_double exactOps (bytes " \t-.e5") = .ok ⟨0, 0, false⟩ :=
  ⟨no_digit_returns_zero_at_start [] [] none (by decide) (by decide) (by decide) (by decide),
   no_digit_returns_zero_at_start (bytes "   ") [] none (by decide) (by decide) (by decide)
     (by decide),
   no_digit_returns_zero_at_start [] (bytes "abc") none (by decide) (by decide) (by decide)
     (by decide),
   no_digit_returns_zero_at_start [] [] (some false) (by decide) (by decide) (by decide)
     (by decide),
   no_digit_returns_zero_at_start [] [] (some true) (by decide) (by decide) (by decide)
     (by decide),
   no_digit_returns_zero_at_start [] (bytes ".") none (by decide) (by decide) (by decide)
     (by decide),
   no_digit_returns_zero_at_start (bytes " \t") (bytes ".e5") (some true) (by decide)
     (by decide) (by decide) (by decide)⟩

/-- C4, at the input `2.5e+`: the end is the position of the marker, but the value returned
is 25, not the `5/2` returned for the input cut off before the marker. -/
theorem dangling_marker_value_differs :
    string_to_double exactOps (bytes "2.5e+") = .ok ⟨25, 3, false⟩ ∧
      string_to_double exactOps (bytes "2.5") = .ok ⟨5 / 2, 3, false⟩ := by
  constructor <;> decide!

/-- C5, at the input `1e4294967296`: the combined exponent is 4294967296, above 511, yet the
call returns 1 without the range advisory, because the exponent accumulated at line 184
wraps to 0. -/
theorem wrapped_exponent_raises_no_advisory :
    wrappingNumeral.text = bytes "1e4294967296" ∧ wrappingNumeral.WF ∧
      511 < |wrappingNumeral.decExp| ∧
      string_to_double exactOps (bytes "1e4294967296") = .ok ⟨1, 12, false⟩ := by
  refine ⟨by decide, by decide, by decide, by decide!⟩

/-- C6, at the input `1e2147483648`: the exponent wraps to `-2^31`, stays `-2^31` after the
sign split and passes the clamp, and the loop of lines 212-216 runs off the end of
`powersOf10`; no (value, end) pair is produced. -/
theorem wrapped_exponent_overruns_table :
    combineExponent 0 false (wrap32 2147483648) = (true, -2147483648, false) ∧
      string_to_double exactOps (bytes "1e2147483648") = .error .tableRead := by
  exact ⟨by decide, by decide!⟩

/-- C8, at the input `0.0000000000000000001`: a valid numeral without exponent field and
with one significant digit, denoting `10^(-19)`, for which the call computes 0, because the
18 digits that lines 126-128 keep are counted from the first digit of the run, leading
zeros included; in the same way `000000000000000000001`, which denotes 1, is computed
as 0. -/
theorem leading_zeros_use_up_the_18_digits :
    tinyNumeral.WF ∧ tinyNumeral.exp = none ∧ significantDigits tinyNumeral.digits ≤ 15 ∧
      tinyNumeral.text = bytes "0.0000000000000000001" ∧
      string_to_double exactOps tinyNumeral.text = .ok ⟨0, 21, false⟩ ∧
      tinyNumeral.value ≠ 0 ∧
      string_to_double exactOps (bytes "000000000000000000001") = .ok ⟨0, 21, false⟩ := by
  refine ⟨by decide, rfl, by decide, by decide, by decide!, ?_, by decide!⟩
  rw [tinyNumeral_value]; norm_num

/-- C9: for a mantissa run `ip [. fp]` with more than 18 digits, lines 119-161 set the
fractional exponent to `decPt - 18` and fold exactly the first 18 digits into the two
accumulators, so that `M = frac1 * 10^9 + frac2` is the integer of the first 18 digits and
`0 ≤ trueValue - M * 10^(decPt - 18) < 10^(decPt - 18)`. -/
theorem long_mantissa_keeps_18_digits (s ws ip fp tail : List Nat) (sg : Option Bool) (pt : Bool)
    (hs : s = ws ++ (signText sg ++ (mantText ip pt fp ++ tail)))
    (hws : AllSpace ws) (hip : AllDigits ip) (hfp : AllDigits fp) (hpt : pt = false → fp = [])
    (h1 : isdigit (peek tail) = false) (h2 : pt = false → peek tail ≠ 46)
    (hn : 18 < ip.length + fp.length) :
    ∃ (h : Header) (frac1 frac2 : Nat), header s = .ok h ∧
      accumulate s h = .ok ((frac1 : Int), (frac2 : Int)) ∧
      h.mantSize = 18 ∧ h.fracExp = (ip.length : Int) - 18 ∧
      frac1 * 10 ^ 9 + frac2 = digitsVal ((ip ++ fp).take 18) ∧
      0 ≤ mantissaValue ip fp - ((frac1 * 10 ^ 9 + frac2 : Nat) : ℚ) * (10 : ℚ) ^ h.fracExp ∧
      mantissaValue ip fp - ((frac1 * 10 ^ 9 + frac2 : Nat) : ℚ) * (10 : ℚ) ^ h.fracExp
        < (10 : ℚ) ^ h.fracExp := by
  have hne : ip ++ fp ≠ [] := by
    intro h
    have := congrArg List.length h
    simp only [List.length_append, List.length_nil] at this
    omega
  obtain ⟨hh, hacc⟩ := header_accumulate_run s ws ip fp tail sg pt hs hws hip hfp hpt hne h1 h2
  have hfc : foldCount (ip ++ fp) = 18 := by
    simp only [foldCount, List.length_append]; omega
  have hM : frac1Of (ip ++ fp) * 10 ^ 9 + frac2Of (ip ++ fp) = digitsVal ((ip ++ fp).take 18) := by
    rw [frac_combine, hfc]
  have hmin : min (ip.length + fp.length) 18 = 18 := by omega
  have hfe : (headerOf ws ip fp sg pt).fracExp = (ip.length : Int) - 18 := by
    simp only [headerOf, hmin]; rfl
  have hms : (headerOf ws ip fp sg pt).mantSize = 18 := by
    simp only [headerOf, hmin]; rfl
  obtain ⟨hlo, hhi⟩ := mantissa_truncation ip fp hip hfp hn
  refine ⟨headerOf ws ip fp sg pt, frac1Of (ip ++ fp), frac2Of (ip ++ fp), hh, hacc, hms, hfe,
    hM, ?_, ?_⟩
  · rw [hM, hfe]; exact hlo
  · rw [hM, hfe]; exact hhi

theorem long_mantissa_keeps_18_digits_witness :
    ∃ (h : Header) (frac1 frac2 : Nat),
      header (bytes "123456789012345678901.0") = .ok h ∧
      accumulate (bytes "123456789012345678901.0") h = .ok ((frac1 : Int), (frac2 : Int)) ∧
      h.mantSize = 18 ∧ h.fracExp = ((bytes "123456789012345678901").length : Int) - 18 ∧
      frac1 * 10 ^ 9 + frac2
        = digitsVal ((bytes "123456789012345678901" ++ bytes "0").take 18) ∧
      0 ≤ mantissaValue (bytes "123456789012345678901") (bytes "0")
        - ((frac1 * 10 ^ 9 + frac2 : Nat) : ℚ) * (10 : ℚ) ^ h.fracExp ∧
      mantissaValue (bytes "123456789012345678901") (bytes "0")
        - ((frac1 * 10 ^ 9 + frac2 : Nat) : ℚ) * (10 : ℚ) ^ h.fracExp < (10 : ℚ) ^ h.fracExp :=
  long_mantissa_keeps_18_digits (bytes "123456789012345678901.0") []
    (bytes "123456789012345678901") (bytes "0") [] none true (by decide) (by decide) (by decide)
    (by decide) (fun h => by cases h) (by decide) (fun h => by cases h) (by decide)

/-- C10, at `s = 1e2147483648` and `t` a blank: `s` is wholly a numeral of length 12 and `t`
starts with no digit, `.`, `e` or `E`, but the call on `s` followed by `t` returns no value
and reports no end: the exponent wraps to `-2^31` and the loop of lines 212-216 runs off
`powersOf10`.  For every numeral `s` and every such `t` the call on `s` followed by `t`
either runs off the table in this way or returns the value and advisory of the call on `s`
alone with the end `length s`, as it does for `-1.5e2` followed by ` kg`. -/
theorem overrun_with_trailing_text :
    (Numeral.WF ⟨[], none, bytes "1", false, [], some (101, none, bytes "2147483648")⟩ ∧
        Numeral.text ⟨[], none, bytes "1", false, [], some (101, none, bytes "2147483648")⟩
          = bytes "1e2147483648" ∧
        isdigit (peek (bytes " ")) = false ∧ peek (bytes " ") ≠ 46 ∧ peek (bytes " ") ≠ 101 ∧
        peek (bytes " ") ≠ 69) ∧
      string_to_double exactOps (bytes "1e2147483648" ++ bytes " ") = .error .tableRead ∧
      (∀ (N : Numeral) (t : List Nat), N.WF →
        isdigit (peek t) = false ∧ peek t ≠ 46 ∧ peek t ≠ 101 ∧ peek t ≠ 69 →
        (string_to_double exactOps (N.text ++ t) = .error .tableRead ∧
            string_to_double exactOps N.text = .error .tableRead) ∨
          ∃ r, string_to_double exactOps N.text = .ok r ∧
            string_to_double exactOps (N.text ++ t) = .ok r ∧ r.endPos = N.text.length) ∧
      string_to_double exactOps (bytes "-1.5e2") = .ok ⟨-150, 6, false⟩ ∧
      string_to_double exactOps (bytes "-1.5e2" ++ bytes " kg") = .ok ⟨-150, 6, false⟩ := by
  exact ⟨by decide, by decide!, fun N t hwf ht => trailing_text_or_overrun exactOps N t hwf ht,
    by decide!, by decide!⟩

/-- C11: for an input `s` that begins with a digit, or with `.` followed by a digit, and the
result `r` of the call on `s`: the call on `-` followed by `s` returns the negated value and
the end `r.endPos + 1`, the call on `+` followed by `s` returns the same value and the end
`r.endPos + 1` (the advisory is the same in both); and after a first sign a second sign is
not consumed: the call returns `0.0` with the first sign applied and the end 0. -/
theorem sign_in_front_negates_and_shifts {α : Type} (ops : DblOps α) (s : List Nat)
    (hs : isdigit (peek s) = true ∨ (peek s = 46 ∧ isdigit (peek s.tail) = true)) :
    (∀ r, string_to_double ops s = .ok r →
        string_to_double ops (45 :: s) = .ok ⟨ops.neg r.value, r.endPos + 1, r.erange⟩ ∧
        string_to_double ops (43 :: s) = .ok ⟨r.value, r.endPos + 1, r.erange⟩) ∧
      ∀ (c1 c2 : Nat) (t : List Nat), c1 = 43 ∨ c1 = 45 → c2 = 43 ∨ c2 = 45 →
        string_to_double ops (c1 :: c2 :: t) = .ok (done ops (c1 = 45) ops.zero 0 false) := by
  have hnsp : isspace (peek s) = false := by
    rcases hs with h | ⟨h, -⟩
    · obtain ⟨a, b⟩ := isdigit_iff.mp h
      simp only [isspace, Bool.or_eq_false_iff, decide_eq_false_iff_not, Bool.and_eq_false_iff]
      omega
    · rw [h]; decide
  have hnsg : peek s ≠ 43 ∧ peek s ≠ 45 := by
    rcases hs with h | ⟨h, -⟩
    · obtain ⟨a, b⟩ := isdigit_iff.mp h
      omega
    · rw [h]; decide
  constructor
  · rcases maximal_numeral_or_no_digit s with
      ⟨N, rest, hwf, hmax, hs0⟩ | ⟨ws, t, sg, hs0, hws, hsg, hd, hp⟩
    · obtain ⟨ws, sg, ip, pt, fp, ex⟩ := N
      have hw : ws = [] := by
        by_contra hne
        have := peek_ws_append ws (signText sg ++ (mantText ip pt fp ++ expFieldText ex) ++ rest)
          hwf.1 hne
        rw [hs0] at hnsp
        simp only [Numeral.text, List.append_assoc] at hnsp this
        rw [this] at hnsp
        cases hnsp
      subst hw
      have hg : sg = none := by
        by_contra hne
        have := peek_sign_append sg ((mantText ip pt fp ++ expFieldText ex) ++ rest) hne
        rw [hs0] at hnsg
        simp only [Numeral.text, List.nil_append, List.append_assoc] at hnsg this
        rcases this with h | h
        · exact hnsg.1 h
        · exact hnsg.2 h
      subst hg
      obtain ⟨X, hX⟩ := string_to_double_core ops ip fp pt ex rest
      have h0 := hX [] none hwf hmax
      have hm := hX [] (some true) hwf hmax
      have hp := hX [] (some false) hwf hmax
      have em : (45 :: s) = Numeral.text ⟨[], some true, ip, pt, fp, ex⟩ ++ rest := by
        rw [hs0]; simp [Numeral.text, signText]
      have ep : (43 :: s) = Numeral.text ⟨[], some false, ip, pt, fp, ex⟩ ++ rest := by
        rw [hs0]; simp [Numeral.text, signText]
      have lm : (Numeral.text ⟨[], some true, ip, pt, fp, ex⟩).length
          = (Numeral.text ⟨[], none, ip, pt, fp, ex⟩).length + 1 := by
        simp [Numeral.text, signText]
      have lp : (Numeral.text ⟨[], some false, ip, pt, fp, ex⟩).length
          = (Numeral.text ⟨[], none, ip, pt, fp, ex⟩).length + 1 := by
        simp [Numeral.text, signText]
      intro r hr
      rw [em, ep, hm, hp, lm, lp]
      rw [hs0, h0] at hr
      cases X with
      | error f => cases hr
      | ok x =>
        simp only [Except.map, Except.ok.injEq] at hr
        subst hr
        simp [Except.map, done]
    · exfalso
      have hw : ws = [] := by
        by_contra hne
        have := peek_ws_append ws (signText sg ++ t) hws hne
        rw [hs0, this] at hnsp
        cases hnsp
      subst hw
      have hg : sg = none := by
        by_contra hne
        have := peek_sign_append sg t hne
        rw [hs0] at hnsg
        simp only [List.nil_append] at hnsg
        rcases this with h | h
        · exact hnsg.1 h
        · exact hnsg.2 h
      subst hg
      simp only [List.nil_append, signText] at hs0
      subst hs0
      rcases hs with h | ⟨h, h2⟩
      · rw [h] at hd; cases hd
      · rw [hp h] at h2; cases h2
  · intro c1 c2 t h1 h2
    have hd : isdigit (peek (c2 :: t)) = false := by
      rcases h2 with h | h <;> subst h <;> rfl
    have hp : peek (c2 :: t) = 46 → isdigit (peek (c2 :: t).tail) = false := by
      intro h
      rcases h2 with h' | h' <;> subst h' <;> simp [peek] at h
    rcases h1 with h | h
    · subst h
      have := string_to_double_no_digit ops [] (c2 :: t) (some false)
        (fun _ h => absurd h (List.not_mem_nil _)) (fun h => by cases h) hd hp
      simpa [signText] using this
    · subst h
      have := string_to_double_no_digit ops [] (c2 :: t) (some true)
        (fun _ h => absurd h (List.not_mem_nil _)) (fun h => by cases h) hd hp
      simpa [signText] using this

theorem sign_in_front_negates_and_shifts_witness :
    string_to_double exactOps (bytes ".5e1x") = .ok ⟨5, 4, false⟩ ∧
      string_to_double exactOps (45 :: bytes ".5e1x") = .ok ⟨-5, 5, false⟩ ∧
      string_to_double exactOps (43 :: bytes ".5e1x") = .ok ⟨5, 5, false⟩ ∧
      string_to_double exactOps (bytes "--1") = .ok ⟨0, 0, false⟩ ∧
      string_to_double exactOps (bytes "+-1") = .ok ⟨0, 0, false⟩ := by
  have h := sign_in_front_negates_and_shifts exactOps (bytes ".5e1x") (Or.inr (by decide))
  have h0 : string_to_double exactOps (bytes ".5e1x") = .ok ⟨5, 4, false⟩ := by decide!
  obtain ⟨hm, hp⟩ := h.1 ⟨5, 4, false⟩ h0
  have h1 := h.2 45 45 (bytes "1") (Or.inr rfl) (Or.inr rfl)
  have h2 := h.2 43 45 (bytes "1") (Or.inl rfl) (Or.inr rfl)
  refine ⟨h0, ?_, ?_, ?_, ?_⟩
  · simpa [exactOps] using hm
  · simpa using hp
  · simpa [done, exactOps] using h1
  · simpa [done, exactOps] using h2

/-- C12: for an input `s` that does not begin with white space and a run `w` of white space
characters, the call on `w` followed by `s` returns the value (and the advisory) of the call
on `s`; its end is `length w` plus the end for `s` when that end is greater than 0, and 0
when the end for `s` is 0. -/
theorem leading_space_shifts_the_end {α : Type} (ops : DblOps α) (s w : List Nat)
    (hs : isspace (peek s) = false) (hw : AllSpace w) :
    ∀ r, string_to_double ops s = .ok r →
      string_to_double ops (w ++ s)
        = .ok ⟨r.value, if r.endPos = 0 then 0 else w.length + r.endPos, r.erange⟩ := by
  rcases maximal_numeral_or_no_digit s with
    ⟨N, rest, hwf, hmax, hs0⟩ | ⟨ws, t, sg, hs0, hws, hsg, hd, hp⟩
  · obtain ⟨ws, sg, ip, pt, fp, ex⟩ := N
    have hnil : ws = [] := by
      by_contra hne
      have := peek_ws_append ws (signText sg ++ (mantText ip pt fp ++ expFieldText ex) ++ rest)
        hwf.1 hne
      rw [hs0] at hs
      simp only [Numeral.text, List.append_assoc] at hs this
      rw [this] at hs
      cases hs
    subst hnil
    obtain ⟨X, hX⟩ := string_to_double_core ops ip fp pt ex rest
    have hwf' : Numeral.WF ⟨w, sg, ip, pt, fp, ex⟩ := ⟨hw, hwf.2⟩
    have h0 := hX [] sg hwf hmax
    have h1 := hX w sg hwf' hmax
    have e1 : w ++ s = Numeral.text ⟨w, sg, ip, pt, fp, ex⟩ ++ rest := by
      rw [hs0]; simp [Numeral.text]
    have l1 : (Numeral.text ⟨w, sg, ip, pt, fp, ex⟩).length
        = w.length + (Numeral.text ⟨[], sg, ip, pt, fp, ex⟩).length := by
      simp [Numeral.text]
    have hpos := text_length_pos ⟨[], sg, ip, pt, fp, ex⟩ hwf
    intro r hr
    rw [e1, h1, l1]
    rw [hs0, h0] at hr
    cases X with
    | error f => cases hr
    | ok x =>
      simp only [Except.map, Except.ok.injEq] at hr
      subst hr
      have hne : ¬ (Numeral.text ⟨[], sg, ip, pt, fp, ex⟩).length = 0 := by omega
      simp [Except.map, done, hne]
  · have hnil : ws = [] := by
      by_contra hne
      have := peek_ws_append ws (signText sg ++ t) hws hne
      rw [hs0, this] at hs
      cases hs
    subst hnil
    intro r hr
    have h0 := string_to_double_no_digit ops [] t sg
      (fun _ h => absurd h (List.not_mem_nil _)) hsg hd hp
    have h1 := string_to_double_no_digit ops w t sg hw hsg hd hp
    rw [hs0, h0] at hr
    simp only [Except.ok.injEq] at hr
    subst hr
    rw [hs0, List.nil_append, h1]
    simp [done]

theorem leading_space_shifts_the_end_witness :
    string_to_double exactOps (bytes "-0.5e3") = .ok ⟨-500, 6, false⟩ ∧
      string_to_double exactOps (bytes "  " ++ bytes "-0.5e3") = .ok ⟨-500, 8, false⟩ ∧
      string_to_double exactOps (bytes "-x") = .ok ⟨0, 0, false⟩ ∧
      string_to_double exactOps ([32, 9] ++ bytes "-x") = .ok ⟨0, 0, false⟩ := by
  have h0 : string_to_double exactOps (bytes "-0.5e3") = .ok ⟨-500, 6, false⟩ := by decide!
  have h1 := leading_space_shifts_the_end exactOps (bytes "-0.5e3") (bytes "  ") (by decide)
    (by decide) ⟨-500, 6, false⟩ h0
  have g0 : string_to_double exactOps (bytes "-x") = .ok ⟨0, 0, false⟩ := by decide!
  have g1 := leading_space_shifts_the_end exactOps (bytes "-x") [32, 9] (by decide)
    (by decide) ⟨0, 0, false⟩ g0
  refine ⟨h0, ?_, g0, ?_⟩
  · simpa [bytes] using h1
  · simpa using g1

/-- C13: a read of a position past the terminator is the fault `strRead`, which ends the
run.  For every input, lines 81-131 (the white space loop, the sign, the mantissa scan)
return; when there is a digit, the two accumulation loops (with their read after a `.`) and
the exponent field (with its reads after the marker and the exponent sign) return; so no
call ends in that fault, and the end a call reports is at most the length of the input. -/
theorem reads_stay_within_the_terminator {α : Type} (ops : DblOps α) (s : List Nat) :
    (∀ p, (∃ c, rd s p = .ok c) ↔ p ≤ s.length) ∧
      (∃ h, header s = .ok h ∧
        (h.mantSize ≠ 0 →
          (∃ f, accumulate s h = .ok f) ∧ ∃ e, exponentField s h.pExp = .ok e)) ∧
      string_to_double ops s ≠ .error .strRead ∧
      ∀ r, string_to_double ops s = .ok r → r.endPos ≤ s.length := by
  refine ⟨?_, ?_, ?_, ?_⟩
  · intro p
    unfold rd
    constructor
    · rintro ⟨c, hc⟩
      by_contra hlt
      have h1 : ¬ p < s.length := by omega
      have h2 : ¬ p = s.length := by omega
      simp only [h1, h2, if_false] at hc
      cases hc
    · intro hle
      by_cases h1 : p < s.length
      · exact ⟨s.getD p 0, by simp only [h1, if_true]⟩
      · have h2 : p = s.length := by omega
        exact ⟨0, by rw [if_neg h1, if_pos h2]⟩
  · rcases maximal_numeral_or_no_digit s with
      ⟨N, rest, hwf, hmax, hs0⟩ | ⟨ws, t, sg, hs0, hws, hsg, hd, hp⟩
    · have hs1 : s = N.ws ++ (signText N.sign ++ (mantText N.ip N.pt N.fp
          ++ (expFieldText N.exp ++ rest))) := by simp [hs0, Numeral.text]
      have hfirst : isdigit (peek (expFieldText N.exp ++ rest)) = false ∧
          (N.pt = false → peek (expFieldText N.exp ++ rest) ≠ 46) := by
        match hN : N.exp, hwf.2.2.2.2.2 with
        | some (m, es, ed), hexp =>
          obtain ⟨hm, -, -⟩ := hexp
          simp only [expFieldText, expText, List.cons_append, peek_cons]
          rcases hm with h | h <;> subst h <;> exact ⟨by decide, fun _ => by decide⟩
        | none, _ =>
          simp only [expFieldText, List.nil_append]
          exact ⟨hmax.1, fun h => (hmax.2 hN).1 h⟩
      obtain ⟨hh, hacc⟩ := header_accumulate_run s N.ws N.ip N.fp _ N.sign N.pt hs1
        hwf.1 hwf.2.1 hwf.2.2.1 hwf.2.2.2.1 hwf.2.2.2.2.1 hfirst.1 hfirst.2
      obtain ⟨e, he⟩ := exponentField_returns N rest hwf hmax
      refine ⟨_, hh, fun _ => ⟨⟨_, hacc⟩, e, ?_⟩⟩
      rw [hs0]
      exact he
    · obtain ⟨h, hh, hm⟩ := header_no_digit ws t sg hws hsg hd hp
      rw [hs0]
      exact ⟨h, hh, fun hne => absurd hm hne⟩
  · rcases string_to_double_outcome ops s with ⟨r, hr⟩ | h
    · rw [hr]; exact fun h => by cases h
    · rw [h]; exact fun h => by cases h
  · intro r hr
    rcases maximal_numeral_or_no_digit s with
      ⟨N, rest, hwf, hmax, hs0⟩ | ⟨ws, t, sg, hs0, hws, hsg, hd, hp⟩
    · rw [hs0] at hr
      rw [endPos_of_maxFollows ops N rest r hwf hmax hr, hs0]
      simp
    · rw [hs0, string_to_double_no_digit ops ws t sg hws hsg hd hp] at hr
      simp only [Except.ok.injEq] at hr
      rw [← hr]
      exact Nat.zero_le _

/-- C14: for a mantissa run `ip [. fp]` with `n ≥ 1` digits (the point, when there is one,
before the first digit, between digits or after the last) and `k = min n 18`: lines 81-131
leave `mantSize = k`, and lines 137-159 leave in `frac1` the integer of the first `k - 9`
digits and in `frac2` the integer of the `min k 9` digits after them.  The records of the
two loops show that the characters folded are exactly those digits in their order (the
point is not among them), that each `c - '0'` lies in `0..9`, and that each
`10*frac + (c - '0')` lies in `0 .. 10^9 - 1` before it is stored, so no `int` operation
overflows.  Both accumulators end below `10^9`, and `frac1 * 10^9 + frac2` is the integer
of the first `k` digits. -/
theorem accumulators_hold_the_first_18_digits (s ws ip fp tail : List Nat) (sg : Option Bool)
    (pt : Bool) (k : Nat)
    (hs : s = ws ++ (signText sg ++ (mantText ip pt fp ++ tail)))
    (hws : AllSpace ws) (hip : AllDigits ip) (hfp : AllDigits fp) (hpt : pt = false → fp = [])
    (h1 : isdigit (peek tail) = false) (h2 : pt = false → peek tail ≠ 46)
    (hn : 1 ≤ ip.length + fp.length) (hk : k = min (ip.length + fp.length) 18) :
    ∃ (h : Header) (frac1 frac2 : Nat) (tr1 tr2 : List (Nat × Int)),
      header s = .ok h ∧ h.mantSize = k ∧
      accumulate s h = .ok ((frac1 : Int), (frac2 : Int)) ∧
      accumulateTrace s h = .ok (((frac1 : Int), (frac2 : Int)), tr1, tr2) ∧
      frac1 = digitsVal ((ip ++ fp).take (k - 9)) ∧
      frac2 = digitsVal (((ip ++ fp).drop (k - 9)).take (min k 9)) ∧
      tr1.map Prod.fst = (ip ++ fp).take (k - 9) ∧
      tr2.map Prod.fst = ((ip ++ fp).drop (k - 9)).take (min k 9) ∧
      (∀ e ∈ tr1 ++ tr2, 0 ≤ (e.1 : Int) - 48 ∧ (e.1 : Int) - 48 ≤ 9 ∧
        0 ≤ e.2 ∧ e.2 < 10 ^ 9) ∧
      frac1 < 10 ^ 9 ∧ frac2 < 10 ^ 9 ∧
      frac1 * 10 ^ 9 + frac2 = digitsVal ((ip ++ fp).take k) := by
  have hne : ip ++ fp ≠ [] := by
    intro h
    have := congrArg List.length h
    simp only [List.length_append, List.length_nil] at this
    omega
  have hD : AllDigits (ip ++ fp) := hip.append hfp
  obtain ⟨hh, hacc⟩ := header_accumulate_run s ws ip fp tail sg pt hs hws hip hfp hpt hne h1 h2
  have hfc : foldCount (ip ++ fp) = k := by
    simp only [foldCount, List.length_append, hk]
  have hms : (headerOf ws ip fp sg pt).mantSize = (k : Int) := by
    simp only [headerOf, hk]
  have hs' : s = (ws ++ signText sg) ++ (mantText ip pt fp ++ tail) := by
    rw [hs]; simp only [List.append_assoc]
  have htr := accumulateTrace_run s (ws ++ signText sg) ip fp tail pt (headerOf ws ip fp sg pt)
    k hs' hip hfp hpt (by simp [headerOf]) hms (by omega) (by omega)
  have hd1 : AllDigits ((ip ++ fp).take (k - 9)) := hD.take _
  have hd2 : AllDigits (((ip ++ fp).drop (k - 9)).take (min k 9)) := (hD.drop _).take _
  have hl1 : ((ip ++ fp).take (k - 9)).length ≤ 9 := by
    simp only [List.length_take]; omega
  have hl2 : (((ip ++ fp).drop (k - 9)).take (min k 9)).length ≤ 9 := by
    simp only [List.length_take]; omega
  have hentry : ∀ (ds : List Nat), AllDigits ds → ds.length ≤ 9 → ∀ e ∈ foldTrace 0 ds,
      0 ≤ (e.1 : Int) - 48 ∧ (e.1 : Int) - 48 ≤ 9 ∧ 0 ≤ e.2 ∧ e.2 < 10 ^ 9 := by
    intro ds hds hlen e he
    have hmem : e.1 ∈ ds := by
      have : e.1 ∈ (foldTrace 0 ds).map Prod.fst := List.mem_map_of_mem _ he
      rwa [foldTrace_fst] at this
    obtain ⟨a, b⟩ := isdigit_iff.mp (hds e.1 hmem)
    obtain ⟨h0, hb⟩ := foldTrace_bound ds 0 hds e he
    have hp : (0 + 1) * 10 ^ ds.length ≤ (0 + 1) * 10 ^ 9 := pow10_mono hlen _
    have hp' : (((0 + 1) * 10 ^ ds.length : Nat) : Int) ≤ 10 ^ 9 := by
      have : (0 + 1) * 10 ^ ds.length ≤ 10 ^ 9 := by simpa using hp
      exact_mod_cast this
    refine ⟨by omega, by omega, h0, by omega⟩
  refine ⟨headerOf ws ip fp sg pt, frac1Of (ip ++ fp), frac2Of (ip ++ fp),
    foldTrace 0 ((ip ++ fp).take (k - 9)),
    foldTrace 0 (((ip ++ fp).drop (k - 9)).take (min k 9)), hh, hms, hacc, ?_, ?_, ?_,
    foldTrace_fst _ 0, foldTrace_fst _ 0, ?_, frac1Of_lt _ hD, frac2Of_lt _ hD, ?_⟩
  · rw [htr]; simp only [frac1Of, frac2Of, hfc]
  · simp only [frac1Of, hfc]
  · simp only [frac2Of, hfc]
  · intro e he
    rcases List.mem_append.mp he with h | h
    · exact hentry _ hd1 hl1 e h
    · exact hentry _ hd2 hl2 e h
  · rw [frac_combine, hfc]

theorem accumulators_hold_the_first_18_digits_witness :
    ∃ (h : Header) (frac1 frac2 : Nat) (tr1 tr2 : List (Nat × Int)),
      header (bytes " -1234567890.12345678901x") = .ok h ∧ h.mantSize = 18 ∧
      accumulate (bytes " -1234567890.12345678901x") h = .ok ((frac1 : Int), (frac2 : Int)) ∧
      accumulateTrace (bytes " -1234567890.12345678901x") h
        = .ok (((frac1 : Int), (frac2 : Int)), tr1, tr2) ∧
      frac1 = digitsVal ((bytes "1234567890" ++ bytes "12345678901").take (18 - 9)) ∧
      frac2 = digitsVal (((bytes "1234567890" ++ bytes "12345678901").drop (18 - 9)).take
        (min 18 9)) ∧
      tr1.map Prod.fst = (bytes "1234567890" ++ bytes "12345678901").take (18 - 9) ∧
      tr2.map Prod.fst
        = ((bytes "1234567890" ++ bytes "12345678901").drop (18 - 9)).take (min 18 9) ∧
      (∀ e ∈ tr1 ++ tr2, 0 ≤ (e.1 : Int) - 48 ∧ (e.1 : Int) - 48 ≤ 9 ∧
        0 ≤ e.2 ∧ e.2 < 10 ^ 9) ∧
      frac1 < 10 ^ 9 ∧ frac2 < 10 ^ 9 ∧
      frac1 * 10 ^ 9 + frac2
        = digitsVal ((bytes "1234567890" ++ bytes "12345678901").take 18) :=
  accumulators_hold_the_first_18_digits (bytes " -1234567890.12345678901x") (bytes " ")
    (bytes "1234567890") (bytes "12345678901") (bytes "x") (some true) true 18
    (by decide) (by decide) (by decide) (by decide) (fun h => by cases h) (by decide)
    (fun h => by cases h) (by decide) (by decide)

/-- C15: for an exponent magnitude `e ≤ 511`, whose binary length `Nat.size e` is at most 9,
the loop of lines 212-216 started with the running product `1.0` at entry 0 of the table
stops after exactly `Nat.size e` iterations (it returns when given `Nat.size e + 1`
evaluations of its condition and not when given `Nat.size e`), returns without a read
outside the nine entries of `powersOf10`, and leaves `10^e`, in exact arithmetic; so does
the call of line 211-216 as `scale` makes it. -/
theorem power_loop_builds_ten_to_the_e (e : Nat) (he : e ≤ 511) :
    Nat.size e ≤ 9 ∧
      powLoop exactOps (Nat.size e + 1) (e : Int) 0 (exactOps.lit 0) = .ok ((10 : ℚ) ^ e) ∧
      powLoop exactOps (Nat.size e) (e : Int) 0 (exactOps.lit 0) = .error .fuel ∧
      powLoop exactOps 64 (e : Int) 0 (exactOps.lit 0) = .ok ((10 : ℚ) ^ e) := by
  have hsz : Nat.size e ≤ 9 := by
    rw [Nat.size_le]
    have : (2 : Nat) ^ 9 = 512 := by norm_num
    omega
  have hl : exactOps.lit 0 = 1 := by simp [exactOps]
  have h := fun fuel => powLoop_fuel fuel e 0 1 (by omega)
  simp only [pow_zero, mul_one, one_mul] at h
  refine ⟨hsz, ?_, ?_, ?_⟩
  · rw [hl, h, if_pos (by omega)]
  · rw [hl, h, if_neg (by omega)]
  · rw [hl, h, if_pos (by omega)]

theorem power_loop_builds_ten_to_the_e_witness :
    Nat.size 300 ≤ 9 ∧
      powLoop exactOps (Nat.size 300 + 1) ((300 : Nat) : Int) 0 (exactOps.lit 0)
        = .ok ((10 : ℚ) ^ 300) ∧
      powLoop exactOps (Nat.size 300) ((300 : Nat) : Int) 0 (exactOps.lit 0) = .error .fuel ∧
      powLoop exactOps 64 ((300 : Nat) : Int) 0 (exactOps.lit 0) = .ok ((10 : ℚ) ^ 300) :=
  power_loop_builds_ten_to_the_e 300 (by decide)

/-- C16: for an accumulated mantissa `1 ≤ M < 10^18` and a combined exponent `x` outside
`-511..511`: when `x > 0`, both `M * 10^x` and the clamped `M * 10^511` are at least `2^1024`
(and round to plus infinity in binary64); when `x < 0`, both `M * 10^x` and the clamped
`M / 10^511` are below `2^(-1075)` (and round to zero).  The clamped value is the one lines
188-221 compute, with the advisory, whenever line 192 leaves `x` in `exp` and `x` is not
`-2^31`. -/
theorem clamping_keeps_overflow_and_underflow (M : Nat) (x : Int) (hM1 : 1 ≤ M)
    (hM2 : M < 10 ^ 18) (hx : x < -511 ∨ 511 < x) :
    (0 < x →
        pow2 1024 ≤ (M : ℚ) * (10 : ℚ) ^ x ∧ pow2 1024 ≤ (M : ℚ) * (10 : ℚ) ^ (511 : Nat) ∧
        roundD ((M : ℚ) * (10 : ℚ) ^ x) = .inf false ∧
        roundD ((M : ℚ) * (10 : ℚ) ^ (511 : Nat)) = .inf false) ∧
      (x < 0 →
        (M : ℚ) * (10 : ℚ) ^ x < pow2 (-1075) ∧ (M : ℚ) / (10 : ℚ) ^ (511 : Nat) < pow2 (-1075) ∧
        roundD ((M : ℚ) * (10 : ℚ) ^ x) = .fin 0 ∧
        roundD ((M : ℚ) / (10 : ℚ) ^ (511 : Nat)) = .fin 0) ∧
      ∀ (fe E : Int) (es : Bool) (p : Nat),
        (if es then wrap32 (fe - E) else wrap32 (fe + E)) = x → x ≠ -2147483648 →
        scale exactOps false (M : ℚ) fe es E p
          = .ok ⟨if x < 0 then (M : ℚ) / (10 : ℚ) ^ (511 : Nat)
              else (M : ℚ) * (10 : ℚ) ^ (511 : Nat), p, true⟩ := by
  have hMpos : (0 : ℚ) ≤ (M : ℚ) := by positivity
  refine ⟨fun hpos => ?_, fun hneg => ?_, ?_⟩
  · have hx1 : 511 ≤ x := by omega
    have a1 := large_product M x hM1 hx1
    have a2 := large_product M ((511 : Nat) : Int) hM1 (by norm_num)
    rw [zpow_natCast] at a2
    exact ⟨a1, a2, roundD_overflow _ a1, roundD_overflow _ a2⟩
  · have hx1 : x ≤ -511 := by omega
    have a1 := small_product M x hM2 hx1
    have a2 := small_product M (-((511 : Nat) : Int)) hM2 (by norm_num)
    rw [zpow_neg, zpow_natCast, ← div_eq_mul_inv] at a2
    have n1 : (0 : ℚ) ≤ (M : ℚ) * (10 : ℚ) ^ x := by positivity
    have n2 : (0 : ℚ) ≤ (M : ℚ) / (10 : ℚ) ^ (511 : Nat) := by positivity
    exact ⟨a1, a2, roundD_underflow _ n1 a1, roundD_underflow _ n2 a2⟩
  · intro fe E es p hc hmin
    have hce := combineExponent_clamped fe E es x hc hx hmin
    have h := scale_exact false (M : ℚ) fe es E p 511 (decide (x < 0)) true hce (by norm_num)
    rw [h]
    by_cases hneg : x < 0 <;> simp [done, hneg]

theorem clamping_keeps_overflow_and_underflow_witness :
    (0 < (600 : Int) →
        pow2 1024 ≤ ((1 : Nat) : ℚ) * (10 : ℚ) ^ (600 : Int) ∧
        pow2 1024 ≤ ((1 : Nat) : ℚ) * (10 : ℚ) ^ (511 : Nat) ∧
        roundD (((1 : Nat) : ℚ) * (10 : ℚ) ^ (600 : Int)) = .inf false ∧
        roundD (((1 : Nat) : ℚ) * (10 : ℚ) ^ (511 : Nat)) = .inf false) ∧
      ((600 : Int) < 0 →
        ((1 : Nat) : ℚ) * (10 : ℚ) ^ (600 : Int) < pow2 (-1075) ∧
        ((1 : Nat) : ℚ) / (10 : ℚ) ^ (511 : Nat) < pow2 (-1075) ∧
        roundD (((1 : Nat) : ℚ) * (10 : ℚ) ^ (600 : Int)) = .fin 0 ∧
        roundD (((1 : Nat) : ℚ) / (10 : ℚ) ^ (511 : Nat)) = .fin 0) ∧
      ∀ (fe E : Int) (es : Bool) (p : Nat),
        (if es then wrap32 (fe - E) else wrap32 (fe + E)) = 600 →
        (600 : Int) ≠ -2147483648 →
        scale exactOps false ((1 : Nat) : ℚ) fe es E p
          = .ok ⟨if (600 : Int) < 0 then ((1 : Nat) : ℚ) / (10 : ℚ) ^ (511 : Nat)
              else ((1 : Nat) : ℚ) * (10 : ℚ) ^ (511 : Nat), p, true⟩ :=
  clamping_keeps_overflow_and_underflow 1 600 (by decide) (by decide) (Or.inr (by decide))

end RetroJson
